import Mathlib

/-!
# Verification of the storage core (LRU-K replacer, buffer pool, extendible hash table)

A shallow embedding of the repository's storage substrate:

* the LRU-K replacer (`lru_k_replacer.cpp` section of
  `src/src/execution/update_executor.cpp`),
* the buffer pool manager (`buffer_pool_manager.cpp` section of the same file),
* the extendible hash table directory page
  (`src/src/container/disk/hash/extendible_htable_directory_page.cpp`),
* the extendible hash table bucket page and table operations
  (`extendible_htable_bucket_page.cpp` / `disk_extendible_hash_table.cpp`
  sections of `src/unnamed/part_000`).

Machine `size_t`/`int` values are modelled by `Nat`/`Int`; `std::list` by
`List` (with `emplace_front` as cons, so the front of the `List` is the most
recently inserted end); `std::unordered_map` by an association list whose
insertion replaces every existing binding of the key, so that lookup is
position-independent on well-formed stores.  Mutating member functions become
functions `State → ... → State`; functions that can throw return
`Except String _` (a `.error` models a C++ exception thrown before any
mutation, so the caller's object keeps its pre-call state).
-/

namespace BusTub

/-! ## LRU-K replacer: data model

One node per tracked frame (`LRUKNode` in the C++): the access counter `k_`
and the evictable flag.  The C++ node also stores a list iterator `pos_`;
positions are recovered here by value since a frame occurs in at most one
list position at a time in every reachable state. -/

structure LRUKNode where
  k_ : Nat
  is_evictable_ : Bool
deriving DecidableEq, Repr

/-- `std::unordered_map<frame_id_t, LRUKNode>` as an association list. -/
abbrev NodeStore := List (Nat × LRUKNode)

def storeLookup (s : NodeStore) (f : Nat) : Option LRUKNode :=
  (s.find? (fun p => p.1 = f)).map (fun p => p.2)

/-- Insertion replaces every existing binding of the key. -/
def storeInsert (s : NodeStore) (f : Nat) (n : LRUKNode) : NodeStore :=
  (f, n) :: s.filter (fun p => p.1 ≠ f)

def storeErase (s : NodeStore) (f : Nat) : NodeStore :=
  s.filter (fun p => p.1 ≠ f)

/-- The state of `LRUKReplacer`: `num_frames`, `k`, the history and cache
intrusive lists (front = most recent), the node store and `curr_size_`. -/
structure LRUKReplacer where
  replacer_size_ : Nat
  k_ : Nat
  hist_list_ : List Nat
  cache_list_ : List Nat
  node_store_ : NodeStore
  curr_size_ : Nat
deriving DecidableEq, Repr

/-- `LRUKReplacer::LRUKReplacer(num_frames, k)`. -/
def LRUKReplacer.init (num_frames k : Nat) : LRUKReplacer :=
  ⟨num_frames, k, [], [], [], 0⟩

/-- The C++ `Evict` scans a list with reverse iterators (`rbegin` to `rend`),
so the victim is the first frame starting from the tail whose node is
evictable.  `node_store_[f].is_evictable_` reads the flag; a frame missing
from the store would be default-constructed with `is_evictable_ = false`
(such a frame is never chosen, and in reachable states every listed frame is
tracked, so the default-insertion side effect of `operator[]` is dropped). -/
def findVictim (store : NodeStore) (l : List Nat) : Option Nat :=
  l.reverse.find? (fun f => (Option.map (fun n => n.is_evictable_) (storeLookup store f)).getD false)

/-- Erase the element found scanning from the tail
(`list.erase(std::next(rit).base())`). -/
def eraseFromTail (l : List Nat) (f : Nat) : List Nat :=
  (l.reverse.erase f).reverse

/-- `LRUKReplacer::Evict`: look for a victim in the history list first, then
in the cache list; remove the victim from its list and from the node store
and decrement `curr_size_`.  Returns `none` when no evictable frame is
found. -/
def LRUKReplacer.Evict (r : LRUKReplacer) : Option (Nat × LRUKReplacer) :=
  match findVictim r.node_store_ r.hist_list_ with
  | some f =>
      some (f, { r with hist_list_ := eraseFromTail r.hist_list_ f,
                        node_store_ := storeErase r.node_store_ f,
                        curr_size_ := r.curr_size_ - 1 })
  | none =>
      match findVictim r.node_store_ r.cache_list_ with
      | some f =>
          some (f, { r with cache_list_ := eraseFromTail r.cache_list_ f,
                            node_store_ := storeErase r.node_store_ f,
                            curr_size_ := r.curr_size_ - 1 })
      | none => none

/-- `LRUKReplacer::RecordAccess`.  The C++ guard is
`if (frame_id > static_cast<int>(replacer_size_)) throw ...` — a strict
`>`, so `frame_id == replacer_size_` is accepted.  `++node_store_[frame_id].k_`
default-constructs a node (counter 0, not evictable) on first access.
`curr_size_` is untouched (the `++curr_size_` line is commented out in the
source); new frames start non-evictable. -/
def LRUKReplacer.RecordAccess (r : LRUKReplacer) (frame_id : Nat) :
    Except String LRUKReplacer :=
  if frame_id > r.replacer_size_ then
    .error "Invalid frame_id"
  else
    let node := (storeLookup r.node_store_ frame_id).getD ⟨0, false⟩
    let new_count := node.k_ + 1
    let store := storeInsert r.node_store_ frame_id { node with k_ := new_count }
    if new_count = 1 then
      .ok { r with node_store_ := store, hist_list_ := frame_id :: r.hist_list_ }
    else if new_count = r.k_ then
      .ok { r with node_store_ := store,
                   hist_list_ := r.hist_list_.erase frame_id,
                   cache_list_ := frame_id :: r.cache_list_ }
    else if new_count > r.k_ then
      .ok { r with node_store_ := store,
                   cache_list_ := frame_id :: r.cache_list_.erase frame_id }
    else
      .ok { r with node_store_ := store }

/-- `LRUKReplacer::SetEvictable`: same validity guard as `RecordAccess`;
no-op on untracked frames; adjusts `curr_size_` when the flag flips. -/
def LRUKReplacer.SetEvictable (r : LRUKReplacer) (frame_id : Nat) (set_evictable : Bool) :
    Except String LRUKReplacer :=
  if frame_id > r.replacer_size_ then
    .error "Invalid frame_id"
  else
    match storeLookup r.node_store_ frame_id with
    | none => .ok r
    | some node =>
        let curr :=
          if set_evictable && !node.is_evictable_ then r.curr_size_ + 1
          else if node.is_evictable_ && !set_evictable then r.curr_size_ - 1
          else r.curr_size_
        .ok { r with curr_size_ := curr,
                     node_store_ := storeInsert r.node_store_ frame_id
                        { node with is_evictable_ := set_evictable } }

/-- `LRUKReplacer::Remove`: silently returns on untracked frames; throws on a
tracked non-evictable frame; otherwise erases the frame from its list
(history if its counter is below `k`) and from the store and decrements
`curr_size_`. -/
def LRUKReplacer.Remove (r : LRUKReplacer) (frame_id : Nat) :
    Except String LRUKReplacer :=
  match storeLookup r.node_store_ frame_id with
  | none => .ok r
  | some node =>
      if !node.is_evictable_ then
        .error "Can not remove an inevictable frame"
      else
        let r' :=
          if node.k_ < r.k_ then { r with hist_list_ := r.hist_list_.erase frame_id }
          else { r with cache_list_ := r.cache_list_.erase frame_id }
        .ok { r' with curr_size_ := r.curr_size_ - 1,
                      node_store_ := storeErase r.node_store_ frame_id }

/-- `LRUKReplacer::Size`. -/
def LRUKReplacer.Size (r : LRUKReplacer) : Nat := r.curr_size_

/-! Operation sequences over the replacer.  A thrown exception leaves the
replacer unchanged (the C++ throws before any mutation), and a failed
`Evict` changes nothing. -/

inductive ReplacerOp where
  | record (f : Nat)
  | setEvictable (f : Nat) (b : Bool)
  | evict
  | remove (f : Nat)
deriving DecidableEq, Repr

def applyReplacerOp (r : LRUKReplacer) : ReplacerOp → LRUKReplacer
  | .record f => ((r.RecordAccess f).toOption).getD r
  | .setEvictable f b => ((r.SetEvictable f b).toOption).getD r
  | .evict => match r.Evict with
              | some (_, r') => r'
              | none => r
  | .remove f => ((r.Remove f).toOption).getD r

def runReplacerOps (r : LRUKReplacer) (ops : List ReplacerOp) : LRUKReplacer :=
  ops.foldl applyReplacerOp r

/-- Number of tracked frames whose evictable flag is true. -/
def evictableCount (r : LRUKReplacer) : Nat :=
  (r.node_store_.filter (fun p => p.2.is_evictable_)).length

def countE (s : NodeStore) : Nat :=
  (s.filter (fun p => p.2.is_evictable_)).length

/-- Contribution of one looked-up node to the evictable count. -/
def optEvCount (o : Option LRUKNode) : Nat :=
  if (o.map (fun n => n.is_evictable_)).getD false then 1 else 0

/-! ### Store lemmas -/

theorem storeLookup_eq_none_iff (s : NodeStore) (f : Nat) :
    storeLookup s f = none ↔ f ∉ s.map Prod.fst := by
  unfold storeLookup
  rw [Option.map_eq_none', List.find?_eq_none]
  constructor
  · intro h hf
    obtain ⟨p, hp, hpf⟩ := List.mem_map.mp hf
    exact absurd (by simpa using hpf) (by simpa using h p hp)
  · intro h p hp
    simp only [decide_eq_true_eq]
    exact fun e => h (List.mem_map.mpr ⟨p, hp, e⟩)

theorem storeErase_eq_self (s : NodeStore) (f : Nat) (h : f ∉ s.map Prod.fst) :
    storeErase s f = s := by
  unfold storeErase
  rw [List.filter_eq_self]
  intro p hp
  simp only [decide_eq_true_eq]
  exact fun e => h (List.mem_map.mpr ⟨p, hp, e⟩)

theorem mem_of_storeLookup {s : NodeStore} {f : Nat} {n : LRUKNode}
    (h : storeLookup s f = some n) : (f, n) ∈ s := by
  unfold storeLookup at h
  obtain ⟨p, hp, hpn⟩ := Option.map_eq_some'.mp h
  have hpf : p.1 = f := by simpa using List.find?_some hp
  have hmem := List.mem_of_find?_eq_some hp
  cases p
  subst hpf hpn
  exact hmem

theorem storeLookup_of_mem {s : NodeStore} {f : Nat} {n : LRUKNode}
    (hnd : (s.map Prod.fst).Nodup) (h : (f, n) ∈ s) : storeLookup s f = some n := by
  induction s with
  | nil => cases h
  | cons p t ih =>
    rcases List.mem_cons.mp h with h | h
    · subst h
      unfold storeLookup
      simp [List.find?]
    · have hne : p.1 ≠ f := by
        intro e
        have : f ∈ t.map Prod.fst := List.mem_map.mpr ⟨(f, n), h, rfl⟩
        rw [List.map_cons, List.nodup_cons] at hnd
        exact hnd.1 (e ▸ this)
      unfold storeLookup at *
      rw [List.map_cons, List.nodup_cons] at hnd
      simpa [List.find?, hne] using ih hnd.2 h

theorem countE_cons (p : Nat × LRUKNode) (t : NodeStore) :
    countE (p :: t) = (if p.2.is_evictable_ then 1 else 0) + countE t := by
  unfold countE
  by_cases h : p.2.is_evictable_ <;> simp [List.filter_cons, h, Nat.add_comm]

theorem storeErase_cons (p : Nat × LRUKNode) (t : NodeStore) (f : Nat) :
    storeErase (p :: t) f =
      if p.1 = f then storeErase t f else p :: storeErase t f := by
  unfold storeErase
  rw [List.filter_cons]
  by_cases h : p.1 = f <;> simp [h]

theorem storeLookup_cons (p : Nat × LRUKNode) (t : NodeStore) (f : Nat) :
    storeLookup (p :: t) f = if p.1 = f then some p.2 else storeLookup t f := by
  unfold storeLookup
  by_cases h : p.1 = f <;> simp [List.find?, h]

theorem countE_erase_add (s : NodeStore) (f : Nat) (h : (s.map Prod.fst).Nodup) :
    countE (storeErase s f) + optEvCount (storeLookup s f) = countE s := by
  induction s with
  | nil => rfl
  | cons p t ih =>
    rw [List.map_cons, List.nodup_cons] at h
    rw [storeErase_cons, storeLookup_cons]
    by_cases hpf : p.1 = f
    · have hft : f ∉ t.map Prod.fst := hpf ▸ h.1
      rw [if_pos hpf, if_pos hpf, storeErase_eq_self t f hft, countE_cons]
      unfold optEvCount
      by_cases hev : p.2.is_evictable_ <;> simp [hev, Nat.add_comm]
    · rw [if_neg hpf, if_neg hpf, countE_cons, countE_cons, Nat.add_assoc, ih h.2]

theorem countE_storeInsert (s : NodeStore) (f : Nat) (n : LRUKNode) :
    countE (storeInsert s f n) = (if n.is_evictable_ then 1 else 0) + countE (storeErase s f) := by
  unfold storeInsert storeErase
  exact countE_cons (f, n) _

theorem keys_storeErase_sublist (s : NodeStore) (f : Nat) :
    ((storeErase s f).map Prod.fst).Sublist (s.map Prod.fst) :=
  (List.filter_sublist s).map Prod.fst

theorem keys_storeErase_nodup (s : NodeStore) (f : Nat) (h : (s.map Prod.fst).Nodup) :
    ((storeErase s f).map Prod.fst).Nodup :=
  (keys_storeErase_sublist s f).nodup h

theorem not_mem_keys_storeErase (s : NodeStore) (f : Nat) :
    f ∉ (storeErase s f).map Prod.fst := by
  intro hf
  obtain ⟨p, hp, hpf⟩ := List.mem_map.mp hf
  have := List.of_mem_filter hp
  simp only [decide_eq_true_eq] at this
  exact this hpf

theorem keys_storeInsert_nodup (s : NodeStore) (f : Nat) (n : LRUKNode)
    (h : (s.map Prod.fst).Nodup) : ((storeInsert s f n).map Prod.fst).Nodup := by
  unfold storeInsert
  rw [List.map_cons, List.nodup_cons]
  exact ⟨not_mem_keys_storeErase s f, keys_storeErase_nodup s f h⟩

/-! ### The per-operation invariant for the `curr_size_` bookkeeping -/

/-- The store has no duplicate keys and `curr_size_` counts the tracked
evictable frames. -/
def ReplacerInv (r : LRUKReplacer) : Prop :=
  ((r.node_store_.map Prod.fst).Nodup) ∧ r.curr_size_ = countE r.node_store_

theorem replacerInv_init (num k : Nat) : ReplacerInv (.init num k) :=
  ⟨List.nodup_nil, rfl⟩

theorem replacerInv_applyOp (r : LRUKReplacer) (op : ReplacerOp)
    (h : ReplacerInv r) : ReplacerInv (applyReplacerOp r op) := by
  obtain ⟨hnd, hcnt⟩ := h
  cases op with
  | record f =>
    show ReplacerInv (((r.RecordAccess f).toOption).getD r)
    have hins : ∀ m : Nat,
        countE (storeInsert r.node_store_ f
          { (storeLookup r.node_store_ f).getD ⟨0, false⟩ with k_ := m }) =
        countE r.node_store_ := by
      intro m
      rw [countE_storeInsert]
      cases hl : storeLookup r.node_store_ f with
      | none =>
          rw [storeErase_eq_self _ _ ((storeLookup_eq_none_iff _ _).mp hl)]
          simp [hl]
      | some n0 =>
          have hce := countE_erase_add r.node_store_ f hnd
          rw [hl] at hce
          unfold optEvCount at hce
          simp only [hl, Option.getD_some]
          by_cases hev : n0.is_evictable_ <;> simp [hev] at hce ⊢ <;> omega
    cases hra : r.RecordAccess f with
    | error e => exact ⟨hnd, hcnt⟩
    | ok r' =>
      show ReplacerInv r'
      simp only [LRUKReplacer.RecordAccess] at hra
      split at hra
      · cases hra
      · split at hra <;> [skip; split at hra] <;> [skip; skip; split at hra] <;>
          (injection hra with hra; subst hra;
           exact ⟨keys_storeInsert_nodup _ _ _ hnd, by rw [hins]; exact hcnt⟩)
  | setEvictable f b =>
    show ReplacerInv (((r.SetEvictable f b).toOption).getD r)
    cases hsa : r.SetEvictable f b with
    | error e => exact ⟨hnd, hcnt⟩
    | ok r' =>
      show ReplacerInv r'
      simp only [LRUKReplacer.SetEvictable] at hsa
      split at hsa
      · cases hsa
      · cases hl : storeLookup r.node_store_ f with
        | none => rw [hl] at hsa; injection hsa with hsa; subst hsa; exact ⟨hnd, hcnt⟩
        | some node =>
          rw [hl] at hsa
          injection hsa with hsa
          subst hsa
          have hce := countE_erase_add r.node_store_ f hnd
          rw [hl] at hce
          unfold optEvCount at hce
          refine ⟨keys_storeInsert_nodup _ _ _ hnd, ?_⟩
          show (if b && !node.is_evictable_ then r.curr_size_ + 1
                else if node.is_evictable_ && !b then r.curr_size_ - 1
                else r.curr_size_) =
               countE (storeInsert r.node_store_ f { node with is_evictable_ := b })
          rw [countE_storeInsert, hcnt]
          cases b <;> cases hev : node.is_evictable_ <;> simp [hev] at hce ⊢ <;> omega
  | evict =>
    show ReplacerInv (match r.Evict with | some (_, r') => r' | none => r)
    unfold LRUKReplacer.Evict
    have key : ∀ l f, findVictim r.node_store_ l = some f →
        ∃ n, storeLookup r.node_store_ f = some n ∧ n.is_evictable_ = true := by
      intro l f hf
      have := List.find?_some hf
      cases hl : storeLookup r.node_store_ f with
      | none => rw [hl] at this; simp at this
      | some n =>
        rw [hl] at this
        simp only [Option.map_some', Option.getD_some] at this
        exact ⟨n, rfl, this⟩
    have step : ∀ f, (∃ n, storeLookup r.node_store_ f = some n ∧ n.is_evictable_ = true) →
        ((storeErase r.node_store_ f).map Prod.fst).Nodup ∧
          r.curr_size_ - 1 = countE (storeErase r.node_store_ f) := by
      rintro f ⟨n, hl, hev⟩
      have hce := countE_erase_add r.node_store_ f hnd
      rw [hl] at hce
      unfold optEvCount at hce
      simp only [Option.map_some', Option.getD_some, hev, if_true] at hce
      exact ⟨keys_storeErase_nodup _ _ hnd, by omega⟩
    cases hh : findVictim r.node_store_ r.hist_list_ with
    | some f => exact step f (key _ f hh)
    | none =>
      cases hc : findVictim r.node_store_ r.cache_list_ with
      | some f => exact step f (key _ f hc)
      | none => exact ⟨hnd, hcnt⟩
  | remove f =>
    show ReplacerInv (((r.Remove f).toOption).getD r)
    cases hrm : r.Remove f with
    | error e => exact ⟨hnd, hcnt⟩
    | ok r' =>
      show ReplacerInv r'
      simp only [LRUKReplacer.Remove] at hrm
      split at hrm
      · injection hrm with hrm; subst hrm; exact ⟨hnd, hcnt⟩
      · rename_i node hl
        split at hrm
        · cases hrm
        · rename_i hnev
          have hev : node.is_evictable_ = true := by
            cases h : node.is_evictable_
            · rw [h] at hnev; exact absurd rfl hnev
            · rfl
          have hce := countE_erase_add r.node_store_ f hnd
          rw [hl] at hce
          unfold optEvCount at hce
          simp only [Option.map_some', Option.getD_some, hev, if_true] at hce
          have goal : ((storeErase r.node_store_ f).map Prod.fst).Nodup ∧
              r.curr_size_ - 1 = countE (storeErase r.node_store_ f) :=
            ⟨keys_storeErase_nodup _ _ hnd, by omega⟩
          split at hrm <;> (injection hrm with hrm; subst hrm; exact goal)

theorem replacerInv_runOps (r : LRUKReplacer) (ops : List ReplacerOp)
    (h : ReplacerInv r) : ReplacerInv (runReplacerOps r ops) := by
  induction ops generalizing r with
  | nil => exact h
  | cons op t ih => exact ih _ (replacerInv_applyOp r op h)

/-- C8: after every finite sequence of `RecordAccess`, `SetEvictable`,
`Evict` and `Remove` operations starting from a fresh replacer, `curr_size_`
(the value returned by `Size`) equals the number of currently tracked frames
whose evictable flag is true. -/
theorem curr_size_eq_evictable_count (num k : Nat) (ops : List ReplacerOp) :
    (runReplacerOps (.init num k) ops).Size =
      evictableCount (runReplacerOps (.init num k) ops) :=
  (replacerInv_runOps _ ops (replacerInv_init num k)).2

/-- C10: `LRUKReplacer::Remove` on a frame that is not tracked (absent from
the node store) returns silently without an error and leaves the replacer
state unchanged. -/
theorem remove_untracked_is_silent_noop (r : LRUKReplacer) (f : Nat)
    (h : storeLookup r.node_store_ f = none) : r.Remove f = .ok r := by
  unfold LRUKReplacer.Remove
  rw [h]

/-- Witness for C10 at a concrete input: a fresh replacer tracks nothing, and
`Remove 0` returns the state unchanged with no error. -/
theorem remove_untracked_is_silent_noop_witness :
    storeLookup (LRUKReplacer.init 3 2).node_store_ 0 = none ∧
      (LRUKReplacer.init 3 2).Remove 0 = .ok (.init 3 2) :=
  ⟨rfl, remove_untracked_is_silent_noop _ 0 rfl⟩

/-! ### The eviction policy (claim C4) -/

/-- The evictable flag a scan reads for a frame (`false` when untracked). -/
def isEvictableIn (r : LRUKReplacer) (f : Nat) : Bool :=
  (Option.map (fun n => n.is_evictable_) (storeLookup r.node_store_ f)).getD false

/-- A tail-first scan (`rbegin → rend`) that finds a satisfying element splits
the list as `pre ++ v :: post` where everything in `post` (the tail side)
fails the predicate, and erasing at the found position leaves `pre ++ post`. -/
theorem scanTail_spec (l : List Nat) (p : Nat → Bool) (hex : ∃ x ∈ l, p x = true) :
    ∃ v pre post, l = pre ++ v :: post ∧ p v = true ∧
      (∀ y ∈ post, p y = false) ∧
      l.reverse.find? p = some v ∧ (l.reverse.erase v).reverse = pre ++ post := by
  induction l using List.reverseRecOn with
  | nil => obtain ⟨x, hx, _⟩ := hex; cases hx
  | append_singleton l a ih =>
    by_cases hpa : p a = true
    · refine ⟨a, l, [], by simp, hpa, by simp, ?_, ?_⟩
      · rw [List.reverse_append, List.reverse_singleton, List.singleton_append,
          List.find?_cons_of_pos _ hpa]
      · rw [List.reverse_append, List.reverse_singleton, List.singleton_append,
          List.erase_cons_head, List.reverse_reverse, List.append_nil]
    · have hex' : ∃ x ∈ l, p x = true := by
        obtain ⟨x, hx, hpx⟩ := hex
        rcases List.mem_append.mp hx with hx | hx
        · exact ⟨x, hx, hpx⟩
        · rw [List.mem_singleton.mp hx] at hpx; exact absurd hpx hpa
      obtain ⟨v, pre, post, hsplit, hpv, hpost, hfind, herase⟩ := ih hex'
      have hva : a ≠ v := fun e => hpa (e ▸ hpv)
      refine ⟨v, pre, post ++ [a], by rw [hsplit]; simp, hpv, ?_, ?_, ?_⟩
      · intro y hy
        rcases List.mem_append.mp hy with hy | hy
        · exact hpost y hy
        · rw [List.mem_singleton.mp hy]
          exact Bool.not_eq_true _ ▸ (by simpa using hpa)
      · rw [List.reverse_append, List.reverse_singleton, List.singleton_append,
          List.find?_cons_of_neg _ (by simpa using hpa), hfind]
      · rw [List.reverse_append, List.reverse_singleton, List.singleton_append,
          List.erase_cons_tail, List.reverse_cons, herase, List.append_assoc]
        simpa using fun e => hva e

/-- C4: whenever the replacer tracks at least one evictable frame, `Evict`
succeeds; it prefers the history list (returning a history frame whenever
the history list holds an evictable one, and a cache frame only when no
history frame is evictable); within the chosen list it picks the evictable
frame closest to the tail (everything strictly nearer the tail is
non-evictable); and it removes the victim from its list and from the node
store and decrements `curr_size_`. -/
theorem evict_prefers_history_and_picks_tailmost (r : LRUKReplacer)
    (hwf : ∀ p ∈ r.node_store_, p.1 ∈ r.hist_list_ ++ r.cache_list_)
    (hnd : (r.node_store_.map Prod.fst).Nodup)
    (hsz : r.curr_size_ = countE r.node_store_)
    (hev : ∃ p ∈ r.node_store_, p.2.is_evictable_ = true) :
    ∃ v r', r.Evict = some (v, r') ∧
      isEvictableIn r v = true ∧
      r'.node_store_ = storeErase r.node_store_ v ∧
      r'.curr_size_ + 1 = r.curr_size_ ∧
      ((∃ g ∈ r.hist_list_, isEvictableIn r g = true) →
        ∃ pre post, r.hist_list_ = pre ++ v :: post ∧
          (∀ y ∈ post, isEvictableIn r y = false) ∧
          r'.hist_list_ = pre ++ post ∧ r'.cache_list_ = r.cache_list_) ∧
      ((∀ g ∈ r.hist_list_, isEvictableIn r g = false) →
        v ∈ r.cache_list_ ∧
        ∃ pre post, r.cache_list_ = pre ++ v :: post ∧
          (∀ y ∈ post, isEvictableIn r y = false) ∧
          r'.cache_list_ = pre ++ post ∧ r'.hist_list_ = r.hist_list_) := by
  obtain ⟨p, hp, hpev⟩ := hev
  have hlook : storeLookup r.node_store_ p.1 = some p.2 := storeLookup_of_mem hnd (by simpa)
  have hpevB : isEvictableIn r p.1 = true := by
    unfold isEvictableIn
    rw [hlook, Option.map_some', Option.getD_some, hpev]
  have currpos : ∀ f, isEvictableIn r f = true → r.curr_size_ - 1 + 1 = r.curr_size_ := by
    intro f hf
    unfold isEvictableIn at hf
    cases hl : storeLookup r.node_store_ f with
    | none => rw [hl] at hf; simp at hf
    | some n =>
      rw [hl] at hf
      simp only [Option.map_some', Option.getD_some] at hf
      have hce := countE_erase_add r.node_store_ f hnd
      rw [hl] at hce
      unfold optEvCount at hce
      simp only [Option.map_some', Option.getD_some, hf, if_true] at hce
      omega
  by_cases hhist : ∃ g ∈ r.hist_list_, isEvictableIn r g = true
  · obtain ⟨v, pre, post, hsplit, hpv, hpost, hfind, herase⟩ :=
      scanTail_spec r.hist_list_ (fun f => isEvictableIn r f) hhist
    have hfv : findVictim r.node_store_ r.hist_list_ = some v := hfind
    refine ⟨v, { r with hist_list_ := eraseFromTail r.hist_list_ v,
                        node_store_ := storeErase r.node_store_ v,
                        curr_size_ := r.curr_size_ - 1 },
      ?_, hpv, rfl, currpos v hpv, ?_, ?_⟩
    · unfold LRUKReplacer.Evict
      rw [hfv]
    · intro _
      exact ⟨pre, post, hsplit, hpost, herase, rfl⟩
    · intro hall
      obtain ⟨g, hg, hgev⟩ := hhist
      exact absurd (hall g hg) (by rw [hgev]; simp)
  · have hall : ∀ g ∈ r.hist_list_, isEvictableIn r g = false := by
      intro g hg
      cases h : isEvictableIn r g
      · rfl
      · exact absurd ⟨g, hg, h⟩ hhist
    have hfn : findVictim r.node_store_ r.hist_list_ = none := by
      unfold findVictim
      rw [List.find?_eq_none]
      intro x hx
      show ¬ isEvictableIn r x = true
      rw [hall x (List.mem_reverse.mp hx)]
      simp
    have hpc : p.1 ∈ r.cache_list_ := by
      rcases List.mem_append.mp (hwf p hp) with h | h
      · exact absurd (hall p.1 h) (by rw [hpevB]; simp)
      · exact h
    obtain ⟨v, pre, post, hsplit, hpv, hpost, hfind, herase⟩ :=
      scanTail_spec r.cache_list_ (fun f => isEvictableIn r f) ⟨p.1, hpc, hpevB⟩
    have hfv : findVictim r.node_store_ r.cache_list_ = some v := hfind
    refine ⟨v, { r with cache_list_ := eraseFromTail r.cache_list_ v,
                        node_store_ := storeErase r.node_store_ v,
                        curr_size_ := r.curr_size_ - 1 },
      ?_, hpv, rfl, currpos v hpv, ?_, ?_⟩
    · unfold LRUKReplacer.Evict
      rw [hfn, hfv]
    · intro hex
      obtain ⟨g, hg, hgev⟩ := hex
      exact absurd (hall g hg) (by rw [hgev]; simp)
    · intro _
      exact ⟨by rw [hsplit]; exact List.mem_append_right _ (List.mem_cons_self _ _),
        pre, post, hsplit, hpost, herase, rfl⟩

/-- Witness for C4 at a concrete replacer state: history `[1, 0]` (frame 0 at
the tail, evictable; frame 1 not evictable), cache `[2]` (evictable).
`Evict` returns frame 0 from the history list. -/
theorem evict_prefers_history_and_picks_tailmost_witness :
    (∀ p ∈ ([(0, ⟨1, true⟩), (1, ⟨1, false⟩), (2, ⟨2, true⟩)] : NodeStore),
        p.1 ∈ ([1, 0] : List Nat) ++ [2]) ∧
    (∃ v r', (LRUKReplacer.mk 3 2 [1, 0] [2]
        [(0, ⟨1, true⟩), (1, ⟨1, false⟩), (2, ⟨2, true⟩)] 2).Evict = some (v, r')) := by
  constructor
  · decide
  · obtain ⟨v, r', h, -⟩ :=
      evict_prefers_history_and_picks_tailmost
        (LRUKReplacer.mk 3 2 [1, 0] [2] [(0, ⟨1, true⟩), (1, ⟨1, false⟩), (2, ⟨2, true⟩)] 2)
        (by decide) (by decide) (by decide) (by decide)
    exact ⟨v, r', h⟩

/-- C6 (counterexample): the claim says every `frame ≥ num_frames` fails, but
the C++ guard is the strict `frame_id > replacer_size_`, so
`RecordAccess(num_frames)` on a replacer with `num_frames = 2` succeeds and
visibly changes the state (frame 2 becomes tracked). -/
theorem recordAccess_at_num_frames_succeeds :
    2 ≥ (LRUKReplacer.init 2 2).replacer_size_ ∧
      ((LRUKReplacer.init 2 2).RecordAccess 2).toOption =
        some ⟨2, 2, [2], [], [(2, ⟨1, false⟩)], 0⟩ ∧
      (⟨2, 2, [2], [], [(2, ⟨1, false⟩)], 0⟩ : LRUKReplacer) ≠ .init 2 2 := by
  refine ⟨le_refl 2, rfl, ?_⟩
  intro h
  exact absurd (congrArg LRUKReplacer.hist_list_ h) (by simp [LRUKReplacer.init])

/-- C6 (amended): for every frame id strictly greater than `num_frames`,
`RecordAccess` fails with an error and leaves the replacer state unchanged. -/
theorem recordAccess_invalid_frame_fails (r : LRUKReplacer) (f : Nat)
    (h : f > r.replacer_size_) :
    r.RecordAccess f = .error "Invalid frame_id" ∧ applyReplacerOp r (.record f) = r := by
  have he : r.RecordAccess f = .error "Invalid frame_id" := by
    unfold LRUKReplacer.RecordAccess
    rw [if_pos h]
  refine ⟨he, ?_⟩
  show ((r.RecordAccess f).toOption).getD r = r
  rw [he]
  rfl

/-- Witness for the amended C6 at a concrete input. -/
theorem recordAccess_invalid_frame_fails_witness :
    5 > (LRUKReplacer.init 3 2).replacer_size_ ∧
      (LRUKReplacer.init 3 2).RecordAccess 5 = .error "Invalid frame_id" ∧
      applyReplacerOp (.init 3 2) (.record 5) = .init 3 2 := by
  refine ⟨by decide, ?_⟩
  exact recordAccess_invalid_frame_fails (.init 3 2) 5 (by decide)

/-! ## Buffer pool manager (`buffer_pool_manager.cpp` section)

Pages hold abstract contents `δ` (`ResetMemory` writes `default`).  The disk
is a map from page id to contents; the disk scheduler's
`Schedule`/`future.get()` pairs are synchronous, so a scheduled write/read is
modelled as an immediate disk/frame update. -/

def INVALID_PAGE_ID : Int := -1

structure Page (δ : Type) where
  page_id_ : Int
  pin_count_ : Nat
  is_dirty_ : Bool
  data_ : δ
deriving DecidableEq, Repr

structure BufferPoolManager (δ : Type) where
  pool_size_ : Nat
  next_page_id_ : Int
  pages_ : Nat → Page δ
  page_table_ : List (Int × Nat)
  free_list_ : List Nat
  replacer_ : LRUKReplacer
  disk_ : Int → δ

def ptLookup (t : List (Int × Nat)) (pid : Int) : Option Nat :=
  (t.find? (fun q => q.1 = pid)).map (fun q => q.2)

def ptErase (t : List (Int × Nat)) (pid : Int) : List (Int × Nat) :=
  t.filter (fun q => q.1 ≠ pid)

def diskWrite {δ : Type} (disk : Int → δ) (pid : Int) (d : δ) : Int → δ :=
  fun i => if i = pid then d else disk i

/-- `BufferPoolManager::UnpinPage`.  Note the C++ order: the dirty flag is
OR-ed into the frame *before* the `pin_count == 0` early return. -/
def BufferPoolManager.UnpinPage {δ : Type} (b : BufferPoolManager δ)
    (page_id : Int) (is_dirty : Bool) : Except String (Bool × BufferPoolManager δ) :=
  if page_id = INVALID_PAGE_ID then .ok (false, b)
  else
    match ptLookup b.page_table_ page_id with
    | none => .ok (false, b)
    | some frame_id =>
      let pgD : Page δ := { b.pages_ frame_id with is_dirty_ := is_dirty }
      let b1 := if is_dirty then { b with pages_ := Function.update b.pages_ frame_id pgD }
        else b
      if (b1.pages_ frame_id).pin_count_ = 0 then .ok (false, b1)
      else
        let pgP : Page δ := { b1.pages_ frame_id with pin_count_ := (b1.pages_ frame_id).pin_count_ - 1 }
        let b2 := { b1 with pages_ := Function.update b1.pages_ frame_id pgP }
        if (b2.pages_ frame_id).pin_count_ = 0 then
          match b2.replacer_.SetEvictable frame_id true with
          | .ok rep => .ok (true, { b2 with replacer_ := rep })
          | .error e => .error e
        else .ok (true, b2)

/-- `BufferPoolManager::FetchPage`.  The free list is used from the back
(`back()` / `pop_back()`). -/
def BufferPoolManager.FetchPage {δ : Type} [Inhabited δ] (b : BufferPoolManager δ)
    (page_id : Int) : Except String (Option Nat × BufferPoolManager δ) :=
  if page_id = INVALID_PAGE_ID then .ok (none, b)
  else
    match ptLookup b.page_table_ page_id with
    | some frame_id =>
      match b.replacer_.RecordAccess frame_id with
      | .error e => .error e
      | .ok rep =>
        match rep.SetEvictable frame_id false with
        | .error e => .error e
        | .ok rep2 =>
          let pg := { b.pages_ frame_id with
                        pin_count_ := (b.pages_ frame_id).pin_count_ + 1 }
          .ok (some frame_id,
            { b with replacer_ := rep2,
                     pages_ := Function.update b.pages_ frame_id pg })
    | none =>
      match (match b.free_list_.getLast? with
             | some fid => some (fid, { b with free_list_ := b.free_list_.dropLast })
             | none =>
               match b.replacer_.Evict with
               | some (fid, rep) => some (fid, { b with replacer_ := rep })
               | none => none) with
      | none => .ok (none, b)
      | some (fid, b1) =>
        -- write back the victim frame's contents when dirty, then clear the flag
        let pgC := { b1.pages_ fid with is_dirty_ := false }
        let b2 := if (b1.pages_ fid).is_dirty_ then
            { b1 with
                disk_ := diskWrite b1.disk_ (b1.pages_ fid).page_id_ (b1.pages_ fid).data_,
                pages_ := Function.update b1.pages_ fid pgC }
          else b1
        -- erase the old mapping, install the new one
        let b3 := { b2 with page_table_ :=
            (page_id, fid) :: ptErase b2.page_table_ (b2.pages_ fid).page_id_ }
        -- set page id and pin count, zero the memory (`ResetMemory`)
        let pgN : Page δ := { page_id_ := page_id, pin_count_ := 1,
                              is_dirty_ := (b3.pages_ fid).is_dirty_, data_ := default }
        let b4 := { b3 with pages_ := Function.update b3.pages_ fid pgN }
        match b4.replacer_.RecordAccess fid with
        | .error e => .error e
        | .ok rep =>
          match rep.SetEvictable fid false with
          | .error e => .error e
          | .ok rep2 =>
            -- schedule a read of the page from disk and await it
            let pgR := { b4.pages_ fid with data_ := b4.disk_ (b4.pages_ fid).page_id_ }
            .ok (some fid,
              { b4 with replacer_ := rep2,
                        pages_ := Function.update b4.pages_ fid pgR })

/-- `BufferPoolManager::FlushPage`: unconditional synchronous write-back,
then the dirty flag is cleared. -/
def BufferPoolManager.FlushPage {δ : Type} (b : BufferPoolManager δ)
    (page_id : Int) : Bool × BufferPoolManager δ :=
  if page_id = INVALID_PAGE_ID then (false, b)
  else
    match ptLookup b.page_table_ page_id with
    | none => (false, b)
    | some frame_id =>
      let pgC := { b.pages_ frame_id with is_dirty_ := false }
      (true, { b with
          disk_ := diskWrite b.disk_ (b.pages_ frame_id).page_id_ (b.pages_ frame_id).data_,
          pages_ := Function.update b.pages_ frame_id pgC })

/-- `BufferPoolManager::DeletePage`.  `DeallocatePage` has no body under the
sources (per the spec it only releases the id) and is modelled as a no-op.
The `.error` case (the replacer throwing on a tracked non-evictable frame)
propagates the exception; no claim inspects the state of that path. -/
def BufferPoolManager.DeletePage {δ : Type} [Inhabited δ] (b : BufferPoolManager δ)
    (page_id : Int) : Except String (Bool × BufferPoolManager δ) :=
  if page_id = INVALID_PAGE_ID then .ok (true, b)
  else
    match ptLookup b.page_table_ page_id with
    | some frame_id =>
      if (b.pages_ frame_id).pin_count_ > 0 then .ok (false, b)
      else
        let b1 := { b with page_table_ := ptErase b.page_table_ page_id,
                           free_list_ := b.free_list_ ++ [frame_id] }
        match b1.replacer_.Remove frame_id with
        | .error e => .error e
        | .ok rep =>
          let pgZ : Page δ := { page_id_ := INVALID_PAGE_ID, pin_count_ := 0,
                                is_dirty_ := false, data_ := default }
          .ok (true,
            { b1 with replacer_ := rep,
                      pages_ := Function.update b1.pages_ frame_id pgZ })
    | none => .ok (true, b)

/-- C9: with the `INVALID` page id, every buffer pool operation is a guarded
no-op: `FetchPage` returns null, `UnpinPage` returns false, `FlushPage`
returns false, `DeletePage` returns true, and none of them changes the pool
state. -/
theorem invalid_page_id_ops_are_noops (δ : Type) [Inhabited δ]
    (b : BufferPoolManager δ) (dirty : Bool) :
    b.FetchPage INVALID_PAGE_ID = .ok (none, b) ∧
    b.UnpinPage INVALID_PAGE_ID dirty = .ok (false, b) ∧
    b.FlushPage INVALID_PAGE_ID = (false, b) ∧
    b.DeletePage INVALID_PAGE_ID = .ok (true, b) := by
  refine ⟨?_, ?_, ?_, ?_⟩
  · unfold BufferPoolManager.FetchPage; rw [if_pos rfl]
  · unfold BufferPoolManager.UnpinPage; rw [if_pos rfl]
  · unfold BufferPoolManager.FlushPage; rw [if_pos rfl]
  · unfold BufferPoolManager.DeletePage; rw [if_pos rfl]

/-- Concrete pool for claim C5: a single frame holding page 5 with pin count
0 and a clean dirty flag. -/
def unpinCexPool : BufferPoolManager Nat :=
  { pool_size_ := 1, next_page_id_ := 6,
    pages_ := fun _ => ⟨5, 0, false, 0⟩,
    page_table_ := [(5, 0)], free_list_ := [],
    replacer_ := .init 1 2, disk_ := fun _ => 0 }

/-- C5 (counterexample): on a resident page whose pin count is already zero,
`UnpinPage(pid, true)` returns false but does \x6eot leave the frame state
unchanged — the dirty flag is OR-ed in before the pin-count check, flipping
it from false to true. -/
theorem unpinPage_zero_pin_still_sets_dirty :
    unpinCexPool.UnpinPage 5 true =
      .ok (false, { unpinCexPool with
                      pages_ := Function.update unpinCexPool.pages_ 0 ⟨5, 0, true, 0⟩ }) ∧
    (Function.update unpinCexPool.pages_ 0 (⟨5, 0, true, 0⟩ : Page Nat) 0).is_dirty_ = true ∧
    (unpinCexPool.pages_ 0).is_dirty_ = false ∧
    (unpinCexPool.pages_ 0).pin_count_ = 0 :=
  ⟨rfl, rfl, rfl, rfl⟩

/-- C5 (amended): `UnpinPage` ORs the dirty flag into the frame and
decrements the pin count exactly when the page is resident with positive pin
count (marking the frame evictable when the count reaches zero); when the
page is not resident it returns false leaving the pool unchanged; when the
page is resident with pin count zero it returns false and leaves everything
unchanged *except* that the dirty flag is still OR-ed into the frame. -/
theorem unpinPage_characterized {δ : Type} (b : BufferPoolManager δ)
    (pid : Int) (dirty : Bool) :
    (ptLookup b.page_table_ pid = none → b.UnpinPage pid dirty = .ok (false, b)) ∧
    (∀ fid, pid ≠ INVALID_PAGE_ID → ptLookup b.page_table_ pid = some fid →
      (b.pages_ fid).pin_count_ = 0 →
      ∃ b', b.UnpinPage pid dirty = .ok (false, b') ∧
        (b'.pages_ fid).is_dirty_ = ((b.pages_ fid).is_dirty_ || dirty) ∧
        (b'.pages_ fid).pin_count_ = (b.pages_ fid).pin_count_ ∧
        (b'.pages_ fid).page_id_ = (b.pages_ fid).page_id_ ∧
        (b'.pages_ fid).data_ = (b.pages_ fid).data_ ∧
        (∀ j, j ≠ fid → b'.pages_ j = b.pages_ j) ∧
        b'.page_table_ = b.page_table_ ∧ b'.free_list_ = b.free_list_ ∧
        b'.replacer_ = b.replacer_ ∧ b'.disk_ = b.disk_) ∧
    (∀ fid, pid ≠ INVALID_PAGE_ID → ptLookup b.page_table_ pid = some fid →
      (b.pages_ fid).pin_count_ ≠ 0 → fid ≤ b.replacer_.replacer_size_ →
      ∃ b', b.UnpinPage pid dirty = .ok (true, b') ∧
        (b'.pages_ fid).is_dirty_ = ((b.pages_ fid).is_dirty_ || dirty) ∧
        (b'.pages_ fid).pin_count_ + 1 = (b.pages_ fid).pin_count_ ∧
        (b'.pages_ fid).page_id_ = (b.pages_ fid).page_id_ ∧
        (b'.pages_ fid).data_ = (b.pages_ fid).data_ ∧
        (∀ j, j ≠ fid → b'.pages_ j = b.pages_ j) ∧
        b'.page_table_ = b.page_table_ ∧ b'.free_list_ = b.free_list_ ∧
        b'.disk_ = b.disk_ ∧
        ((b.pages_ fid).pin_count_ = 1 →
          ∃ rep, b.replacer_.SetEvictable fid true = .ok rep ∧ b'.replacer_ = rep) ∧
        ((b.pages_ fid).pin_count_ ≠ 1 → b'.replacer_ = b.replacer_)) := by
  refine ⟨?_, ?_, ?_⟩
  · intro h
    unfold BufferPoolManager.UnpinPage
    by_cases hinv : pid = INVALID_PAGE_ID
    · rw [if_pos hinv]
    · rw [if_neg hinv, h]
  · intro fid hinv hl hpin
    cases dirty with
    | false =>
      refine ⟨b, ?_, by simp, rfl, rfl, rfl, fun j _ => rfl, rfl, rfl, rfl, rfl⟩
      simp [BufferPoolManager.UnpinPage, hinv, hl, hpin]
    | true =>
      refine ⟨{ b with pages_ := Function.update b.pages_ fid { b.pages_ fid with is_dirty_ := true } }, ?_, ?_, ?_, ?_, ?_, ?_, rfl, rfl, rfl, rfl⟩
      · simp [BufferPoolManager.UnpinPage, hinv, hl, hpin, Function.update_same]
      · simp [Function.update_same]
      · simp [Function.update_same]
      · simp [Function.update_same]
      · simp [Function.update_same]
      · intro j hj
        simp [Function.update_noteq hj]
  · intro fid hinv hl hpin hfid
    have hset : ∀ rr : LRUKReplacer, fid ≤ rr.replacer_size_ →
        ∃ rep, rr.SetEvictable fid true = .ok rep := by
      intro rr hle
      unfold LRUKReplacer.SetEvictable
      rw [if_neg (by omega)]
      cases storeLookup rr.node_store_ fid with
      | none => exact ⟨rr, rfl⟩
      | some node => exact ⟨_, rfl⟩
    obtain ⟨rep, hrep⟩ := hset b.replacer_ hfid
    cases dirty with
    | false =>
      by_cases hone : (b.pages_ fid).pin_count_ - 1 = 0
      · refine ⟨{ b with pages_ := Function.update b.pages_ fid { b.pages_ fid with pin_count_ := (b.pages_ fid).pin_count_ - 1 }, replacer_ := rep }, ?_, ?_, ?_, ?_, ?_, ?_, rfl, rfl, rfl, ?_, ?_⟩
        · simp [BufferPoolManager.UnpinPage, hinv, hl, hpin, hone, hrep,
            Function.update_same]
        · simp [Function.update_same]
        · simp only [Function.update_same]; omega
        · simp [Function.update_same]
        · simp [Function.update_same]
        · intro j hj
          simp [Function.update_noteq hj]
        · intro _
          exact ⟨rep, hrep, rfl⟩
        · intro hne
          exact absurd (by omega : (b.pages_ fid).pin_count_ = 1) hne
      · refine ⟨{ b with pages_ := Function.update b.pages_ fid { b.pages_ fid with pin_count_ := (b.pages_ fid).pin_count_ - 1 } }, ?_, ?_, ?_, ?_, ?_, ?_, rfl, rfl, rfl, ?_, ?_⟩
        · simp [BufferPoolManager.UnpinPage, hinv, hl, hpin, hone,
            Function.update_same]
        · simp [Function.update_same]
        · simp only [Function.update_same]; omega
        · simp [Function.update_same]
        · simp [Function.update_same]
        · intro j hj
          simp [Function.update_noteq hj]
        · intro hone'
          exact absurd (by omega : (b.pages_ fid).pin_count_ - 1 = 0) hone
        · intro _
          rfl
    | true =>
      by_cases hone : (b.pages_ fid).pin_count_ - 1 = 0
      · refine ⟨{ b with pages_ := Function.update (Function.update b.pages_ fid { b.pages_ fid with is_dirty_ := true }) fid { b.pages_ fid with is_dirty_ := true, pin_count_ := (b.pages_ fid).pin_count_ - 1 }, replacer_ := rep }, ?_, ?_, ?_, ?_, ?_, ?_, rfl, rfl, rfl, ?_, ?_⟩
        · simp [BufferPoolManager.UnpinPage, hinv, hl, hpin, hone, hrep,
            Function.update_same]
        · simp [Function.update_same]
        · simp only [Function.update_same]; omega
        · simp [Function.update_same]
        · simp [Function.update_same]
        · intro j hj
          simp [Function.update_noteq hj]
        · intro _
          exact ⟨rep, hrep, rfl⟩
        · intro hne
          exact absurd (by omega : (b.pages_ fid).pin_count_ = 1) hne
      · refine ⟨{ b with pages_ := Function.update (Function.update b.pages_ fid { b.pages_ fid with is_dirty_ := true }) fid { b.pages_ fid with is_dirty_ := true, pin_count_ := (b.pages_ fid).pin_count_ - 1 } }, ?_, ?_, ?_, ?_, ?_, ?_, rfl, rfl, rfl, ?_, ?_⟩
        · simp [BufferPoolManager.UnpinPage, hinv, hl, hpin, hone,
            Function.update_same]
        · simp [Function.update_same]
        · simp only [Function.update_same]; omega
        · simp [Function.update_same]
        · simp [Function.update_same]
        · intro j hj
          simp [Function.update_noteq hj]
        · intro hone'
          exact absurd (by omega : (b.pages_ fid).pin_count_ - 1 = 0) hone
        · intro _
          rfl

/-- Witness for the amended C5: a pool with page 7 resident at frame 0 and
pin count 2; `UnpinPage(7, true)` succeeds. -/
theorem unpinPage_characterized_witness :
    (7 : Int) ≠ INVALID_PAGE_ID ∧
    ptLookup ([(7, 0)] : List (Int × Nat)) 7 = some 0 ∧
    (∃ b', (BufferPoolManager.mk 1 8 (fun _ => (⟨7, 2, false, 0⟩ : Page Nat))
        [(7, 0)] [] (.init 1 2) (fun _ => 0)).UnpinPage 7 true = .ok (true, b')) := by
  refine ⟨by decide, rfl, ?_⟩
  obtain ⟨b', hb', -⟩ :=
    (unpinPage_characterized (BufferPoolManager.mk 1 8 (fun _ => (⟨7, 2, false, 0⟩ : Page Nat))
        [(7, 0)] [] (.init 1 2) (fun _ => 0)) 7 true).2.2 0
      (by decide) rfl (by decide) (by decide)
  exact ⟨b', hb'⟩

/-! ## Extendible hash table: directory page
(`src/src/container/disk/hash/extendible_htable_directory_page.cpp`)

The on-disk arrays (`HTABLE_DIRECTORY_ARRAY_SIZE` entries) are modelled as
total functions; the C++ accessors assert their index is below `Size()`, and
the copy loop of `IncrGlobalDepth` writes indices `[2^g, 2^{g+1})`. -/

structure ExtendibleHTableDirectoryPage where
  max_depth_ : Nat
  global_depth_ : Nat
  bucket_page_ids_ : Nat → Int
  local_depths_ : Nat → Nat

namespace ExtendibleHTableDirectoryPage

/-- `Init`: global depth 0, every slot `INVALID_PAGE_ID`, local depths 0. -/
def Init (max_depth : Nat) : ExtendibleHTableDirectoryPage :=
  { max_depth_ := max_depth, global_depth_ := 0,
    bucket_page_ids_ := fun _ => INVALID_PAGE_ID,
    local_depths_ := fun _ => 0 }

def Size (d : ExtendibleHTableDirectoryPage) : Nat := 2 ^ d.global_depth_

/-- `HashToBucketIndex`: mask to the low `global_depth` bits
(`hash & ((1 << global_depth) - 1)`, i.e. `hash mod 2^global_depth`). -/
def HashToBucketIndex (d : ExtendibleHTableDirectoryPage) (hash : Nat) : Nat :=
  hash % 2 ^ d.global_depth_

def GetBucketPageId (d : ExtendibleHTableDirectoryPage) (bucket_idx : Nat) : Int :=
  d.bucket_page_ids_ bucket_idx

def SetBucketPageId (d : ExtendibleHTableDirectoryPage) (bucket_idx : Nat)
    (bucket_page_id : Int) : ExtendibleHTableDirectoryPage :=
  { d with bucket_page_ids_ := Function.update d.bucket_page_ids_ bucket_idx bucket_page_id }

/-- `GetSplitImageIndex`: `bucket_idx XOR (1 << (local_depth - 1))`. -/
def GetSplitImageIndex (d : ExtendibleHTableDirectoryPage) (bucket_idx : Nat) : Nat :=
  bucket_idx ^^^ 2 ^ (d.local_depths_ bucket_idx - 1)

def GetGlobalDepth (d : ExtendibleHTableDirectoryPage) : Nat := d.global_depth_

def GetMaxDepth (d : ExtendibleHTableDirectoryPage) : Nat := d.max_depth_

/-- `IncrGlobalDepth`: the C++ guard is `if (global_depth_ > max_depth_)
return;` — a strict `>` — then the lower half of both arrays is copied into
`[2^g, 2^{g+1})` and the depth incremented. -/
def IncrGlobalDepth (d : ExtendibleHTableDirectoryPage) : ExtendibleHTableDirectoryPage :=
  if d.global_depth_ > d.max_depth_ then d
  else
    { d with
      bucket_page_ids_ := fun i =>
        if 2 ^ d.global_depth_ ≤ i ∧ i < 2 ^ d.global_depth_ + 2 ^ d.global_depth_
        then d.bucket_page_ids_ (i - 2 ^ d.global_depth_) else d.bucket_page_ids_ i,
      local_depths_ := fun i =>
        if 2 ^ d.global_depth_ ≤ i ∧ i < 2 ^ d.global_depth_ + 2 ^ d.global_depth_
        then d.local_depths_ (i - 2 ^ d.global_depth_) else d.local_depths_ i,
      global_depth_ := d.global_depth_ + 1 }

def DecrGlobalDepth (d : ExtendibleHTableDirectoryPage) : ExtendibleHTableDirectoryPage :=
  if d.global_depth_ ≤ 0 then d else { d with global_depth_ := d.global_depth_ - 1 }

/-- `CanShrink`: `std::all_of` over the `Size()` live slots. -/
def CanShrink (d : ExtendibleHTableDirectoryPage) : Bool :=
  (List.range (2 ^ d.global_depth_)).all (fun i => d.local_depths_ i < d.global_depth_)

def GetLocalDepth (d : ExtendibleHTableDirectoryPage) (bucket_idx : Nat) : Nat :=
  d.local_depths_ bucket_idx

def SetLocalDepth (d : ExtendibleHTableDirectoryPage) (bucket_idx : Nat)
    (local_depth : Nat) : ExtendibleHTableDirectoryPage :=
  { d with local_depths_ := Function.update d.local_depths_ bucket_idx local_depth }

def IncrLocalDepth (d : ExtendibleHTableDirectoryPage) (bucket_idx : Nat) :
    ExtendibleHTableDirectoryPage :=
  if d.local_depths_ bucket_idx ≥ d.max_depth_ then d
  else { d with local_depths_ := Function.update d.local_depths_ bucket_idx (d.local_depths_ bucket_idx + 1) }

def DecrLocalDepth (d : ExtendibleHTableDirectoryPage) (bucket_idx : Nat) :
    ExtendibleHTableDirectoryPage :=
  if d.local_depths_ bucket_idx ≤ 0 then d
  else { d with local_depths_ := Function.update d.local_depths_ bucket_idx (d.local_depths_ bucket_idx - 1) }

end ExtendibleHTableDirectoryPage

/-- Concrete directory at the boundary for claim C3: `max_depth = 1` and
`global_depth = 1` (a legal state, `global_depth ≤ max_depth`). -/
def c3dir : ExtendibleHTableDirectoryPage :=
  { max_depth_ := 1, global_depth_ := 1,
    bucket_page_ids_ := fun _ => INVALID_PAGE_ID,
    local_depths_ := fun _ => 0 }

/-- C3: the claim (and the data-model invariant `global_depth ∈ [0,
max_depth]`) requires `IncrGlobalDepth` to leave a directory with
`global_depth = max_depth` unchanged, but the source guards with the wrong
comparison (`>` instead of `>=`, as §9 of the spec itself notes): on a
directory with `global_depth = max_depth = 1` it increments the depth to 2,
violating `global_depth ≤ max_depth`. -/
theorem incrGlobalDepth_overflows_max_depth :
    c3dir.global_depth_ ≤ c3dir.max_depth_ ∧
    c3dir.IncrGlobalDepth.global_depth_ = 2 ∧
    c3dir.IncrGlobalDepth.global_depth_ > c3dir.IncrGlobalDepth.max_depth_ := by
  refine ⟨Nat.le_refl 1, rfl, ?_⟩
  show 2 > 1
  exact Nat.lt_succ_self 1

/-! ## Extendible hash table: bucket page
(`extendible_htable_bucket_page.cpp` section of `src/unnamed/part_000`)

Verified at the `<int, int, IntComparator>` instantiation.  The pair array
`array_` is a total function `Nat → Int × Int`: entries at indices `≥ size_`
are the stale bytes still present in the 4 KiB page (a freshly `ResetMemory`d
page reads as zero pairs).  The C++ probes read index `size_` whenever the
binary search returns `size_`. -/

/-- The comparator trait (spec §6): a total order returning −1/0/1;
the `IntComparator` instantiation. -/
def intCmp (a b : Int) : Int := if a < b then -1 else if b < a then 1 else 0

structure ExtendibleHTableBucketPage where
  size_ : Nat
  max_size_ : Nat
  array_ : Nat → Int × Int

namespace ExtendibleHTableBucketPage

/-- The binary-search loop of `KeyIndex`.  The fuel makes the recursion
structural; `right + 1 - left` shrinks every iteration, so the `size + 1`
fuel that `KeyIndex` passes never runs out.  `(left + right) / 2` on the
non-negative values reached equals C++ integer division. -/
def keyIndexLoop (data : Nat → Int × Int) (key : Int) :
    Nat → Int → Int → Int
  | 0, left, _ => left
  | fuel + 1, left, right =>
    if left ≤ right then
      let mid := (left + right) / 2
      let ret := intCmp key (data mid.toNat).1
      if ret = 1 then keyIndexLoop data key fuel (mid + 1) right
      else if ret = -1 then keyIndexLoop data key fuel left (mid - 1)
      else mid
    else left

def Size (b : ExtendibleHTableBucketPage) : Nat := b.size_

def KeyAt (b : ExtendibleHTableBucketPage) (bucket_idx : Nat) : Int :=
  (b.array_ bucket_idx).1

def ValueAt (b : ExtendibleHTableBucketPage) (bucket_idx : Nat) : Int :=
  (b.array_ bucket_idx).2

def IsFull (b : ExtendibleHTableBucketPage) : Bool := b.size_ ≥ b.max_size_

def IsEmpty (b : ExtendibleHTableBucketPage) : Bool := b.size_ = 0

/-- `KeyIndex`: binary search over `[0, size - 1]`. -/
def KeyIndex (b : ExtendibleHTableBucketPage) (key : Int) : Int :=
  keyIndexLoop b.array_ key (b.size_ + 1) 0 ((b.size_ : Int) - 1)

/-- `Lookup` (the found value, or `none`).  Note the off-by-one bound check
`bucket_idx > Size()`: when the search returns `size` the probe reads the
stale entry `array_[size]`. -/
def Lookup (b : ExtendibleHTableBucketPage) (key : Int) : Option Int :=
  if b.size_ = 0 then none
  else
    let bucket_idx := (b.KeyIndex key).toNat
    if bucket_idx > b.Size then none
    else if intCmp key (b.KeyAt bucket_idx) = 0 then some (b.ValueAt bucket_idx)
    else none

/-- `InsertAt`: shift `[bucket_idx, size)` up one slot, write the pair,
increment the size. -/
def InsertAt (b : ExtendibleHTableBucketPage) (bucket_idx : Nat) (key value : Int) :
    ExtendibleHTableBucketPage :=
  { b with size_ := b.size_ + 1,
           array_ := fun j =>
             if j = bucket_idx then (key, value)
             else if bucket_idx < j ∧ j ≤ b.size_ then b.array_ (j - 1)
             else b.array_ j }

/-- `RemoveAt`: shift `(bucket_idx, size)` down one slot and decrement the
size (the dropped last entry remains as stale bytes at `size - 1`). -/
def RemoveAt (b : ExtendibleHTableBucketPage) (bucket_idx : Nat) :
    ExtendibleHTableBucketPage :=
  { b with size_ := b.size_ - 1,
           array_ := fun j =>
             if bucket_idx ≤ j ∧ j < b.size_ - 1 then b.array_ (j + 1) else b.array_ j }

/-- Bucket-page `Insert` (`some` = inserted, `none` = false). -/
def Insert (b : ExtendibleHTableBucketPage) (key value : Int) :
    Option ExtendibleHTableBucketPage :=
  if b.IsFull then none
  else if b.size_ = 0 then some (b.InsertAt 0 key value)
  else
    let bucket_idx := (b.KeyIndex key).toNat
    if intCmp key (b.KeyAt bucket_idx) = 0 then none
    else some (b.InsertAt bucket_idx key value)

/-- Bucket-page `Remove`.  When the probe index equals `size` (a stale-entry
match) the subsequent `RemoveAt` fails its `assert(bucket_idx < Size())`;
per spec §7 an invariant violation is a fatal condition, modelled as
`.error`. -/
def Remove (b : ExtendibleHTableBucketPage) (key : Int) :
    Except String (Option ExtendibleHTableBucketPage) :=
  if b.size_ = 0 then .ok none
  else
    let bucket_idx := (b.KeyIndex key).toNat
    if intCmp key (b.KeyAt bucket_idx) ≠ 0 then .ok none
    else if bucket_idx < b.Size then .ok (some (b.RemoveAt bucket_idx))
    else .error "assert bucket_idx < Size failed in RemoveAt"

/-- The live entries of a bucket, in index order. -/
def entries (b : ExtendibleHTableBucketPage) : List (Int × Int) :=
  (List.range b.size_).map b.array_

end ExtendibleHTableBucketPage

/-! ### Comparator and binary-search facts -/

theorem intCmp_self (a : Int) : intCmp a a = 0 := by
  unfold intCmp
  simp

theorem intCmp_eq_one {a b : Int} (h : intCmp a b = 1) : b < a := by
  unfold intCmp at h
  split at h
  · cases h
  · split at h
    · assumption
    · cases h

theorem intCmp_eq_negOne {a b : Int} (h : intCmp a b = -1) : a < b := by
  unfold intCmp at h
  split at h
  · assumption
  · split at h <;> cases h

theorem intCmp_eq_zero {a b : Int} (h : intCmp a b = 0) : a = b := by
  unfold intCmp at h
  split at h
  · cases h
  · split at h
    · cases h
    · omega

theorem intCmp_trichotomy (a b : Int) :
    intCmp a b = -1 ∨ intCmp a b = 0 ∨ intCmp a b = 1 := by
  unfold intCmp
  split
  · exact Or.inl rfl
  · split
    · exact Or.inr (Or.inr rfl)
    · exact Or.inr (Or.inl rfl)

/-- On a sorted prefix containing the key, the binary-search loop lands on
an index holding the key. -/
theorem keyIndexLoop_finds (data : Nat → Int × Int) (key : Int) (size : Nat)
    (hsorted : ∀ j < size, ∀ i < j, (data i).1 < (data j).1) :
    ∀ (fuel : Nat) (left right : Int), 0 ≤ left → right < (size : Int) →
      (∃ i : Nat, left ≤ (i : Int) ∧ (i : Int) ≤ right ∧ (data i).1 = key) →
      (right - left).toNat < fuel →
      ∃ i : Nat, (i : Int) = ExtendibleHTableBucketPage.keyIndexLoop data key fuel left right ∧
        i < size ∧ (data i).1 = key := by
  intro fuel
  induction fuel with
  | zero => intro left right _ _ _ hf; omega
  | succ fuel ih =>
    intro left right hl hr hex hf
    obtain ⟨i, hil, hir, hik⟩ := hex
    have hlr : left ≤ right := le_trans hil hir
    have hmid1 : left ≤ (left + right) / 2 := by omega
    have hmid2 : (left + right) / 2 ≤ right := by omega
    have hmidlt : ((left + right) / 2).toNat < size := by omega
    have hunfold : ExtendibleHTableBucketPage.keyIndexLoop data key (fuel + 1) left right =
        (if intCmp key (data ((left + right) / 2).toNat).1 = 1 then
          ExtendibleHTableBucketPage.keyIndexLoop data key fuel ((left + right) / 2 + 1) right
         else if intCmp key (data ((left + right) / 2).toNat).1 = -1 then
          ExtendibleHTableBucketPage.keyIndexLoop data key fuel left ((left + right) / 2 - 1)
         else (left + right) / 2) := by
      rw [ExtendibleHTableBucketPage.keyIndexLoop, if_pos hlr]
    by_cases h1 : intCmp key (data ((left + right) / 2).toNat).1 = 1
    · rw [hunfold, if_pos h1]
      have hlt := intCmp_eq_one h1
      have hgt : (left + right) / 2 < (i : Int) := by
        by_contra hcon
        push_neg at hcon
        rcases lt_or_eq_of_le hcon with hcase | hcase
        · have : (data i).1 < (data ((left + right) / 2).toNat).1 :=
            hsorted _ hmidlt i (by omega)
          omega
        · rw [show i = ((left + right) / 2).toNat by omega] at hik
          omega
      exact ih ((left + right) / 2 + 1) right (by omega) hr
        ⟨i, by omega, hir, hik⟩ (by omega)
    · by_cases h2 : intCmp key (data ((left + right) / 2).toNat).1 = -1
      · rw [hunfold, if_neg h1, if_pos h2]
        have hlt := intCmp_eq_negOne h2
        have hgt : (i : Int) < (left + right) / 2 := by
          by_contra hcon
          push_neg at hcon
          rcases lt_or_eq_of_le hcon with hcase | hcase
          · have : (data ((left + right) / 2).toNat).1 < (data i).1 :=
              hsorted i (by omega) _ (by omega)
            omega
          · rw [show i = ((left + right) / 2).toNat by omega] at hik
            omega
        exact ih left ((left + right) / 2 - 1) hl (by omega)
          ⟨i, hil, by omega, hik⟩ (by omega)
      · have h0 : intCmp key (data ((left + right) / 2).toNat).1 = 0 := by
          rcases intCmp_trichotomy key (data ((left + right) / 2).toNat).1 with h | h | h
          · exact absurd h h2
          · exact h
          · exact absurd h h1
        rw [hunfold, if_neg h1, if_neg h2]
        exact ⟨((left + right) / 2).toNat, by omega, hmidlt, (intCmp_eq_zero h0).symm⟩

/-- A sorted bucket containing the key answers `Lookup` positively. -/
theorem lookup_finds (b : ExtendibleHTableBucketPage) (key : Int)
    (hsorted : ∀ j < b.size_, ∀ i < j, (b.array_ i).1 < (b.array_ j).1)
    (hpresent : ∃ i < b.size_, (b.array_ i).1 = key) :
    ∃ i < b.size_, (b.array_ i).1 = key ∧ b.Lookup key = some (b.array_ i).2 := by
  obtain ⟨i0, hi0, hk0⟩ := hpresent
  have hsz : b.size_ ≠ 0 := by omega
  obtain ⟨i, hieq, hilt, hik⟩ :=
    keyIndexLoop_finds b.array_ key b.size_ hsorted (b.size_ + 1) 0 ((b.size_ : Int) - 1)
      le_rfl (by omega) ⟨i0, by omega, by omega, hk0⟩ (by omega)
  refine ⟨i, hilt, hik, ?_⟩
  unfold ExtendibleHTableBucketPage.Lookup
  rw [if_neg hsz]
  have htn : (b.KeyIndex key).toNat = i := by
    unfold ExtendibleHTableBucketPage.KeyIndex
    omega
  simp only [htn]
  rw [if_neg (by show ¬ i > b.Size; unfold ExtendibleHTableBucketPage.Size; omega)]
  rw [show intCmp key (b.KeyAt i) = 0 from hik ▸ intCmp_self key]
  rfl

/-! ## Extendible hash table: header page and table operations
(`disk_extendible_hash_table.cpp` section of `src/unnamed/part_000`)

The buffer pool is abstracted into a direct page store `Int → Option HPage`:
in a single-threaded run every fetch through a guard returns exactly the
page's current contents, and `NewPageGuarded` allocates the next monotone
page id over zeroed memory. -/

/-- Modelled from the spec: `ExtendibleHTableHeaderPage` is used by the
sources but its implementation is not under src/.  Spec §3/§4.5: `max_depth`
and `2^max_depth` directory page ids, each `INVALID` until first use;
`HashToDirectoryIndex(h) = h >> (32 - max_depth)`. -/
structure ExtendibleHTableHeaderPage where
  max_depth_ : Nat
  directory_page_ids_ : Nat → Int

namespace ExtendibleHTableHeaderPage

def Init (max_depth : Nat) : ExtendibleHTableHeaderPage :=
  { max_depth_ := max_depth, directory_page_ids_ := fun _ => INVALID_PAGE_ID }

def HashToDirectoryIndex (h : ExtendibleHTableHeaderPage) (hash : Nat) : Nat :=
  hash >>> (32 - h.max_depth_)

def GetDirectoryPageId (h : ExtendibleHTableHeaderPage) (directory_idx : Nat) : Int :=
  h.directory_page_ids_ directory_idx

def SetDirectoryPageId (h : ExtendibleHTableHeaderPage) (directory_idx : Nat)
    (directory_page_id : Int) : ExtendibleHTableHeaderPage :=
  { h with directory_page_ids_ := Function.update h.directory_page_ids_ directory_idx directory_page_id }

end ExtendibleHTableHeaderPage

inductive HPage where
  | header (h : ExtendibleHTableHeaderPage)
  | directory (d : ExtendibleHTableDirectoryPage)
  | bucket (b : ExtendibleHTableBucketPage)

structure DiskExtendibleHashTable where
  header_page_id_ : Int
  directory_max_depth_ : Nat
  bucket_max_size_ : Nat
  next_page_id_ : Int
  pages_ : Int → Option HPage

namespace DiskExtendibleHashTable

/-- The constructor: allocate a zeroed header page and `Init` it with
`header_max_depth`. -/
def new (header_max_depth directory_max_depth bucket_max_size : Nat) :
    DiskExtendibleHashTable :=
  { header_page_id_ := 0,
    directory_max_depth_ := directory_max_depth,
    bucket_max_size_ := bucket_max_size,
    next_page_id_ := 1,
    pages_ := fun p => if p = 0 then some (.header (.Init header_max_depth)) else none }

/-- Modelled from the spec: `FindBucketPageID` is called by `GetValue` but
its body is not under src/.  Per spec §4.6 `GetValue`: walk header →
directory following the index formulas; a missing level (`INVALID` page id)
is a miss. -/
def FindBucketPageID (hash : Int → Nat) (t : DiskExtendibleHashTable) (key : Int) :
    Option Int :=
  match t.pages_ t.header_page_id_ with
  | some (.header header) =>
    let directory_page_id :=
      header.GetDirectoryPageId (header.HashToDirectoryIndex (hash key))
    if directory_page_id = INVALID_PAGE_ID then none
    else
      match t.pages_ directory_page_id with
      | some (.directory directory) =>
        let bucket_page_id :=
          directory.GetBucketPageId (directory.HashToBucketIndex (hash key))
        if bucket_page_id = INVALID_PAGE_ID then none
        else some bucket_page_id
      | _ => none
  | _ => none

/-- `DiskExtendibleHashTable::GetValue`: find the bucket page id, fetch the
bucket and look the key up (the value pushed into `*result`, or a miss). -/
def GetValue (hash : Int → Nat) (t : DiskExtendibleHashTable) (key : Int) :
    Option Int :=
  match FindBucketPageID hash t key with
  | none => none
  | some bucket_page_id =>
    match t.pages_ bucket_page_id with
    | some (.bucket bucket) => bucket.Lookup key
    | _ => none

/-- Rebuild an array function from a list of live entries, keeping `old`
beyond the list (the stale region). -/
def listToArray (l : List (Int × Int)) (old : Nat → Int × Int) : Nat → Int × Int :=
  fun j => if hj : j < l.length then l.get ⟨j, hj⟩ else old j

/-- The directory rewrite that `SplitBucket` performs: every live slot
aliasing `bucket_page_id` gets local depth `nl`, and those of them whose low
`nl` bits do not match `bucket_idx` are redirected to `new_pid`. -/
def splitDirectory (d : ExtendibleHTableDirectoryPage) (bucket_page_id new_pid : Int)
    (bucket_idx nl : Nat) : ExtendibleHTableDirectoryPage :=
  { d with
    bucket_page_ids_ := fun i =>
      if i < 2 ^ d.global_depth_ ∧ d.bucket_page_ids_ i = bucket_page_id ∧
          ¬ i % 2 ^ nl = bucket_idx % 2 ^ nl
      then new_pid else d.bucket_page_ids_ i,
    local_depths_ := fun i =>
      if i < 2 ^ d.global_depth_ ∧ d.bucket_page_ids_ i = bucket_page_id
      then nl else d.local_depths_ i }

/-- The directory rewrite that `TryMergeBucket` performs: the deleted
bucket's slots are redirected to the survivor, and every slot of the merged
pair gets local depth `nl`. -/
def mergeDirectory (d : ExtendibleHTableDirectoryPage) (deleted survivor : Int)
    (nl : Nat) : ExtendibleHTableDirectoryPage :=
  { d with
    bucket_page_ids_ := fun i =>
      if i < 2 ^ d.global_depth_ ∧ d.bucket_page_ids_ i = deleted
      then survivor else d.bucket_page_ids_ i,
    local_depths_ := fun i =>
      if i < 2 ^ d.global_depth_ ∧
          (d.bucket_page_ids_ i = deleted ∨ d.bucket_page_ids_ i = survivor)
      then nl else d.local_depths_ i }

/-- A single page overwritten in the abstract page store (lemma-side helper
for stating preservation through `Remove`'s deferred directory write-back). -/
def patchPage (t : DiskExtendibleHashTable) (p : Int) (pg : HPage) :
    DiskExtendibleHashTable :=
  { t with pages_ := fun q => if q = p then some pg else t.pages_ q }

/-- Modelled from the spec: `SplitBucket` is called by `Insert` but its body
is not under src/.  Spec §4.6 step 4: allocate a new bucket page at the
split image; rehash the live entries, keeping in the old bucket those whose
hash masked to the new `local_depth` matches the original slot and moving
the rest to the new bucket; update every directory slot aliasing the old
bucket — slots whose low `local_depth` bits match the old `bucket_idx` keep
the old bucket, the others point to the new one, and all of them receive
the new `local_depth`.  The caller has already incremented
`local_depths_[bucket_idx]`.  Allocation cannot fail in the abstract page
store, so the `false` return checked by the source never arises here. -/
def SplitBucket (hash : Int → Nat) (t : DiskExtendibleHashTable)
    (directory : ExtendibleHTableDirectoryPage) (bucket : ExtendibleHTableBucketPage)
    (bucket_idx : Nat) (directory_page_id bucket_page_id : Int) :
    DiskExtendibleHashTable :=
  let new_local_depth := directory.local_depths_ bucket_idx
  let new_bucket_page_id := t.next_page_id_
  let stay := bucket.entries.filter
      (fun kv => hash kv.1 % 2 ^ new_local_depth = bucket_idx % 2 ^ new_local_depth)
  let move := bucket.entries.filter
      (fun kv => ¬ hash kv.1 % 2 ^ new_local_depth = bucket_idx % 2 ^ new_local_depth)
  let old_bucket : ExtendibleHTableBucketPage :=
    { bucket with size_ := stay.length, array_ := listToArray stay bucket.array_ }
  let new_bucket : ExtendibleHTableBucketPage :=
    { size_ := move.length, max_size_ := bucket.max_size_,
      array_ := listToArray move (fun _ => (0, 0)) }
  let directory' : ExtendibleHTableDirectoryPage :=
    splitDirectory directory bucket_page_id new_bucket_page_id bucket_idx new_local_depth
  { t with next_page_id_ := t.next_page_id_ + 1,
           pages_ := fun p =>
             if p = new_bucket_page_id then some (.bucket new_bucket)
             else if p = bucket_page_id then some (.bucket old_bucket)
             else if p = directory_page_id then some (.directory directory')
             else t.pages_ p }

/-- The tail of `DiskExtendibleHashTable::Insert` once the target bucket is
in hand (`retry` stands for the post-split recursive call
`return Insert(key, value, transaction)`). -/
def insertIntoBucket (hash : Int → Nat)
    (retry : DiskExtendibleHashTable → Except String (Bool × DiskExtendibleHashTable))
    (t : DiskExtendibleHashTable) (key value : Int)
    (directory : ExtendibleHTableDirectoryPage) (bucket : ExtendibleHTableBucketPage)
    (bucket_idx : Nat) (directory_page_id bucket_page_id : Int) :
    Except String (Bool × DiskExtendibleHashTable) :=
  if (bucket.Lookup key).isSome then .ok (false, t)
  else if bucket.IsFull then
    if directory.GetLocalDepth bucket_idx = directory.GetGlobalDepth ∧
        directory.GetGlobalDepth ≥ directory.GetMaxDepth then .ok (false, t)
    else
      let directory1 :=
        if directory.GetLocalDepth bucket_idx = directory.GetGlobalDepth
        then directory.IncrGlobalDepth else directory
      let directory2 := directory1.IncrLocalDepth bucket_idx
      retry (SplitBucket hash t directory2 bucket bucket_idx directory_page_id bucket_page_id)
  else
    match bucket.Insert key value with
    | some bucket' =>
      .ok (true, { t with pages_ := fun p =>
          if p = bucket_page_id then some (.bucket bucket') else t.pages_ p })
    | none => .ok (false, t)

/-- `Insert` after the directory page is resolved: fetch the bucket page,
creating it if the directory slot is `INVALID`. -/
def insertWithDirectory (hash : Int → Nat)
    (retry : DiskExtendibleHashTable → Except String (Bool × DiskExtendibleHashTable))
    (t : DiskExtendibleHashTable) (key value : Int)
    (directory0 : ExtendibleHTableDirectoryPage) (directory_page_id : Int) :
    Except String (Bool × DiskExtendibleHashTable) :=
  let bucket_idx := directory0.HashToBucketIndex (hash key)
  let tbp : DiskExtendibleHashTable × ExtendibleHTableDirectoryPage × Int :=
    if directory0.GetBucketPageId bucket_idx = INVALID_PAGE_ID then
      let bucket_page_id := t.next_page_id_
      let directory' :=
        (directory0.SetBucketPageId bucket_idx bucket_page_id).SetLocalDepth bucket_idx 0
      ({ t with
           next_page_id_ := t.next_page_id_ + 1,
           pages_ := fun p =>
             if p = bucket_page_id then
               some (.bucket { size_ := 0, max_size_ := t.bucket_max_size_,
                               array_ := fun _ => (0, 0) })
             else if p = directory_page_id then some (.directory directory')
             else t.pages_ p }, directory', bucket_page_id)
    else (t, directory0, directory0.GetBucketPageId bucket_idx)
  match tbp.1.pages_ tbp.2.2 with
  | some (.bucket bucket) =>
    insertIntoBucket hash retry tbp.1 key value tbp.2.1 bucket bucket_idx
      directory_page_id tbp.2.2
  | _ => .error "bucket page missing"

/-- `Insert` after the header page is read: fetch the directory page,
creating it if the header slot is `INVALID`. -/
def insertWithHeader (hash : Int → Nat)
    (retry : DiskExtendibleHashTable → Except String (Bool × DiskExtendibleHashTable))
    (t : DiskExtendibleHashTable) (key value : Int)
    (header : ExtendibleHTableHeaderPage) :
    Except String (Bool × DiskExtendibleHashTable) :=
  let directory_idx := header.HashToDirectoryIndex (hash key)
  let tdp : DiskExtendibleHashTable × Int :=
    if header.GetDirectoryPageId directory_idx = INVALID_PAGE_ID then
      let directory_page_id := t.next_page_id_
      let header' := header.SetDirectoryPageId directory_idx directory_page_id
      ({ t with next_page_id_ := t.next_page_id_ + 1,
                pages_ := fun p =>
                  if p = directory_page_id then
                    some (.directory (.Init t.directory_max_depth_))
                  else if p = t.header_page_id_ then some (.header header')
                  else t.pages_ p }, directory_page_id)
    else (t, header.GetDirectoryPageId directory_idx)
  match tdp.1.pages_ tdp.2 with
  | some (.directory directory0) =>
    insertWithDirectory hash retry tdp.1 key value directory0 tdp.2
  | _ => .error "directory page missing"

/-- `DiskExtendibleHashTable::Insert`, with fuel for the retry-after-split
recursion; the source recursion terminates because each retry strictly
increases the target bucket's local depth, which `max_depth` bounds.  The
`.error` leaves model impossible states (pages of the wrong kind, exhausted
fuel), never reached from `new` with adequate fuel.  The body is staged
through `insertWithHeader`/`insertWithDirectory`/`insertIntoBucket`,
mirroring the sequence of local variables of the C++ function. -/
def Insert (hash : Int → Nat) :
    Nat → DiskExtendibleHashTable → Int → Int →
    Except String (Bool × DiskExtendibleHashTable)
  | 0, _, _, _ => .error "out of fuel"
  | fuel + 1, t, key, value =>
    if t.header_page_id_ = INVALID_PAGE_ID then .ok (false, t)
    else
      match t.pages_ t.header_page_id_ with
      | some (.header header) =>
        insertWithHeader hash (fun ts => Insert hash fuel ts key value) t key value header
      | _ => .error "header page missing"

/-- Modelled from the spec: `TryMergeBucket` is called by `Remove` but its
body is not under src/.  Spec §4.6 `Remove`: while the bucket and its split
image have equal `local_depth > 0` and at least one of them is empty, delete
the empty bucket's page, redirect its directory slots to the survivor,
decrement the survivor's `local_depth` on all aliasing slots, and recurse on
the merged bucket.  The fuel is the current local depth, which strictly
decreases, so it never runs out. -/
def TryMergeBucket (hash : Int → Nat) :
    Nat → DiskExtendibleHashTable → ExtendibleHTableDirectoryPage → Nat →
    DiskExtendibleHashTable × ExtendibleHTableDirectoryPage
  | 0, t, directory, _ => (t, directory)
  | fuel + 1, t, directory, bucket_idx =>
    let ld := directory.local_depths_ bucket_idx
    if ld = 0 then (t, directory)
    else
      let image_idx := directory.GetSplitImageIndex bucket_idx
      if directory.local_depths_ image_idx = ld then
        let bucket_page_id := directory.bucket_page_ids_ bucket_idx
        let image_page_id := directory.bucket_page_ids_ image_idx
        match t.pages_ bucket_page_id, t.pages_ image_page_id with
        | some (.bucket bucket), some (.bucket image) =>
          if bucket.size_ = 0 ∨ image.size_ = 0 then
            let deleted_page_id := if image.size_ = 0 then image_page_id else bucket_page_id
            let survivor_page_id := if image.size_ = 0 then bucket_page_id else image_page_id
            let directory' : ExtendibleHTableDirectoryPage :=
              mergeDirectory directory deleted_page_id survivor_page_id (ld - 1)
            let t' := { t with pages_ := fun p =>
                if p = deleted_page_id then none else t.pages_ p }
            TryMergeBucket hash fuel t' directory' (bucket_idx % 2 ^ (ld - 1))
          else (t, directory)
        | _, _ => (t, directory)
      else (t, directory)

/-- The `while (CanShrink()) DecrGlobalDepth();` loop of `Remove`.  The fuel
makes it structural; `CanShrink` forces `global_depth > 0` and each
iteration decrements it, so `global_depth + 1` fuel suffices. -/
def shrinkDirectory : Nat → ExtendibleHTableDirectoryPage → ExtendibleHTableDirectoryPage
  | 0, d => d
  | fuel + 1, d => if d.CanShrink then shrinkDirectory fuel d.DecrGlobalDepth else d

/-- `DiskExtendibleHashTable::Remove`: locate and remove the key from its
bucket, then try to merge and shrink. -/
def Remove (hash : Int → Nat) (t : DiskExtendibleHashTable) (key : Int) :
    Except String (Bool × DiskExtendibleHashTable) :=
  if t.header_page_id_ = INVALID_PAGE_ID then .ok (false, t)
  else
    match t.pages_ t.header_page_id_ with
    | some (.header header) =>
      let directory_page_id :=
        header.GetDirectoryPageId (header.HashToDirectoryIndex (hash key))
      if directory_page_id = INVALID_PAGE_ID then .ok (false, t)
      else
        match t.pages_ directory_page_id with
        | some (.directory directory) =>
          let bucket_idx := directory.HashToBucketIndex (hash key)
          let bucket_page_id := directory.GetBucketPageId bucket_idx
          if bucket_page_id = INVALID_PAGE_ID then .ok (false, t)
          else
            match t.pages_ bucket_page_id with
            | some (.bucket bucket) =>
              match bucket.Remove key with
              | .error e => .error e
              | .ok none => .ok (false, t)
              | .ok (some bucket') =>
                let t1 := { t with pages_ := fun p =>
                    if p = bucket_page_id then some (.bucket bucket') else t.pages_ p }
                let td := TryMergeBucket hash (directory.local_depths_ bucket_idx + 1)
                    t1 directory bucket_idx
                let t2 := td.1
                let directory' := shrinkDirectory (td.2.global_depth_ + 1) td.2
                .ok (true, { t2 with pages_ := fun p => if p = directory_page_id then some (.directory directory') else t2.pages_ p })
            | _ => .error "bucket page missing"
        | _ => .error "directory page missing"
    | _ => .error "header page missing"

end DiskExtendibleHashTable

/-! ### Claim C1: the concrete failing run -/

/-- Hash for the C1 scenario: the identity on non-negative keys. -/
def c1hash : Int → Nat := fun k => k.toNat

/-- Fresh table with `header_max_depth = 0`, `directory_max_depth = 2`,
`bucket_max_size = 3`. -/
def c1s0 : DiskExtendibleHashTable := .new 0 2 3

def c1s1 : DiskExtendibleHashTable :=
  match DiskExtendibleHashTable.Insert c1hash 5 c1s0 0 0 with
  | .ok (_, t') => t'
  | .error _ => c1s0

def c1s2 : DiskExtendibleHashTable :=
  match DiskExtendibleHashTable.Insert c1hash 5 c1s1 1 1 with
  | .ok (_, t') => t'
  | .error _ => c1s1

def c1s3 : DiskExtendibleHashTable :=
  match DiskExtendibleHashTable.Remove c1hash c1s2 1 with
  | .ok (_, t') => t'
  | .error _ => c1s2

/-- C1: after `Insert(0,0)`, `Insert(1,1)` and a successful `Remove(1)`,
`GetValue(1)` still succeeds and returns the removed value 1.  `RemoveAt`
shifts the live entries but leaves the dropped pair `(1, 1)` as stale bytes
at index `size`, and `Lookup`'s bound check `bucket_idx > Size()` (instead
of `>=`) lets the binary search's past-the-end probe match it.  This
violates the claim (and spec §8 property 1 / scenario 4), so the claim is
right and the code wrong. -/
theorem remove_succeeds_but_getValue_still_hits :
    (DiskExtendibleHashTable.Insert c1hash 5 c1s0 0 0).map Prod.fst = .ok true ∧
    (DiskExtendibleHashTable.Insert c1hash 5 c1s1 1 1).map Prod.fst = .ok true ∧
    (DiskExtendibleHashTable.Remove c1hash c1s2 1).map Prod.fst = .ok true ∧
    DiskExtendibleHashTable.GetValue c1hash c1s3 1 = some 1 :=
  ⟨rfl, rfl, rfl, rfl⟩

/-! ### Claim C7: inserting an already-present key -/

/-- C7: if the key is already present in its (sorted) bucket, `Insert`
returns false and leaves the table completely unchanged — no page content
changes and the stored value is not updated. -/
theorem insert_present_key_returns_false_unchanged
    (hash : Int → Nat) (fuel : Nat) (t : DiskExtendibleHashTable) (key value : Int)
    (header : ExtendibleHTableHeaderPage) (directory : ExtendibleHTableDirectoryPage)
    (bucket : ExtendibleHTableBucketPage)
    (hhpid : t.header_page_id_ ≠ INVALID_PAGE_ID)
    (hheader : t.pages_ t.header_page_id_ = some (.header header))
    (hdpid : header.GetDirectoryPageId (header.HashToDirectoryIndex (hash key)) ≠
      INVALID_PAGE_ID)
    (hdir : t.pages_ (header.GetDirectoryPageId (header.HashToDirectoryIndex (hash key))) =
      some (.directory directory))
    (hbpid : directory.GetBucketPageId (directory.HashToBucketIndex (hash key)) ≠
      INVALID_PAGE_ID)
    (hbucket : t.pages_ (directory.GetBucketPageId (directory.HashToBucketIndex (hash key))) =
      some (.bucket bucket))
    (hsorted : ∀ j < bucket.size_, ∀ i < j, (bucket.array_ i).1 < (bucket.array_ j).1)
    (hpresent : ∃ i < bucket.size_, (bucket.array_ i).1 = key) :
    DiskExtendibleHashTable.Insert hash (fuel + 1) t key value = .ok (false, t) := by
  obtain ⟨i, hilt, hik, hlook⟩ := lookup_finds bucket key hsorted hpresent
  simp only [DiskExtendibleHashTable.Insert, DiskExtendibleHashTable.insertWithHeader,
    DiskExtendibleHashTable.insertWithDirectory, DiskExtendibleHashTable.insertIntoBucket,
    if_neg hhpid, hheader, if_neg hdpid, hdir,
    if_neg hbpid, hbucket, hlook, Option.isSome_some, if_pos]

/-- Concrete table for the C7 witness: header 0 → directory 1 → bucket 2,
the bucket holding the single pair `(5, 50)`. -/
def c7table : DiskExtendibleHashTable :=
  { header_page_id_ := 0, directory_max_depth_ := 2, bucket_max_size_ := 3,
    next_page_id_ := 3,
    pages_ := fun p =>
      if p = 0 then some (.header { max_depth_ := 0, directory_page_ids_ := fun _ => 1 })
      else if p = 1 then some (.directory { max_depth_ := 2, global_depth_ := 0, bucket_page_ids_ := fun _ => 2, local_depths_ := fun _ => 0 })
      else if p = 2 then some (.bucket { size_ := 1, max_size_ := 3, array_ := fun _ => (5, 50) })
      else none }

def c7hash : Int → Nat := fun k => k.toNat

/-- Witness for C7: inserting key 5 (already stored with value 50) with a
different value 99 returns false and leaves the table untouched. -/
theorem insert_present_key_returns_false_unchanged_witness :
    (∃ i < (1 : Nat), (((fun _ => (5, 50)) : Nat → Int × Int) i).1 = (5 : Int)) ∧
    DiskExtendibleHashTable.Insert c7hash 1 c7table 5 99 = .ok (false, c7table) := by
  constructor
  · exact ⟨0, by decide, rfl⟩
  · exact insert_present_key_returns_false_unchanged c7hash 0 c7table 5 99
      { max_depth_ := 0, directory_page_ids_ := fun _ => 1 }
      { max_depth_ := 2, global_depth_ := 0,
        bucket_page_ids_ := fun _ => 2, local_depths_ := fun _ => 0 }
      { size_ := 1, max_size_ := 3, array_ := fun _ => (5, 50) }
      (by decide) rfl (by decide) rfl (by decide) rfl
      (by decide) ⟨0, by decide, rfl⟩

/-! ## Claim C2: stability of a stored binding under other operations

The remainder of the development proves: once `Insert(key, value)` has
returned true, `GetValue(key)` keeps returning `value` across arbitrary
further `Insert`s and `Remove`s of other keys — through bucket splits,
directory growth, merges and shrinks — until a `Remove(key)`.

It rests on a reachable-state invariant (`TableWF`) and a per-binding
predicate (`Contains`). -/

/-! ### Modular/bitwise arithmetic toolkit -/

theorem two_pow_pos' (n : Nat) : 0 < 2 ^ n := Nat.pow_pos (by decide)

theorem mod_two_pow_lt (a n : Nat) : a % 2 ^ n < 2 ^ n :=
  Nat.mod_lt _ (two_pow_pos' n)

theorem mod_mod_two_pow {n m : Nat} (h : n ≤ m) (a : Nat) :
    a % 2 ^ m % 2 ^ n = a % 2 ^ n :=
  Nat.mod_mod_of_dvd a (pow_dvd_pow 2 h)

theorem mod_eq_mod_of_mod_eq {n m : Nat} (h : n ≤ m) {a b : Nat}
    (he : a % 2 ^ m = b % 2 ^ m) : a % 2 ^ n = b % 2 ^ n := by
  rw [← mod_mod_two_pow h a, ← mod_mod_two_pow h b, he]

/-- A value below `2 * m` with residue `r` mod `m` is `r` or `r + m`. -/
theorem lt_two_mul_mod_cases {x m r : Nat} (hm : 0 < m) (hx : x < 2 * m)
    (hr : x % m = r) : x = r ∨ x = r + m := by
  rcases Nat.lt_or_ge x m with h | h
  · left
    rw [← hr, Nat.mod_eq_of_lt h]
  · right
    have : x % m = x - m := by
      rw [Nat.mod_eq_sub_mod h, Nat.mod_eq_of_lt (by omega)]
    omega

theorem xor_mod_two_pow (a b n : Nat) :
    (a ^^^ b) % 2 ^ n = a % 2 ^ n ^^^ b % 2 ^ n := by
  apply Nat.eq_of_testBit_eq
  intro i
  simp only [Nat.testBit_mod_two_pow, Nat.testBit_xor]
  cases decide (i < n) <;> simp

theorem two_pow_mod_two_pow_of_lt {m n : Nat} (h : m < n) :
    2 ^ m % 2 ^ n = 2 ^ m :=
  Nat.mod_eq_of_lt (Nat.pow_lt_pow_right (by decide) h)

theorem two_pow_mod_two_pow_of_le {n m : Nat} (h : n ≤ m) :
    2 ^ m % 2 ^ n = 0 := by
  obtain ⟨c, hc⟩ := pow_dvd_pow 2 h
  rw [hc, Nat.mul_mod_right]

theorem xor_two_pow_eq_add {r m : Nat} (h : r < 2 ^ m) : r ^^^ 2 ^ m = r + 2 ^ m := by
  apply Nat.eq_of_testBit_eq
  intro i
  rcases Nat.lt_trichotomy i m with hi | hi | hi
  · rw [Nat.testBit_xor, Nat.testBit_two_pow_of_ne (by omega),
      Nat.add_comm r (2 ^ m), Nat.testBit_two_pow_add_gt hi]
    simp
  · subst hi
    rw [Nat.testBit_xor, Nat.testBit_two_pow_self,
      Nat.add_comm r (2 ^ i), Nat.testBit_two_pow_add_eq,
      Nat.testBit_lt_two_pow h]
    simp
  · have h1 : r + 2 ^ m < 2 ^ i := by
      have : 2 ^ (m + 1) ≤ 2 ^ i := Nat.pow_le_pow_right (by decide) (by omega)
      have : 2 ^ (m + 1) = 2 * 2 ^ m := by rw [Nat.pow_succ]; omega
      omega
    rw [Nat.testBit_xor, Nat.testBit_two_pow_of_ne (by omega),
      Nat.testBit_lt_two_pow h1, Nat.testBit_lt_two_pow (by omega : r < 2 ^ i)]
    simp

/-- The split image flips bit `l`: congruent below `2^l`, distinct mod
`2^(l+1)`, and together the two residues cover the `2^l`-class. -/
theorem split_image_mod_lower {b l n : Nat} (h : n ≤ l) :
    (b ^^^ 2 ^ l) % 2 ^ n = b % 2 ^ n := by
  rw [xor_mod_two_pow, two_pow_mod_two_pow_of_le h]
  simp

theorem split_image_mod_succ (b l : Nat) :
    (b ^^^ 2 ^ l) % 2 ^ (l + 1) = b % 2 ^ (l + 1) ^^^ 2 ^ l := by
  rw [xor_mod_two_pow, two_pow_mod_two_pow_of_lt (Nat.lt_succ_self l)]

theorem split_image_mod_succ_ne (b l : Nat) :
    (b ^^^ 2 ^ l) % 2 ^ (l + 1) ≠ b % 2 ^ (l + 1) := by
  rw [split_image_mod_succ]
  intro h
  have h0 : b % 2 ^ (l + 1) ^^^ 2 ^ l = b % 2 ^ (l + 1) ^^^ 0 := by
    rw [Nat.xor_zero]; exact h
  have h1 : 2 ^ l = 0 := Nat.xor_right_inj.mp h0
  exact absurd h1.symm (Nat.ne_of_lt (two_pow_pos' l))

/-- Classes mod `2^l` split into the two classes mod `2^(l+1)` of a residue
and its split image. -/
theorem mod_succ_cases_of_mod_eq {i s l : Nat}
    (h : i % 2 ^ l = s % 2 ^ l) :
    i % 2 ^ (l + 1) = s % 2 ^ (l + 1) ∨
    i % 2 ^ (l + 1) = (s ^^^ 2 ^ l) % 2 ^ (l + 1) := by
  have hpow : 2 ^ (l + 1) = 2 * 2 ^ l := by rw [Nat.pow_succ]; omega
  have hi : i % 2 ^ (l + 1) % 2 ^ l = s % 2 ^ l := by
    rw [mod_mod_two_pow (Nat.le_succ l)]; exact h
  have hs : s % 2 ^ (l + 1) % 2 ^ l = s % 2 ^ l := mod_mod_two_pow (Nat.le_succ l) s
  have hilt : i % 2 ^ (l + 1) < 2 * 2 ^ l := hpow ▸ mod_two_pow_lt i (l + 1)
  have hslt : s % 2 ^ (l + 1) < 2 * 2 ^ l := hpow ▸ mod_two_pow_lt s (l + 1)
  have himg : (s ^^^ 2 ^ l) % 2 ^ (l + 1) = s % 2 ^ (l + 1) ^^^ 2 ^ l :=
    split_image_mod_succ s l
  have hrlt : s % 2 ^ l < 2 ^ l := mod_two_pow_lt s l
  rcases lt_two_mul_mod_cases (two_pow_pos' l) hilt hi with hcase | hcase <;>
    rcases lt_two_mul_mod_cases (two_pow_pos' l) hslt hs with hcase' | hcase'
  · exact Or.inl (by omega)
  · -- i-residue is the low one, s-residue the high one: i matches the image
    refine Or.inr ?_
    have e1 : s % 2 ^ l + 2 ^ l = s % 2 ^ l ^^^ 2 ^ l := (xor_two_pow_eq_add hrlt).symm
    have e2 : (s ^^^ 2 ^ l) % 2 ^ (l + 1) = s % 2 ^ l := by
      rw [himg, hcase', e1, Nat.xor_assoc, Nat.xor_self, Nat.xor_zero]
    omega
  · -- i-residue is the high one, s-residue the low one: i matches the image
    refine Or.inr ?_
    have e2 : (s ^^^ 2 ^ l) % 2 ^ (l + 1) = s % 2 ^ l + 2 ^ l := by
      rw [himg, hcase', xor_two_pow_eq_add hrlt]
    omega
  · exact Or.inl (by omega)

/-! ### Bucket-page lemmas -/

/-- Strictly-sorted live prefix. -/
def BucketSorted (b : ExtendibleHTableBucketPage) : Prop :=
  ∀ j < b.size_, ∀ i < j, (b.array_ i).1 < (b.array_ j).1

theorem bucketSorted_key_inj {b : ExtendibleHTableBucketPage} (hs : BucketSorted b)
    {i j : Nat} (hi : i < b.size_) (hj : j < b.size_)
    (he : (b.array_ i).1 = (b.array_ j).1) : i = j := by
  rcases Nat.lt_trichotomy i j with h | h | h
  · exact absurd he (by have := hs j hj i h; omega)
  · exact h
  · exact absurd he (by have := hs i hi j h; omega)

/-- On a sorted prefix avoiding the key, the binary-search loop returns the
insertion point. -/
theorem keyIndexLoop_insertion_point (data : Nat → Int × Int) (key : Int) (size : Nat)
    (hsorted : ∀ j < size, ∀ i < j, (data i).1 < (data j).1)
    (habsent : ∀ i < size, (data i).1 ≠ key) :
    ∀ (fuel : Nat) (left right : Int), 0 ≤ left → left ≤ right + 1 → right < (size : Int) →
      (∀ i : Nat, i < size → (i : Int) < left → (data i).1 < key) →
      (∀ i : Nat, i < size → right < (i : Int) → key < (data i).1) →
      (right + 1 - left).toNat < fuel →
      ∃ r : Nat, (r : Int) = ExtendibleHTableBucketPage.keyIndexLoop data key fuel left right ∧
        r ≤ size ∧ (∀ i : Nat, i < size → i < r → (data i).1 < key) ∧
        (∀ i : Nat, i < size → r ≤ i → key < (data i).1) := by
  intro fuel
  induction fuel with
  | zero => intro left right _ _ _ _ _ hf; omega
  | succ fuel ih =>
    intro left right hl hlr1 hr hbelow habove hf
    by_cases hlr : left ≤ right
    · have hmid1 : left ≤ (left + right) / 2 := by omega
      have hmid2 : (left + right) / 2 ≤ right := by omega
      have hmidlt : ((left + right) / 2).toNat < size := by omega
      have hunfold : ExtendibleHTableBucketPage.keyIndexLoop data key (fuel + 1) left right =
          (if intCmp key (data ((left + right) / 2).toNat).1 = 1 then
            ExtendibleHTableBucketPage.keyIndexLoop data key fuel ((left + right) / 2 + 1) right
           else if intCmp key (data ((left + right) / 2).toNat).1 = -1 then
            ExtendibleHTableBucketPage.keyIndexLoop data key fuel left ((left + right) / 2 - 1)
           else (left + right) / 2) := by
        rw [ExtendibleHTableBucketPage.keyIndexLoop, if_pos hlr]
      by_cases h1 : intCmp key (data ((left + right) / 2).toNat).1 = 1
      · rw [hunfold, if_pos h1]
        have hlt := intCmp_eq_one h1
        refine ih ((left + right) / 2 + 1) right (by omega) (by omega) hr ?_ habove (by omega)
        intro i hi hilt
        rcases Nat.lt_or_ge i (((left + right) / 2).toNat) with hc | hc
        · have := hsorted _ hmidlt i hc
          omega
        · have hieq : i = ((left + right) / 2).toNat := by omega
          rw [hieq]
          exact hlt
      · by_cases h2 : intCmp key (data ((left + right) / 2).toNat).1 = -1
        · rw [hunfold, if_neg h1, if_pos h2]
          have hlt := intCmp_eq_negOne h2
          refine ih left ((left + right) / 2 - 1) hl (by omega) (by omega) hbelow ?_ (by omega)
          intro i hi higt
          rcases Nat.lt_or_ge (((left + right) / 2).toNat) i with hc | hc
          · have := hsorted i hi _ hc
            omega
          · have hieq : i = ((left + right) / 2).toNat := by omega
            rw [hieq]
            exact hlt
        · exfalso
          rcases intCmp_trichotomy key (data ((left + right) / 2).toNat).1 with h | h | h
          · exact h2 h
          · exact habsent _ hmidlt (intCmp_eq_zero h).symm
          · exact h1 h
    · rw [ExtendibleHTableBucketPage.keyIndexLoop, if_neg hlr]
      refine ⟨left.toNat, by omega, by omega, ?_, ?_⟩
      · intro i hi hilt
        exact hbelow i hi (by omega)
      · intro i hi hile
        exact habove i hi (by omega)

theorem insertAt_array_lt (b : ExtendibleHTableBucketPage) (idx : Nat) (k v : Int)
    {j : Nat} (h : j < idx) :
    (b.InsertAt idx k v).array_ j = b.array_ j := by
  show (if j = idx then (k, v)
        else if idx < j ∧ j ≤ b.size_ then b.array_ (j - 1) else b.array_ j) = b.array_ j
  rw [if_neg (by omega), if_neg (by omega)]

theorem insertAt_array_eq (b : ExtendibleHTableBucketPage) (idx : Nat) (k v : Int) :
    (b.InsertAt idx k v).array_ idx = (k, v) := by
  show (if idx = idx then (k, v)
        else if idx < idx ∧ idx ≤ b.size_ then b.array_ (idx - 1) else b.array_ idx) = (k, v)
  rw [if_pos rfl]

theorem insertAt_array_gt (b : ExtendibleHTableBucketPage) (idx : Nat) (k v : Int)
    {j : Nat} (h1 : idx < j) (h2 : j ≤ b.size_) :
    (b.InsertAt idx k v).array_ j = b.array_ (j - 1) := by
  show (if j = idx then (k, v)
        else if idx < j ∧ j ≤ b.size_ then b.array_ (j - 1) else b.array_ j) = b.array_ (j - 1)
  rw [if_neg (by omega), if_pos (by omega)]

/-- `Insert` on a sorted bucket: the new bucket is sorted, one entry longer,
holds the new pair live, and keeps every old live entry live. -/
theorem bucket_insert_spec (b : ExtendibleHTableBucketPage) (k v : Int)
    (hs : BucketSorted b) {b' : ExtendibleHTableBucketPage}
    (hins : b.Insert k v = some b') :
    BucketSorted b' ∧ b'.size_ = b.size_ + 1 ∧ b'.max_size_ = b.max_size_ ∧
    (∃ j < b'.size_, b'.array_ j = (k, v)) ∧
    (∀ i < b.size_, ∃ j < b'.size_, b'.array_ j = b.array_ i) := by
  have habsent : ∀ i < b.size_, (b.array_ i).1 ≠ k := by
    intro i hi hk
    obtain ⟨i', hi', hk', hlook⟩ := lookup_finds b k hs ⟨i, hi, hk⟩
    simp only [ExtendibleHTableBucketPage.Insert] at hins
    split at hins
    · cases hins
    · split at hins
      · omega
      · simp only [ExtendibleHTableBucketPage.Lookup] at hlook
        rw [if_neg (by omega)] at hlook
        split at hlook
        · cases hlook
        · split at hlook
          · rename_i hc
            rw [if_pos hc] at hins
            cases hins
          · cases hlook
  -- the insertion index
  simp only [ExtendibleHTableBucketPage.Insert] at hins
  split at hins
  · cases hins
  · rename_i hfull
    by_cases hsz : b.size_ = 0
    · rw [if_pos hsz] at hins
      injection hins with hins
      subst hins
      refine ⟨?_, rfl, rfl,
        ⟨0, by show 0 < b.size_ + 1; omega, insertAt_array_eq b 0 k v⟩, ?_⟩
      · intro j hj i hij
        have hj' : j < b.size_ + 1 := hj
        omega
      · intro i hi
        omega
    · rw [if_neg hsz] at hins
      obtain ⟨r, hreq, hrle, hbelow, habove⟩ :=
        keyIndexLoop_insertion_point b.array_ k b.size_ hs habsent (b.size_ + 1) 0
          ((b.size_ : Int) - 1) le_rfl (by omega) (by omega)
          (by intro i _ h; omega) (by intro i hi h; omega) (by omega)
      have hidx : (b.KeyIndex k).toNat = r := by
        unfold ExtendibleHTableBucketPage.KeyIndex
        omega
      rw [hidx] at hins
      split at hins
      · cases hins
      · injection hins with hins
        subst hins
        have karr : ∀ j ≤ b.size_, ((b.InsertAt r k v).array_ j).1 =
            if j < r then (b.array_ j).1 else if j = r then k else (b.array_ (j - 1)).1 := by
          intro j hj
          rcases Nat.lt_trichotomy j r with h | h | h
          · rw [insertAt_array_lt b r k v h, if_pos h]
          · subst h
            rw [insertAt_array_eq b j k v, if_neg (by omega), if_pos rfl]
          · rw [insertAt_array_gt b r k v h hj, if_neg (by omega), if_neg (by omega)]
        refine ⟨?_, rfl, rfl,
          ⟨r, by show r < b.size_ + 1; omega, insertAt_array_eq b r k v⟩, ?_⟩
        · intro j hj i hij
          show ((b.InsertAt r k v).array_ i).1 < ((b.InsertAt r k v).array_ j).1
          have hj2 : j < b.size_ + 1 := hj
          have hj' : j ≤ b.size_ := by omega
          rw [karr i (by omega), karr j hj']
          rcases Nat.lt_trichotomy j r with hjr | hjr | hjr
          · rw [if_pos (show i < r by omega), if_pos hjr]
            exact hs j (by omega) i hij
          · rw [if_pos (show i < r by omega), if_neg (by omega), if_pos hjr]
            exact hbelow i (by omega) (by omega)
          · rw [if_neg (show ¬ j < r by omega), if_neg (show ¬ j = r by omega)]
            rcases Nat.lt_trichotomy i r with hir | hir | hir
            · rw [if_pos hir]
              exact hs (j - 1) (by omega) i (by omega)
            · rw [if_neg (by omega), if_pos hir]
              exact habove (j - 1) (by omega) (by omega)
            · rw [if_neg (by omega), if_neg (by omega)]
              exact hs (j - 1) (by omega) (i - 1) (by omega)
        · intro i hi
          rcases Nat.lt_or_ge i r with h | h
          · exact ⟨i, by show i < b.size_ + 1; omega, insertAt_array_lt b r k v h⟩
          · exact ⟨i + 1, by show i + 1 < b.size_ + 1; omega,
              by rw [insertAt_array_gt b r k v (by omega) (by omega)]; simp⟩

theorem removeAt_array_lt (b : ExtendibleHTableBucketPage) (idx : Nat)
    {j : Nat} (h : j < idx) :
    (b.RemoveAt idx).array_ j = b.array_ j := by
  unfold ExtendibleHTableBucketPage.RemoveAt
  simp only
  rw [if_neg (by omega)]

theorem removeAt_array_ge (b : ExtendibleHTableBucketPage) (idx : Nat)
    {j : Nat} (h1 : idx ≤ j) (h2 : j < b.size_ - 1) :
    (b.RemoveAt idx).array_ j = b.array_ (j + 1) := by
  unfold ExtendibleHTableBucketPage.RemoveAt
  simp only
  rw [if_pos (by omega)]

/-- Bucket `Remove` on a sorted bucket: when it returns a new bucket it has
removed exactly the (unique) live entry with the key; every other live
entry survives and sortedness is preserved. -/
theorem bucket_remove_spec (b : ExtendibleHTableBucketPage) (k : Int)
    (hs : BucketSorted b) {b' : ExtendibleHTableBucketPage}
    (hrem : b.Remove k = .ok (some b')) :
    BucketSorted b' ∧ b'.size_ + 1 = b.size_ ∧ b'.max_size_ = b.max_size_ ∧
    (∀ i < b.size_, (b.array_ i).1 ≠ k → ∃ j < b'.size_, b'.array_ j = b.array_ i) := by
  simp only [ExtendibleHTableBucketPage.Remove] at hrem
  split at hrem
  · cases hrem
  · rename_i hsz
    split at hrem
    · cases hrem
    · rename_i hcmp
      split at hrem
      · rename_i hidx
        injection hrem with hrem
        injection hrem with hrem
        subst hrem
        rw [not_not] at hcmp
        have hkey : (b.array_ (b.KeyIndex k).toNat).1 = k := (intCmp_eq_zero hcmp).symm
        set idx := (b.KeyIndex k).toNat with hidxdef
        have hidx' : idx < b.size_ := hidx
        have karr : ∀ j, j < b.size_ - 1 → ((b.RemoveAt idx).array_ j).1 =
            if j < idx then (b.array_ j).1 else (b.array_ (j + 1)).1 := by
          intro j hj
          rcases Nat.lt_or_ge j idx with h | h
          · rw [removeAt_array_lt b idx h, if_pos h]
          · rw [removeAt_array_ge b idx h hj, if_neg (by omega)]
        refine ⟨?_, by show b.size_ - 1 + 1 = b.size_; omega, rfl, ?_⟩
        · intro j hj i hij
          show ((b.RemoveAt idx).array_ i).1 < ((b.RemoveAt idx).array_ j).1
          have hj' : j < b.size_ - 1 := hj
          rw [karr i (by omega), karr j hj']
          rcases Nat.lt_or_ge i idx with hi | hi <;> rcases Nat.lt_or_ge j idx with hjr | hjr
          · rw [if_pos hi, if_pos hjr]
            exact hs j (by omega) i hij
          · rw [if_pos hi, if_neg (by omega)]
            exact hs (j + 1) (by omega) i (by omega)
          · omega
          · rw [if_neg (by omega), if_neg (by omega)]
            exact hs (j + 1) (by omega) (i + 1) (by omega)
        · intro i hi hkne
          have hine : i ≠ idx := fun he => hkne (he ▸ hkey)
          rcases Nat.lt_or_ge i idx with h | h
          · exact ⟨i, by show i < b.size_ - 1; omega, removeAt_array_lt b idx h⟩
          · refine ⟨i - 1, by show i - 1 < b.size_ - 1; omega, ?_⟩
            rw [removeAt_array_ge b idx (by omega) (by show i - 1 < b.size_ - 1; omega)]
            congr 1
            omega
      · cases hrem

/-! ### Entry-list machinery: the live region of a bucket as a sorted list -/

theorem entries_length (b : ExtendibleHTableBucketPage) : b.entries.length = b.size_ := by
  simp [ExtendibleHTableBucketPage.entries]

theorem entries_get (b : ExtendibleHTableBucketPage) (i : Nat) (hi : i < b.entries.length) :
    b.entries.get ⟨i, hi⟩ = b.array_ i := by
  simp [ExtendibleHTableBucketPage.entries]

theorem mem_entries {b : ExtendibleHTableBucketPage} {kv : Int × Int} :
    kv ∈ b.entries ↔ ∃ i < b.size_, b.array_ i = kv := by
  simp [ExtendibleHTableBucketPage.entries, List.mem_map, List.mem_range]

theorem entries_pairwise {b : ExtendibleHTableBucketPage} (hs : BucketSorted b) :
    b.entries.Pairwise (fun a c => a.1 < c.1) := by
  rw [List.pairwise_iff_get]
  intro i j hij
  have hj : (j : Nat) < b.size_ := Nat.lt_of_lt_of_eq j.isLt (entries_length b)
  have e1 : b.entries.get i = b.array_ (i : Nat) := entries_get b i i.isLt
  have e2 : b.entries.get j = b.array_ (j : Nat) := entries_get b j j.isLt
  rw [e1, e2]
  exact hs j hj i hij

theorem listToArray_get (l : List (Int × Int)) (old : Nat → Int × Int) {j : Nat}
    (hj : j < l.length) : DiskExtendibleHashTable.listToArray l old j = l.get ⟨j, hj⟩ := by
  unfold DiskExtendibleHashTable.listToArray
  rw [dif_pos hj]

/-- A bucket whose live region spells out a strictly-key-sorted list is
`BucketSorted`. -/
theorem bucketSorted_rebuilt {b : ExtendibleHTableBucketPage} {l : List (Int × Int)}
    (hsz : b.size_ = l.length)
    (harr : ∀ j (hj : j < l.length), b.array_ j = l.get ⟨j, hj⟩)
    (hp : l.Pairwise (fun a c => a.1 < c.1)) : BucketSorted b := by
  intro j hj i hij
  rw [hsz] at hj
  rw [harr j hj, harr i (by omega)]
  exact List.pairwise_iff_get.mp hp ⟨i, by omega⟩ ⟨j, hj⟩ hij

theorem rebuilt_mem {b : ExtendibleHTableBucketPage} {l : List (Int × Int)}
    (hsz : b.size_ = l.length)
    (harr : ∀ j (hj : j < l.length), b.array_ j = l.get ⟨j, hj⟩)
    {kv : Int × Int} (h : kv ∈ l) : ∃ i < b.size_, b.array_ i = kv := by
  obtain ⟨⟨i, hi⟩, hget⟩ := List.mem_iff_get.mp h
  exact ⟨i, by omega, by rw [harr i hi]; exact hget⟩

theorem pairwise_filter_sorted {l : List (Int × Int)} (p : Int × Int → Bool)
    (hp : l.Pairwise (fun a c => a.1 < c.1)) :
    (l.filter p).Pairwise (fun a c => a.1 < c.1) :=
  List.Pairwise.sublist (List.filter_sublist l) hp

/-! ### Directory and table well-formedness -/

/-- Invariants of a reachable directory page: depth bounds, and the
extendible-hashing aliasing discipline — slots sharing a bucket agree on
local depth and are congruent modulo `2^local_depth` (and conversely the
whole congruence class shares the bucket); all live slots are filled once
the directory has grown. -/
structure DirWF (d : ExtendibleHTableDirectoryPage) : Prop where
  g_le : d.global_depth_ ≤ d.max_depth_
  local_le : ∀ i < 2 ^ d.global_depth_, d.local_depths_ i ≤ d.global_depth_
  class_mem : ∀ i < 2 ^ d.global_depth_, ∀ j < 2 ^ d.global_depth_,
    d.bucket_page_ids_ i ≠ INVALID_PAGE_ID →
    d.bucket_page_ids_ i = d.bucket_page_ids_ j →
    d.local_depths_ i = d.local_depths_ j ∧
      i % 2 ^ d.local_depths_ i = j % 2 ^ d.local_depths_ i
  class_all : ∀ i < 2 ^ d.global_depth_, d.bucket_page_ids_ i ≠ INVALID_PAGE_ID →
    ∀ j < 2 ^ d.global_depth_, j % 2 ^ d.local_depths_ i = i % 2 ^ d.local_depths_ i →
    d.bucket_page_ids_ j = d.bucket_page_ids_ i
  filled : d.global_depth_ = 0 ∨
    ∀ i < 2 ^ d.global_depth_, d.bucket_page_ids_ i ≠ INVALID_PAGE_ID

theorem DirWF.class_iff {d : ExtendibleHTableDirectoryPage} (hd : DirWF d) {i : Nat}
    (hi : i < 2 ^ d.global_depth_) (hne : d.bucket_page_ids_ i ≠ INVALID_PAGE_ID)
    {j : Nat} (hj : j < 2 ^ d.global_depth_) :
    d.bucket_page_ids_ j = d.bucket_page_ids_ i ↔
      j % 2 ^ d.local_depths_ i = i % 2 ^ d.local_depths_ i := by
  constructor
  · intro he
    exact (hd.class_mem i hi j hj hne he.symm).2.symm
  · exact hd.class_all i hi hne j hj

theorem DirWF.class_local {d : ExtendibleHTableDirectoryPage} (hd : DirWF d) {i : Nat}
    (hi : i < 2 ^ d.global_depth_) (hne : d.bucket_page_ids_ i ≠ INVALID_PAGE_ID)
    {j : Nat} (hj : j < 2 ^ d.global_depth_)
    (he : d.bucket_page_ids_ j = d.bucket_page_ids_ i) :
    d.local_depths_ j = d.local_depths_ i :=
  (hd.class_mem i hi j hj hne he.symm).1.symm

/-- Invariants of every table state reachable from `new`: page ids below
`next_page_id_` (and non-negative), a header page, injective header slots,
well-formed directories under live header slots, sorted bucket pages under
live directory slots, and disjoint bucket sets across directories. -/
structure TableWF (t : DiskExtendibleHashTable) : Prop where
  next_pos : 0 < t.next_page_id_
  bound : ∀ p : Int, p < 0 ∨ t.next_page_id_ ≤ p → t.pages_ p = none
  header : ∃ H, t.pages_ t.header_page_id_ = some (HPage.header H)
  hdr_inj : ∀ H i j, t.pages_ t.header_page_id_ = some (HPage.header H) →
    H.directory_page_ids_ i ≠ INVALID_PAGE_ID →
    H.directory_page_ids_ i = H.directory_page_ids_ j → i = j
  dirs : ∀ H i, t.pages_ t.header_page_id_ = some (HPage.header H) →
    H.directory_page_ids_ i ≠ INVALID_PAGE_ID →
    ∃ D, t.pages_ (H.directory_page_ids_ i) = some (HPage.directory D) ∧ DirWF D
  buckets : ∀ H i D s, t.pages_ t.header_page_id_ = some (HPage.header H) →
    H.directory_page_ids_ i ≠ INVALID_PAGE_ID →
    t.pages_ (H.directory_page_ids_ i) = some (HPage.directory D) →
    s < 2 ^ D.global_depth_ → D.bucket_page_ids_ s ≠ INVALID_PAGE_ID →
    ∃ B, t.pages_ (D.bucket_page_ids_ s) = some (HPage.bucket B) ∧ BucketSorted B
  disj : ∀ H i j Di Dj si sj, t.pages_ t.header_page_id_ = some (HPage.header H) →
    H.directory_page_ids_ i ≠ INVALID_PAGE_ID →
    H.directory_page_ids_ j ≠ INVALID_PAGE_ID → i ≠ j →
    t.pages_ (H.directory_page_ids_ i) = some (HPage.directory Di) →
    t.pages_ (H.directory_page_ids_ j) = some (HPage.directory Dj) →
    si < 2 ^ Di.global_depth_ → sj < 2 ^ Dj.global_depth_ →
    Di.bucket_page_ids_ si ≠ INVALID_PAGE_ID →
    Di.bucket_page_ids_ si ≠ Dj.bucket_page_ids_ sj

/-- The key is stored with the value: the header → directory → bucket chain
that `GetValue` walks exists and the bucket's live region holds the pair. -/
def Contains (hash : Int → Nat) (t : DiskExtendibleHashTable) (key value : Int) : Prop :=
  ∃ H D B,
    t.pages_ t.header_page_id_ = some (HPage.header H) ∧
    H.directory_page_ids_ (H.HashToDirectoryIndex (hash key)) ≠ INVALID_PAGE_ID ∧
    t.pages_ (H.directory_page_ids_ (H.HashToDirectoryIndex (hash key))) =
      some (HPage.directory D) ∧
    D.bucket_page_ids_ (hash key % 2 ^ D.global_depth_) ≠ INVALID_PAGE_ID ∧
    t.pages_ (D.bucket_page_ids_ (hash key % 2 ^ D.global_depth_)) =
      some (HPage.bucket B) ∧
    ∃ i < B.size_, B.array_ i = (key, value)

theorem page_id_range {t : DiskExtendibleHashTable} (hwf : TableWF t) {p : Int}
    {pg : HPage} (h : t.pages_ p = some pg) : 0 ≤ p ∧ p < t.next_page_id_ := by
  by_cases h1 : p < 0
  · rw [hwf.bound p (Or.inl h1)] at h
    cases h
  · by_cases h2 : t.next_page_id_ ≤ p
    · rw [hwf.bound p (Or.inr h2)] at h
      cases h
    · omega

theorem ne_of_header_directory {t : DiskExtendibleHashTable} {p q : Int}
    {H : ExtendibleHTableHeaderPage} {D : ExtendibleHTableDirectoryPage}
    (hp : t.pages_ p = some (HPage.header H))
    (hq : t.pages_ q = some (HPage.directory D)) : p ≠ q := by
  intro he
  rw [he, hq] at hp
  cases hp

theorem ne_of_header_bucket {t : DiskExtendibleHashTable} {p q : Int}
    {H : ExtendibleHTableHeaderPage} {B : ExtendibleHTableBucketPage}
    (hp : t.pages_ p = some (HPage.header H))
    (hq : t.pages_ q = some (HPage.bucket B)) : p ≠ q := by
  intro he
  rw [he, hq] at hp
  cases hp

theorem ne_of_directory_bucket {t : DiskExtendibleHashTable} {p q : Int}
    {D : ExtendibleHTableDirectoryPage} {B : ExtendibleHTableBucketPage}
    (hp : t.pages_ p = some (HPage.directory D))
    (hq : t.pages_ q = some (HPage.bucket B)) : p ≠ q := by
  intro he
  rw [he, hq] at hp
  cases hp

/-- In a well-formed table, a stored binding is observable: `GetValue`
returns it. -/
theorem getValue_of_contains (hash : Int → Nat) {t : DiskExtendibleHashTable}
    {key value : Int} (hwf : TableWF t) (hc : Contains hash t key value) :
    DiskExtendibleHashTable.GetValue hash t key = some value := by
  obtain ⟨H, D, B, hH, hdne, hD, hbne, hB, i, hi, hkv⟩ := hc
  have hsorted : BucketSorted B := by
    obtain ⟨Bx, hBx, hsx⟩ := hwf.buckets H (H.HashToDirectoryIndex (hash key)) D
      (hash key % 2 ^ D.global_depth_) hH hdne hD (mod_two_pow_lt _ _) hbne
    rw [hB] at hBx
    injection hBx with hBx
    injection hBx with hBx
    rw [hBx]
    exact hsx
  obtain ⟨i2, hi2, hk2, hlook⟩ := lookup_finds B key hsorted ⟨i, hi, by rw [hkv]⟩
  have hieq : i2 = i := bucketSorted_key_inj hsorted hi2 hi (by rw [hk2, hkv])
  subst hieq
  simp only [DiskExtendibleHashTable.GetValue, DiskExtendibleHashTable.FindBucketPageID,
    ExtendibleHTableHeaderPage.GetDirectoryPageId,
    ExtendibleHTableDirectoryPage.GetBucketPageId,
    ExtendibleHTableDirectoryPage.HashToBucketIndex,
    hH, if_neg hdne, hD, if_neg hbne, hB, hlook, hkv]

/-- The fresh table is well-formed. -/
theorem tableWF_new (hmax dmax bmax : Nat) :
    TableWF (DiskExtendibleHashTable.new hmax dmax bmax) := by
  refine ⟨by show (0:Int) < 1; decide, ?_, ⟨.Init hmax, rfl⟩, ?_, ?_, ?_, ?_⟩
  · intro p hp
    have hp2 : p < 0 ∨ (1 : Int) ≤ p := hp
    show (if p = 0 then some (HPage.header (.Init hmax)) else none) = none
    rw [if_neg (by omega)]
  · intro H i j hH hne _
    have hH2 : some (HPage.header (ExtendibleHTableHeaderPage.Init hmax)) =
        some (HPage.header H) := hH
    injection hH2 with hH2
    injection hH2 with hH2
    rw [← hH2] at hne
    exact absurd rfl hne
  · intro H i hH hne
    have hH2 : some (HPage.header (ExtendibleHTableHeaderPage.Init hmax)) =
        some (HPage.header H) := hH
    injection hH2 with hH2
    injection hH2 with hH2
    rw [← hH2] at hne
    exact absurd rfl hne
  · intro H i D s hH hne _ _ _
    have hH2 : some (HPage.header (ExtendibleHTableHeaderPage.Init hmax)) =
        some (HPage.header H) := hH
    injection hH2 with hH2
    injection hH2 with hH2
    rw [← hH2] at hne
    exact absurd rfl hne
  · intro H i j Di Dj si sj hH hne _ _ _ _ _ _ _
    have hH2 : some (HPage.header (ExtendibleHTableHeaderPage.Init hmax)) =
        some (HPage.header H) := hH
    injection hH2 with hH2
    injection hH2 with hH2
    rw [← hH2] at hne
    exact absurd rfl hne

/-! ### The split rewrite preserves the directory discipline -/

/-- Core split lemma, over the directory `e` as `SplitBucket` receives it
(alias class of `bidx` characterized by congruence mod `2^ld`, its slots
about to take depth `ld + 1`): the rewritten directory is well-formed and
every live slot holds the stay bucket, the move bucket, or its old id. -/
theorem splitDirectory_wf {e : ExtendibleHTableDirectoryPage} {bpid npid : Int}
    {bidx ld : Nat}
    (hg : e.global_depth_ ≤ e.max_depth_)
    (hldg : ld + 1 ≤ e.global_depth_)
    (hbne : bpid ≠ INVALID_PAGE_ID) (hnne : npid ≠ INVALID_PAGE_ID)
    (hbn : bpid ≠ npid)
    (hfresh : ∀ i < 2 ^ e.global_depth_, e.bucket_page_ids_ i ≠ npid)
    (hclass : ∀ i < 2 ^ e.global_depth_,
      (e.bucket_page_ids_ i = bpid ↔ i % 2 ^ ld = bidx % 2 ^ ld))
    (hout_le : ∀ i < 2 ^ e.global_depth_, e.bucket_page_ids_ i ≠ bpid →
      e.local_depths_ i ≤ e.global_depth_)
    (hout_mem : ∀ i < 2 ^ e.global_depth_, ∀ j < 2 ^ e.global_depth_,
      e.bucket_page_ids_ i ≠ INVALID_PAGE_ID → e.bucket_page_ids_ i ≠ bpid →
      e.bucket_page_ids_ i = e.bucket_page_ids_ j →
      e.local_depths_ i = e.local_depths_ j ∧
        i % 2 ^ e.local_depths_ i = j % 2 ^ e.local_depths_ i)
    (hout_all : ∀ i < 2 ^ e.global_depth_,
      e.bucket_page_ids_ i ≠ INVALID_PAGE_ID → e.bucket_page_ids_ i ≠ bpid →
      ∀ j < 2 ^ e.global_depth_, j % 2 ^ e.local_depths_ i = i % 2 ^ e.local_depths_ i →
      e.bucket_page_ids_ j = e.bucket_page_ids_ i)
    (hfilled : ∀ i < 2 ^ e.global_depth_, e.bucket_page_ids_ i ≠ INVALID_PAGE_ID) :
    DirWF (DiskExtendibleHashTable.splitDirectory e bpid npid bidx (ld + 1)) ∧
    (∀ i < 2 ^ e.global_depth_,
      (DiskExtendibleHashTable.splitDirectory e bpid npid bidx (ld + 1)).bucket_page_ids_ i =
        if i % 2 ^ ld = bidx % 2 ^ ld then
          (if i % 2 ^ (ld + 1) = bidx % 2 ^ (ld + 1) then bpid else npid)
        else e.bucket_page_ids_ i) := by
  have hP : ∀ i, i < 2 ^ e.global_depth_ →
      (DiskExtendibleHashTable.splitDirectory e bpid npid bidx (ld + 1)).bucket_page_ids_ i =
        if i % 2 ^ ld = bidx % 2 ^ ld then
          (if i % 2 ^ (ld + 1) = bidx % 2 ^ (ld + 1) then bpid else npid)
        else e.bucket_page_ids_ i := by
    intro i hi
    show (if i < 2 ^ e.global_depth_ ∧ e.bucket_page_ids_ i = bpid ∧
          ¬ i % 2 ^ (ld + 1) = bidx % 2 ^ (ld + 1)
        then npid else e.bucket_page_ids_ i) = _
    by_cases hc : i % 2 ^ ld = bidx % 2 ^ ld
    · have hpid : e.bucket_page_ids_ i = bpid := (hclass i hi).mpr hc
      by_cases hc2 : i % 2 ^ (ld + 1) = bidx % 2 ^ (ld + 1)
      · rw [if_neg (fun h => h.2.2 hc2), if_pos hc, if_pos hc2, hpid]
      · rw [if_pos ⟨hi, hpid, hc2⟩, if_pos hc, if_neg hc2]
    · have hpid : e.bucket_page_ids_ i ≠ bpid := fun h => hc ((hclass i hi).mp h)
      rw [if_neg (fun h => hpid h.2.1), if_neg hc]
  have hL : ∀ i, i < 2 ^ e.global_depth_ →
      (DiskExtendibleHashTable.splitDirectory e bpid npid bidx (ld + 1)).local_depths_ i =
        if i % 2 ^ ld = bidx % 2 ^ ld then ld + 1 else e.local_depths_ i := by
    intro i hi
    show (if i < 2 ^ e.global_depth_ ∧ e.bucket_page_ids_ i = bpid
        then ld + 1 else e.local_depths_ i) = _
    by_cases hc : i % 2 ^ ld = bidx % 2 ^ ld
    · rw [if_pos ⟨hi, (hclass i hi).mpr hc⟩, if_pos hc]
    · rw [if_neg (fun h => hc ((hclass i hi).mp h.2)), if_neg hc]
  refine ⟨⟨hg, ?_, ?_, ?_, ?_⟩, hP⟩
  · -- local depths bounded
    intro i hi
    rw [hL i hi]
    by_cases hc : i % 2 ^ ld = bidx % 2 ^ ld
    · rw [if_pos hc]; exact hldg
    · rw [if_neg hc]
      exact hout_le i hi (fun h => hc ((hclass i hi).mp h))
  · -- aliasing slots share depth and congruence class
    intro i hi j hj hne heq
    rw [hP i hi, hP j hj] at heq
    rw [hP i hi] at hne
    rw [hL i hi, hL j hj]
    by_cases hci : i % 2 ^ ld = bidx % 2 ^ ld <;>
      by_cases hcj : j % 2 ^ ld = bidx % 2 ^ ld
    · rw [if_pos hci] at heq
      rw [if_pos hcj] at heq
      rw [if_pos hci, if_pos hcj]
      by_cases hbi : i % 2 ^ (ld + 1) = bidx % 2 ^ (ld + 1) <;>
        by_cases hbj : j % 2 ^ (ld + 1) = bidx % 2 ^ (ld + 1)
      · exact ⟨rfl, by rw [hbi, hbj]⟩
      · rw [if_pos hbi, if_neg hbj] at heq
        exact absurd heq hbn
      · rw [if_neg hbi, if_pos hbj] at heq
        exact absurd heq.symm hbn
      · refine ⟨rfl, ?_⟩
        rcases mod_succ_cases_of_mod_eq hci with h | h
        · exact absurd h hbi
        · rcases mod_succ_cases_of_mod_eq hcj with h2 | h2
          · exact absurd h2 hbj
          · rw [h, h2]
    · rw [if_pos hci] at heq
      rw [if_neg hcj] at heq
      have hjb : e.bucket_page_ids_ j ≠ bpid := fun h => hcj ((hclass j hj).mp h)
      by_cases hbi : i % 2 ^ (ld + 1) = bidx % 2 ^ (ld + 1)
      · rw [if_pos hbi] at heq
        exact absurd heq.symm hjb
      · rw [if_neg hbi] at heq
        exact absurd heq.symm (hfresh j hj)
    · rw [if_neg hci] at heq hne
      rw [if_pos hcj] at heq
      have hib : e.bucket_page_ids_ i ≠ bpid := fun h => hci ((hclass i hi).mp h)
      by_cases hbj : j % 2 ^ (ld + 1) = bidx % 2 ^ (ld + 1)
      · rw [if_pos hbj] at heq
        exact absurd heq hib
      · rw [if_neg hbj] at heq
        exact absurd heq (hfresh i hi)
    · rw [if_neg hci] at heq hne
      rw [if_neg hcj] at heq
      rw [if_neg hci, if_neg hcj]
      exact hout_mem i hi j hj hne (fun h => hci ((hclass i hi).mp h)) heq
  · -- the whole congruence class aliases
    intro i hi hne j hj hcong
    rw [hP i hi] at hne
    rw [hP i hi, hP j hj]
    rw [hL i hi] at hcong
    by_cases hci : i % 2 ^ ld = bidx % 2 ^ ld
    · rw [if_pos hci] at hcong
      have hcj : j % 2 ^ ld = bidx % 2 ^ ld :=
        (mod_eq_mod_of_mod_eq (Nat.le_succ ld) hcong).trans hci
      rw [if_pos hci, if_pos hcj]
      by_cases hbi : i % 2 ^ (ld + 1) = bidx % 2 ^ (ld + 1)
      · rw [if_pos hbi, if_pos (hcong.trans hbi)]
      · rw [if_neg hbi, if_neg (fun h => hbi (hcong.symm.trans h))]
    · rw [if_neg hci] at hcong hne
      have hib : e.bucket_page_ids_ i ≠ bpid := fun h => hci ((hclass i hi).mp h)
      have hpe : e.bucket_page_ids_ j = e.bucket_page_ids_ i :=
        hout_all i hi hne hib j hj hcong
      have hcj : ¬ j % 2 ^ ld = bidx % 2 ^ ld := by
        intro h
        exact hib (hpe ▸ (hclass j hj).mpr h)
      rw [if_neg hci, if_neg hcj]
      exact hpe
  · -- all live slots filled
    refine Or.inr ?_
    intro i hi
    rw [hP i hi]
    by_cases hc : i % 2 ^ ld = bidx % 2 ^ ld
    · rw [if_pos hc]
      by_cases hc2 : i % 2 ^ (ld + 1) = bidx % 2 ^ (ld + 1)
      · rw [if_pos hc2]; exact hbne
      · rw [if_neg hc2]; exact hnne
    · rw [if_neg hc]
      exact hfilled i hi

/-- `IncrGlobalDepth` under the (non-overflowing) guard: the depth grows by
one and both arrays are duplicated — slot `i` of the grown directory reads
slot `i mod 2^g` of the old one. -/
theorem incrGlobalDepth_spec {d : ExtendibleHTableDirectoryPage}
    (h : d.global_depth_ ≤ d.max_depth_) :
    d.IncrGlobalDepth.global_depth_ = d.global_depth_ + 1 ∧
    d.IncrGlobalDepth.max_depth_ = d.max_depth_ ∧
    (∀ i < 2 ^ (d.global_depth_ + 1),
      d.IncrGlobalDepth.bucket_page_ids_ i =
        d.bucket_page_ids_ (i % 2 ^ d.global_depth_) ∧
      d.IncrGlobalDepth.local_depths_ i =
        d.local_depths_ (i % 2 ^ d.global_depth_)) := by
  unfold ExtendibleHTableDirectoryPage.IncrGlobalDepth
  rw [if_neg (by omega)]
  refine ⟨rfl, rfl, ?_⟩
  intro i hi
  have hpow : 2 ^ (d.global_depth_ + 1) = 2 ^ d.global_depth_ + 2 ^ d.global_depth_ := by
    rw [Nat.pow_succ]
    omega
  rcases Nat.lt_or_ge i (2 ^ d.global_depth_) with hlt | hge
  · constructor
    · show (if 2 ^ d.global_depth_ ≤ i ∧ i < 2 ^ d.global_depth_ + 2 ^ d.global_depth_
          then d.bucket_page_ids_ (i - 2 ^ d.global_depth_)
          else d.bucket_page_ids_ i) = _
      rw [if_neg (by omega), Nat.mod_eq_of_lt hlt]
    · show (if 2 ^ d.global_depth_ ≤ i ∧ i < 2 ^ d.global_depth_ + 2 ^ d.global_depth_
          then d.local_depths_ (i - 2 ^ d.global_depth_)
          else d.local_depths_ i) = _
      rw [if_neg (by omega), Nat.mod_eq_of_lt hlt]
  · have hmod : i % 2 ^ d.global_depth_ = i - 2 ^ d.global_depth_ := by
      rw [Nat.mod_eq_sub_mod hge, Nat.mod_eq_of_lt (by omega)]
    constructor
    · show (if 2 ^ d.global_depth_ ≤ i ∧ i < 2 ^ d.global_depth_ + 2 ^ d.global_depth_
          then d.bucket_page_ids_ (i - 2 ^ d.global_depth_)
          else d.bucket_page_ids_ i) = _
      rw [if_pos ⟨hge, by omega⟩, hmod]
    · show (if 2 ^ d.global_depth_ ≤ i ∧ i < 2 ^ d.global_depth_ + 2 ^ d.global_depth_
          then d.local_depths_ (i - 2 ^ d.global_depth_)
          else d.local_depths_ i) = _
      rw [if_pos ⟨hge, by omega⟩, hmod]

/-- Split step, core form: `d2` is the directory after the (possible) growth
and the `IncrLocalDepth` on `bidx`, described relative to `d1` by the
copy-down interface `hpids2`/`hlocs2`.  Conclusions: the rewritten directory
is well-formed, routes every hash to the stay/move bucket (or its old
bucket), and only holds old ids besides the two split halves. -/
theorem split_step_core {d1 d2 s : ExtendibleHTableDirectoryPage} (hd1 : DirWF d1)
    {bidx : Nat} (hbidx : bidx < 2 ^ d1.global_depth_)
    {bpid npid : Int} (hbpid : d1.bucket_page_ids_ bidx = bpid)
    (hbne : bpid ≠ INVALID_PAGE_ID) (hnne : npid ≠ INVALID_PAGE_ID)
    (hbn : bpid ≠ npid)
    (hfresh : ∀ i < 2 ^ d1.global_depth_, d1.bucket_page_ids_ i ≠ npid)
    (hge_le : d2.global_depth_ ≤ d2.max_depth_)
    (hldG : d1.local_depths_ bidx + 1 ≤ d2.global_depth_)
    (hgg : d1.global_depth_ ≤ d2.global_depth_)
    (hpids2 : ∀ i < 2 ^ d2.global_depth_,
      d2.bucket_page_ids_ i = d1.bucket_page_ids_ (i % 2 ^ d1.global_depth_))
    (hlocs2 : ∀ i < 2 ^ d2.global_depth_, i ≠ bidx →
      d2.local_depths_ i = d1.local_depths_ (i % 2 ^ d1.global_depth_))
    (hld2 : d2.local_depths_ bidx = d1.local_depths_ bidx + 1)
    (hs : s = DiskExtendibleHashTable.splitDirectory d2 bpid npid bidx
      (d2.local_depths_ bidx)) :
    DirWF s ∧
    (∀ x : Nat, s.bucket_page_ids_ (x % 2 ^ s.global_depth_) =
      if d1.bucket_page_ids_ (x % 2 ^ d1.global_depth_) = bpid then
        (if x % 2 ^ (d1.local_depths_ bidx + 1) =
            bidx % 2 ^ (d1.local_depths_ bidx + 1) then bpid else npid)
      else d1.bucket_page_ids_ (x % 2 ^ d1.global_depth_)) ∧
    (∀ sl, sl < 2 ^ s.global_depth_ →
      s.bucket_page_ids_ sl = bpid ∨ s.bucket_page_ids_ sl = npid ∨
      ∃ s0, s0 < 2 ^ d1.global_depth_ ∧
        d1.bucket_page_ids_ s0 = s.bucket_page_ids_ sl) := by
  rw [hld2] at hs
  have hle : d1.local_depths_ bidx ≤ d1.global_depth_ := hd1.local_le bidx hbidx
  have hbne1 : d1.bucket_page_ids_ bidx ≠ INVALID_PAGE_ID := by
    rw [hbpid]; exact hbne
  have hmodbidx : bidx % 2 ^ d1.global_depth_ = bidx := Nat.mod_eq_of_lt hbidx
  -- the `e`-level class characterization
  have hclass : ∀ i < 2 ^ d2.global_depth_,
      (d2.bucket_page_ids_ i = bpid ↔
        i % 2 ^ d1.local_depths_ bidx = bidx % 2 ^ d1.local_depths_ bidx) := by
    intro i hi
    rw [hpids2 i hi, ← hbpid]
    rw [hd1.class_iff hbidx hbne1 (mod_two_pow_lt i _)]
    rw [mod_mod_two_pow hle]
  have hbidx_ne : ∀ i < 2 ^ d2.global_depth_, d2.bucket_page_ids_ i ≠ bpid → i ≠ bidx := by
    intro i hi hib he
    subst he
    exact hib ((hclass i hi).mpr rfl)
  have hout_le : ∀ i < 2 ^ d2.global_depth_, d2.bucket_page_ids_ i ≠ bpid →
      d2.local_depths_ i ≤ d2.global_depth_ := by
    intro i hi hib
    rw [hlocs2 i hi (hbidx_ne i hi hib)]
    exact le_trans (hd1.local_le _ (mod_two_pow_lt i _)) hgg
  have hout_mem : ∀ i < 2 ^ d2.global_depth_, ∀ j < 2 ^ d2.global_depth_,
      d2.bucket_page_ids_ i ≠ INVALID_PAGE_ID → d2.bucket_page_ids_ i ≠ bpid →
      d2.bucket_page_ids_ i = d2.bucket_page_ids_ j →
      d2.local_depths_ i = d2.local_depths_ j ∧
        i % 2 ^ d2.local_depths_ i = j % 2 ^ d2.local_depths_ i := by
    intro i hi j hj hne hib heq
    have hine := hbidx_ne i hi hib
    have hjb : d2.bucket_page_ids_ j ≠ bpid := by rw [← heq]; exact hib
    have hjne := hbidx_ne j hj hjb
    rw [hpids2 i hi] at hne heq
    rw [hpids2 j hj] at heq
    obtain ⟨hl, hm⟩ := hd1.class_mem (i % 2 ^ d1.global_depth_) (mod_two_pow_lt i _)
      (j % 2 ^ d1.global_depth_) (mod_two_pow_lt j _) hne heq
    have hli : d1.local_depths_ (i % 2 ^ d1.global_depth_) ≤ d1.global_depth_ :=
      hd1.local_le _ (mod_two_pow_lt i _)
    rw [hlocs2 i hi hine, hlocs2 j hj hjne]
    refine ⟨hl, ?_⟩
    rw [mod_mod_two_pow hli, mod_mod_two_pow hli] at hm
    exact hm
  have hout_all : ∀ i < 2 ^ d2.global_depth_,
      d2.bucket_page_ids_ i ≠ INVALID_PAGE_ID → d2.bucket_page_ids_ i ≠ bpid →
      ∀ j < 2 ^ d2.global_depth_, j % 2 ^ d2.local_depths_ i = i % 2 ^ d2.local_depths_ i →
      d2.bucket_page_ids_ j = d2.bucket_page_ids_ i := by
    intro i hi hne hib j hj hcong
    have hine := hbidx_ne i hi hib
    rw [hpids2 i hi] at hne ⊢
    rw [hpids2 j hj]
    have hli : d1.local_depths_ (i % 2 ^ d1.global_depth_) ≤ d1.global_depth_ :=
      hd1.local_le _ (mod_two_pow_lt i _)
    rw [hlocs2 i hi hine] at hcong
    refine hd1.class_all (i % 2 ^ d1.global_depth_) (mod_two_pow_lt i _) hne
      (j % 2 ^ d1.global_depth_) (mod_two_pow_lt j _) ?_
    rw [mod_mod_two_pow hli, mod_mod_two_pow hli]
    exact hcong
  have hfilled : ∀ i < 2 ^ d2.global_depth_,
      d2.bucket_page_ids_ i ≠ INVALID_PAGE_ID := by
    intro i hi
    rw [hpids2 i hi]
    rcases hd1.filled with h0 | hall
    · have : bidx = 0 := by
        rw [h0] at hbidx
        omega
      have h1 : i % 2 ^ d1.global_depth_ = 0 := by
        rw [h0]
        exact Nat.mod_one i
      rw [h1, ← this]
      exact hbne1
    · exact hall _ (mod_two_pow_lt i _)
  have hfresh2 : ∀ i < 2 ^ d2.global_depth_, d2.bucket_page_ids_ i ≠ npid := by
    intro i hi
    rw [hpids2 i hi]
    exact hfresh _ (mod_two_pow_lt i _)
  obtain ⟨hwf, hP⟩ := splitDirectory_wf hge_le hldG hbne hnne hbn hfresh2 hclass
    hout_le hout_mem hout_all hfilled
  have hsg : s.global_depth_ = d2.global_depth_ := by rw [hs]; rfl
  refine ⟨hs ▸ hwf, ?_, ?_⟩
  · -- routing
    intro x
    have hslot : x % 2 ^ s.global_depth_ < 2 ^ d2.global_depth_ := by
      rw [hsg]
      exact mod_two_pow_lt x _
    have h1 := hP (x % 2 ^ s.global_depth_) hslot
    rw [← hs] at h1
    rw [hsg] at h1 ⊢
    rw [mod_mod_two_pow (by omega : d1.local_depths_ bidx ≤ d2.global_depth_) x,
      mod_mod_two_pow hldG x, hpids2 _ (mod_two_pow_lt x _),
      mod_mod_two_pow hgg x] at h1
    have hcond : d1.bucket_page_ids_ (x % 2 ^ d1.global_depth_) = bpid ↔
        x % 2 ^ d1.local_depths_ bidx = bidx % 2 ^ d1.local_depths_ bidx := by
      rw [← hbpid, hd1.class_iff hbidx hbne1 (mod_two_pow_lt x _), mod_mod_two_pow hle]
    rw [h1]
    by_cases hcls : x % 2 ^ d1.local_depths_ bidx = bidx % 2 ^ d1.local_depths_ bidx
    · rw [if_pos hcls, if_pos (hcond.mpr hcls)]
    · rw [if_neg hcls, if_neg (fun h => hcls (hcond.mp h))]
  · -- inventory
    intro sl hsl
    rw [hsg] at hsl
    have h1 := hP sl hsl
    rw [← hs] at h1
    rw [h1]
    by_cases hcls : sl % 2 ^ d1.local_depths_ bidx = bidx % 2 ^ d1.local_depths_ bidx
    · rw [if_pos hcls]
      by_cases hbit : sl % 2 ^ (d1.local_depths_ bidx + 1) =
          bidx % 2 ^ (d1.local_depths_ bidx + 1)
      · rw [if_pos hbit]
        exact Or.inl rfl
      · rw [if_neg hbit]
        exact Or.inr (Or.inl rfl)
    · rw [if_neg hcls, hpids2 sl hsl]
      exact Or.inr (Or.inr ⟨sl % 2 ^ d1.global_depth_, mod_two_pow_lt sl _, rfl⟩)

/-- Split step in the exact form `Insert` performs it: the grow-if-needed
plus `IncrLocalDepth` composite (`d2`) feeding `SplitBucket`'s directory
rewrite.  `hguard` is the negated give-up condition of `Insert`. -/
theorem split_step_dir {d1 d2 s : ExtendibleHTableDirectoryPage} (hd1 : DirWF d1)
    {bidx : Nat} (hbidx : bidx < 2 ^ d1.global_depth_)
    {bpid npid : Int} (hbpid : d1.bucket_page_ids_ bidx = bpid)
    (hbne : bpid ≠ INVALID_PAGE_ID) (hnne : npid ≠ INVALID_PAGE_ID)
    (hbn : bpid ≠ npid)
    (hfresh : ∀ i < 2 ^ d1.global_depth_, d1.bucket_page_ids_ i ≠ npid)
    (hguard : ¬(d1.local_depths_ bidx = d1.global_depth_ ∧
      d1.global_depth_ ≥ d1.max_depth_))
    (hd2 : d2 = (if d1.local_depths_ bidx = d1.global_depth_
      then d1.IncrGlobalDepth else d1).IncrLocalDepth bidx)
    (hs : s = DiskExtendibleHashTable.splitDirectory d2 bpid npid bidx
      (d2.local_depths_ bidx)) :
    DirWF s ∧
    (∀ x : Nat, s.bucket_page_ids_ (x % 2 ^ s.global_depth_) =
      if d1.bucket_page_ids_ (x % 2 ^ d1.global_depth_) = bpid then
        (if x % 2 ^ (d1.local_depths_ bidx + 1) =
            bidx % 2 ^ (d1.local_depths_ bidx + 1) then bpid else npid)
      else d1.bucket_page_ids_ (x % 2 ^ d1.global_depth_)) ∧
    (∀ sl, sl < 2 ^ s.global_depth_ →
      s.bucket_page_ids_ sl = bpid ∨ s.bucket_page_ids_ sl = npid ∨
      ∃ s0, s0 < 2 ^ d1.global_depth_ ∧
        d1.bucket_page_ids_ s0 = s.bucket_page_ids_ sl) := by
  have hle : d1.local_depths_ bidx ≤ d1.global_depth_ := hd1.local_le bidx hbidx
  by_cases hca : d1.local_depths_ bidx = d1.global_depth_
  · -- growth case: the class spans the whole directory depth
    have hglt : d1.global_depth_ < d1.max_depth_ := by
      rcases Nat.lt_or_ge d1.global_depth_ d1.max_depth_ with h | h
      · exact h
      · exact absurd ⟨hca, h⟩ hguard
    obtain ⟨hgG, hmG, hcopy⟩ := incrGlobalDepth_spec hd1.g_le
    have hbidx1 : bidx < 2 ^ (d1.global_depth_ + 1) :=
      lt_of_lt_of_le hbidx (Nat.pow_le_pow_right (by decide) (Nat.le_succ _))
    have hldGv : d1.IncrGlobalDepth.local_depths_ bidx = d1.local_depths_ bidx := by
      rw [(hcopy bidx hbidx1).2, Nat.mod_eq_of_lt hbidx]
    have hd2f : d2 = { d1.IncrGlobalDepth with
        local_depths_ := Function.update d1.IncrGlobalDepth.local_depths_ bidx
          (d1.IncrGlobalDepth.local_depths_ bidx + 1) } := by
      rw [hd2, if_pos hca]
      unfold ExtendibleHTableDirectoryPage.IncrLocalDepth
      rw [if_neg (by rw [hldGv, hmG]; omega)]
    have hge : d2.global_depth_ = d1.global_depth_ + 1 := by rw [hd2f]; exact hgG
    refine split_step_core hd1 hbidx hbpid hbne hnne hbn hfresh ?_ ?_ ?_ ?_ ?_ ?_ hs
    · rw [hd2f]
      show d1.IncrGlobalDepth.global_depth_ ≤ d1.IncrGlobalDepth.max_depth_
      rw [hgG, hmG]
      omega
    · rw [hge]
      omega
    · rw [hge]
      omega
    · intro i hi
      rw [hge] at hi
      rw [hd2f]
      show d1.IncrGlobalDepth.bucket_page_ids_ i = _
      exact (hcopy i hi).1
    · intro i hi hne
      rw [hge] at hi
      rw [hd2f]
      show Function.update d1.IncrGlobalDepth.local_depths_ bidx
        (d1.IncrGlobalDepth.local_depths_ bidx + 1) i = _
      rw [Function.update_noteq hne]
      exact (hcopy i hi).2
    · rw [hd2f]
      show Function.update d1.IncrGlobalDepth.local_depths_ bidx
        (d1.IncrGlobalDepth.local_depths_ bidx + 1) bidx = _
      rw [Function.update_same, hldGv]
  · -- no growth: the local depth is strictly below the global depth
    have hlt : d1.local_depths_ bidx < d1.global_depth_ := by omega
    have hd2f : d2 = { d1 with
        local_depths_ := Function.update d1.local_depths_ bidx
          (d1.local_depths_ bidx + 1) } := by
      rw [hd2, if_neg hca]
      unfold ExtendibleHTableDirectoryPage.IncrLocalDepth
      rw [if_neg (by have := hd1.g_le; omega)]
    have hge : d2.global_depth_ = d1.global_depth_ := by rw [hd2f]
    refine split_step_core hd1 hbidx hbpid hbne hnne hbn hfresh ?_ ?_ ?_ ?_ ?_ ?_ hs
    · rw [hd2f]
      exact hd1.g_le
    · rw [hge]
      omega
    · rw [hge]
    · intro i hi
      rw [hge] at hi
      rw [hd2f]
      show d1.bucket_page_ids_ i = _
      rw [Nat.mod_eq_of_lt hi]
    · intro i hi hne
      rw [hge] at hi
      rw [hd2f]
      show Function.update d1.local_depths_ bidx (d1.local_depths_ bidx + 1) i = _
      rw [Function.update_noteq hne, Nat.mod_eq_of_lt hi]
    · rw [hd2f]
      show Function.update d1.local_depths_ bidx (d1.local_depths_ bidx + 1) bidx = _
      rw [Function.update_same]

/-- The local depth of the split slot after the grow-if-needed plus
`IncrLocalDepth` composite: exactly one deeper. -/
theorem split_step_ld {d1 d2 : ExtendibleHTableDirectoryPage} (hd1 : DirWF d1)
    {bidx : Nat} (hbidx : bidx < 2 ^ d1.global_depth_)
    (hguard : ¬(d1.local_depths_ bidx = d1.global_depth_ ∧
      d1.global_depth_ ≥ d1.max_depth_))
    (hd2 : d2 = (if d1.local_depths_ bidx = d1.global_depth_
      then d1.IncrGlobalDepth else d1).IncrLocalDepth bidx) :
    d2.local_depths_ bidx = d1.local_depths_ bidx + 1 := by
  have hle := hd1.local_le bidx hbidx
  by_cases hca : d1.local_depths_ bidx = d1.global_depth_
  · obtain ⟨hgG, hmG, hcopy⟩ := incrGlobalDepth_spec hd1.g_le
    have hbidx1 : bidx < 2 ^ (d1.global_depth_ + 1) :=
      lt_of_lt_of_le hbidx (Nat.pow_le_pow_right (by decide) (Nat.le_succ _))
    have hldGv : d1.IncrGlobalDepth.local_depths_ bidx = d1.local_depths_ bidx := by
      rw [(hcopy bidx hbidx1).2, Nat.mod_eq_of_lt hbidx]
    have hglt : d1.global_depth_ < d1.max_depth_ := by
      rcases Nat.lt_or_ge d1.global_depth_ d1.max_depth_ with h | h
      · exact h
      · exact absurd ⟨hca, h⟩ hguard
    rw [hd2, if_pos hca]
    unfold ExtendibleHTableDirectoryPage.IncrLocalDepth
    rw [if_neg (by rw [hldGv, hmG]; omega)]
    show Function.update d1.IncrGlobalDepth.local_depths_ bidx
      (d1.IncrGlobalDepth.local_depths_ bidx + 1) bidx = _
    rw [Function.update_same, hldGv]
  · rw [hd2, if_neg hca]
    unfold ExtendibleHTableDirectoryPage.IncrLocalDepth
    rw [if_neg (by have h1 := hd1.g_le; omega)]
    show Function.update d1.local_depths_ bidx (d1.local_depths_ bidx + 1) bidx = _
    rw [Function.update_same]

/-- The two buckets `SplitBucket` rebuilds: both sorted, and every live
entry of the old bucket lands in the stay or the move half according to its
hash's low `nl` bits. -/
theorem split_step_buckets (hash : Int → Nat) {bucket ob nb : ExtendibleHTableBucketPage}
    (hsb : BucketSorted bucket) (bidx nl : Nat)
    (hob : ob = { bucket with
      size_ := (bucket.entries.filter
        (fun kv => hash kv.1 % 2 ^ nl = bidx % 2 ^ nl)).length,
      array_ := DiskExtendibleHashTable.listToArray
        (bucket.entries.filter (fun kv => hash kv.1 % 2 ^ nl = bidx % 2 ^ nl))
        bucket.array_ })
    (hnb : nb = {
      size_ := (bucket.entries.filter
        (fun kv => ¬ hash kv.1 % 2 ^ nl = bidx % 2 ^ nl)).length,
      max_size_ := bucket.max_size_,
      array_ := DiskExtendibleHashTable.listToArray
        (bucket.entries.filter (fun kv => ¬ hash kv.1 % 2 ^ nl = bidx % 2 ^ nl))
        (fun _ => (0, 0)) }) :
    BucketSorted ob ∧ BucketSorted nb ∧
    (∀ k v : Int, (∃ i < bucket.size_, bucket.array_ i = (k, v)) →
      (hash k % 2 ^ nl = bidx % 2 ^ nl → ∃ i < ob.size_, ob.array_ i = (k, v)) ∧
      (¬ hash k % 2 ^ nl = bidx % 2 ^ nl → ∃ i < nb.size_, nb.array_ i = (k, v))) := by
  have hpw := entries_pairwise hsb
  refine ⟨?_, ?_, ?_⟩
  · rw [hob]
    exact bucketSorted_rebuilt rfl (fun j hj => listToArray_get _ bucket.array_ hj)
      (pairwise_filter_sorted _ hpw)
  · rw [hnb]
    exact bucketSorted_rebuilt rfl (fun j hj => listToArray_get _ (fun _ => (0, 0)) hj)
      (pairwise_filter_sorted _ hpw)
  · intro k v hmem
    have hment : (k, v) ∈ bucket.entries := mem_entries.mpr hmem
    constructor
    · intro hcond
      have hmemf : (k, v) ∈ bucket.entries.filter
          (fun kv => hash kv.1 % 2 ^ nl = bidx % 2 ^ nl) := by
        rw [List.mem_filter]
        refine ⟨hment, ?_⟩
        simp only [decide_eq_true_eq]
        exact hcond
      rw [hob]
      exact rebuilt_mem rfl (fun j hj => listToArray_get _ bucket.array_ hj) hmemf
    · intro hcond
      have hmemf : (k, v) ∈ bucket.entries.filter
          (fun kv => ¬ hash kv.1 % 2 ^ nl = bidx % 2 ^ nl) := by
        rw [List.mem_filter]
        refine ⟨hment, ?_⟩
        simp only [decide_eq_true_eq]
        exact hcond
      rw [hnb]
      exact rebuilt_mem rfl (fun j hj => listToArray_get _ (fun _ => (0, 0)) hj) hmemf

/-- The split step at the table level: from a well-formed state,
`SplitBucket` — as `Insert` calls it, on the grown/deepened directory `d2` —
yields a well-formed state and preserves every stored binding. -/
theorem split_step_table (hash : Int → Nat) {t : DiskExtendibleHashTable}
    (hwf : TableWF t) {H : ExtendibleHTableHeaderPage} {di : Nat} {dpid : Int}
    (hH : t.pages_ t.header_page_id_ = some (HPage.header H))
    (hdne : H.directory_page_ids_ di ≠ INVALID_PAGE_ID)
    (hdpid : H.directory_page_ids_ di = dpid)
    {d1 : ExtendibleHTableDirectoryPage}
    (hD : t.pages_ dpid = some (HPage.directory d1))
    {bidx : Nat} (hbidx : bidx < 2 ^ d1.global_depth_)
    {bpid : Int} (hbpid : d1.bucket_page_ids_ bidx = bpid)
    (hbne : bpid ≠ INVALID_PAGE_ID)
    {bucket : ExtendibleHTableBucketPage}
    (hB : t.pages_ bpid = some (HPage.bucket bucket))
    (hguard : ¬(d1.local_depths_ bidx = d1.global_depth_ ∧
      d1.global_depth_ ≥ d1.max_depth_))
    {d2 : ExtendibleHTableDirectoryPage}
    (hd2 : d2 = (if d1.local_depths_ bidx = d1.global_depth_
      then d1.IncrGlobalDepth else d1).IncrLocalDepth bidx) :
    TableWF (DiskExtendibleHashTable.SplitBucket hash t d2 bucket bidx dpid bpid) ∧
    ∀ k0 v0 : Int, Contains hash t k0 v0 →
      Contains hash (DiskExtendibleHashTable.SplitBucket hash t d2 bucket bidx dpid bpid)
        k0 v0 := by
  -- invariants of the touched directory and bucket
  obtain ⟨D1x, hD1x, hd1wf⟩ := hwf.dirs H di hH hdne
  rw [hdpid, hD] at hD1x
  injection hD1x with hD1x
  injection hD1x with hD1x
  rw [← hD1x] at hd1wf
  have hD1 : t.pages_ (H.directory_page_ids_ di) = some (HPage.directory d1) := by
    rw [hdpid]
    exact hD
  obtain ⟨Bx, hBx, hsbx⟩ := hwf.buckets H di d1 bidx hH hdne hD1 hbidx
    (by rw [hbpid]; exact hbne)
  rw [hbpid, hB] at hBx
  injection hBx with hBx
  injection hBx with hBx
  rw [← hBx] at hsbx
  -- page-id arithmetic
  have hnone : t.pages_ t.next_page_id_ = none := hwf.bound _ (Or.inr le_rfl)
  have hbn : bpid ≠ t.next_page_id_ := by
    intro he
    rw [he, hnone] at hB
    cases hB
  have hdn : dpid ≠ t.next_page_id_ := by
    intro he
    rw [he, hnone] at hD
    cases hD
  have hhn : t.header_page_id_ ≠ t.next_page_id_ := by
    intro he
    rw [he, hnone] at hH
    cases hH
  have hnpos := hwf.next_pos
  have hnInv : t.next_page_id_ ≠ INVALID_PAGE_ID := by
    show t.next_page_id_ ≠ -1
    omega
  have hhd : t.header_page_id_ ≠ dpid := ne_of_header_directory hH hD
  have hhb : t.header_page_id_ ≠ bpid := ne_of_header_bucket hH hB
  have hdbne : dpid ≠ bpid := ne_of_directory_bucket hD hB
  have hrb := page_id_range hwf hB
  have hrd := page_id_range hwf hD
  have hfresh : ∀ i < 2 ^ d1.global_depth_, d1.bucket_page_ids_ i ≠ t.next_page_id_ := by
    intro i hi he
    by_cases hinvv : d1.bucket_page_ids_ i = INVALID_PAGE_ID
    · rw [hinvv] at he
      exact hnInv he.symm
    · obtain ⟨Bq, hBq, h0⟩ := hwf.buckets H di d1 i hH hdne hD1 hi hinvv
      rw [he, hnone] at hBq
      cases hBq
  have hld2 : d2.local_depths_ bidx = d1.local_depths_ bidx + 1 :=
    split_step_ld hd1wf hbidx hguard hd2
  obtain ⟨hwfS, hroute, hinven⟩ := split_step_dir hd1wf hbidx hbpid hbne hnInv hbn
    hfresh hguard hd2 rfl
  obtain ⟨hsOb, hsNb, hredis⟩ := split_step_buckets hash hsbx bidx
    (d2.local_depths_ bidx) rfl rfl
  set S := DiskExtendibleHashTable.splitDirectory d2 bpid t.next_page_id_ bidx
    (d2.local_depths_ bidx) with hSdef
  set obL : ExtendibleHTableBucketPage := { bucket with
    size_ := (bucket.entries.filter (fun kv =>
      hash kv.1 % 2 ^ d2.local_depths_ bidx = bidx % 2 ^ d2.local_depths_ bidx)).length,
    array_ := DiskExtendibleHashTable.listToArray
      (bucket.entries.filter (fun kv =>
        hash kv.1 % 2 ^ d2.local_depths_ bidx = bidx % 2 ^ d2.local_depths_ bidx))
      bucket.array_ } with hobdef
  set nbL : ExtendibleHTableBucketPage := {
    size_ := (bucket.entries.filter (fun kv =>
      ¬ hash kv.1 % 2 ^ d2.local_depths_ bidx = bidx % 2 ^ d2.local_depths_ bidx)).length,
    max_size_ := bucket.max_size_,
    array_ := DiskExtendibleHashTable.listToArray
      (bucket.entries.filter (fun kv =>
        ¬ hash kv.1 % 2 ^ d2.local_depths_ bidx = bidx % 2 ^ d2.local_depths_ bidx))
      (fun _ => (0, 0)) } with hnbdef
  set ts := DiskExtendibleHashTable.SplitBucket hash t d2 bucket bidx dpid bpid with htsdef
  have hpg : ∀ p : Int, ts.pages_ p =
      if p = t.next_page_id_ then some (HPage.bucket nbL)
      else if p = bpid then some (HPage.bucket obL)
      else if p = dpid then some (HPage.directory S)
      else t.pages_ p := fun p => rfl
  have hhp : ts.header_page_id_ = t.header_page_id_ := rfl
  have hnx : ts.next_page_id_ = t.next_page_id_ + 1 := rfl
  have hHs : ts.pages_ t.header_page_id_ = some (HPage.header H) := by
    rw [hpg, if_neg hhn, if_neg hhb, if_neg hhd]
    exact hH
  have hDs : ts.pages_ dpid = some (HPage.directory S) := by
    rw [hpg, if_neg hdn, if_neg hdbne, if_pos rfl]
  have hBsOb : ts.pages_ bpid = some (HPage.bucket obL) := by
    rw [hpg, if_neg hbn, if_pos rfl]
  have hBsNb : ts.pages_ t.next_page_id_ = some (HPage.bucket nbL) := by
    rw [hpg, if_pos rfl]
  have hkeep : ∀ p : Int, p ≠ t.next_page_id_ → p ≠ bpid → p ≠ dpid →
      ts.pages_ p = t.pages_ p := by
    intro p h1 h2 h3
    rw [hpg, if_neg h1, if_neg h2, if_neg h3]
  have hdir_ne : ∀ (p : Int) (D2 : ExtendibleHTableDirectoryPage),
      ts.pages_ p = some (HPage.directory D2) →
      p ≠ t.next_page_id_ ∧ p ≠ bpid := by
    intro p D2 hP2
    constructor
    · intro he
      rw [he, hBsNb] at hP2
      injection hP2 with hx
      cases hx
    · intro he
      rw [he, hBsOb] at hP2
      injection hP2 with hx
      cases hx
  have hslot_ne_dpid : ∀ i2, i2 ≠ di → H.directory_page_ids_ i2 ≠ INVALID_PAGE_ID →
      H.directory_page_ids_ i2 ≠ dpid := by
    intro i2 hi2 hne2 he
    exact hi2 (hwf.hdr_inj H i2 di hH hne2 (by rw [he, hdpid]))
  have hdirs_keep : ∀ i2 D2, i2 ≠ di → H.directory_page_ids_ i2 ≠ INVALID_PAGE_ID →
      ts.pages_ (H.directory_page_ids_ i2) = some (HPage.directory D2) →
      t.pages_ (H.directory_page_ids_ i2) = some (HPage.directory D2) := by
    intro i2 D2 hi2 hne2 hD2
    obtain ⟨h1, h2⟩ := hdir_ne _ _ hD2
    rw [hkeep _ h1 h2 (hslot_ne_dpid i2 hi2 hne2)] at hD2
    exact hD2
  constructor
  · refine ⟨?_, ?_, ?_, ?_, ?_, ?_, ?_⟩
    · rw [hnx]
      omega
    · intro p hp
      rw [hnx] at hp
      rw [hpg]
      rcases hp with h | h
      · rw [if_neg (by omega), if_neg (by omega), if_neg (by omega)]
        exact hwf.bound p (Or.inl h)
      · rw [if_neg (by omega), if_neg (by omega), if_neg (by omega)]
        exact hwf.bound p (Or.inr (by omega))
    · exact ⟨H, by rw [hhp]; exact hHs⟩
    · intro H2 i j hH2 hne2 heq2
      rw [hhp, hHs] at hH2
      injection hH2 with h1
      injection h1 with h1
      subst h1
      exact hwf.hdr_inj H i j hH hne2 heq2
    · intro H2 i hH2 hne2
      rw [hhp, hHs] at hH2
      injection hH2 with h1
      injection h1 with h1
      subst h1
      by_cases hidi : i = di
      · refine ⟨S, ?_, hwfS⟩
        rw [hidi, hdpid]
        exact hDs
      · obtain ⟨Dj, hDj, hDjwf⟩ := hwf.dirs H i hH hne2
        refine ⟨Dj, ?_, hDjwf⟩
        have h1 : H.directory_page_ids_ i ≠ t.next_page_id_ := by
          intro he
          rw [he, hnone] at hDj
          cases hDj
        have h2 : H.directory_page_ids_ i ≠ bpid := ne_of_directory_bucket hDj hB
        rw [hkeep _ h1 h2 (hslot_ne_dpid i hidi hne2)]
        exact hDj
    · intro H2 i D s hH2 hne2 hD2 hs2 hbne2
      rw [hhp, hHs] at hH2
      injection hH2 with h1
      injection h1 with h1
      subst h1
      by_cases hidi : i = di
      · rw [hidi, hdpid, hDs] at hD2
        injection hD2 with h1
        injection h1 with h1
        subst h1
        rcases hinven s hs2 with hq | hq | ⟨s0, hs0, hs0eq⟩
        · refine ⟨obL, ?_, hsOb⟩
          rw [hq]
          exact hBsOb
        · refine ⟨nbL, ?_, hsNb⟩
          rw [hq]
          exact hBsNb
        · have hq_ne : d1.bucket_page_ids_ s0 ≠ INVALID_PAGE_ID := by
            rw [hs0eq]
            exact hbne2
          obtain ⟨Bq, hBq, hBqs⟩ := hwf.buckets H di d1 s0 hH hdne hD1 hs0 hq_ne
          by_cases hqb : d1.bucket_page_ids_ s0 = bpid
          · refine ⟨obL, ?_, hsOb⟩
            rw [← hs0eq, hqb]
            exact hBsOb
          · refine ⟨Bq, ?_, hBqs⟩
            rw [← hs0eq, hkeep _ (hfresh s0 hs0) hqb
              ((ne_of_directory_bucket hD hBq).symm)]
            exact hBq
      · have hD2t := hdirs_keep i D hidi hne2 hD2
        obtain ⟨Bq, hBq, hBqs⟩ := hwf.buckets H i D s hH hne2 hD2t hs2 hbne2
        have h1 : D.bucket_page_ids_ s ≠ t.next_page_id_ := by
          intro he
          rw [he, hnone] at hBq
          cases hBq
        have h2 : D.bucket_page_ids_ s ≠ bpid := by
          have h3 := hwf.disj H i di D d1 s bidx hH hne2 hdne hidi hD2t hD1 hs2 hbidx hbne2
          rw [hbpid] at h3
          exact h3
        refine ⟨Bq, ?_, hBqs⟩
        rw [hkeep _ h1 h2 ((ne_of_directory_bucket hD hBq).symm)]
        exact hBq
    · intro H2 i j Di Dj si sj hH2 hnei hnej hij hDi hDj hsi hsj hbnei
      rw [hhp, hHs] at hH2
      injection hH2 with h1
      injection h1 with h1
      subst h1
      by_cases hii : i = di
      · rw [hii, hdpid, hDs] at hDi
        injection hDi with h1
        injection h1 with h1
        subst h1
        have hij2 : di ≠ j := by
          rw [← hii]
          exact hij
        have hjj : j ≠ di := fun he => hij2 he.symm
        have hDjt := hdirs_keep j Dj hjj hnej hDj
        rcases hinven si hsi with hq | hq | ⟨s0, hs0, hs0eq⟩
        · rw [hq]
          have h3 := hwf.disj H di j d1 Dj bidx sj hH hdne hnej hij2 hD1 hDjt hbidx hsj
            (by rw [hbpid]; exact hbne)
          rw [hbpid] at h3
          exact h3
        · rw [hq]
          by_cases hjInv : Dj.bucket_page_ids_ sj = INVALID_PAGE_ID
          · rw [hjInv]
            exact hnInv
          · obtain ⟨Bq, hBq, h0⟩ := hwf.buckets H j Dj sj hH hnej hDjt hsj hjInv
            intro he
            rw [← he, hnone] at hBq
            cases hBq
        · rw [← hs0eq]
          have hs0ne : d1.bucket_page_ids_ s0 ≠ INVALID_PAGE_ID := by
            rw [hs0eq]
            exact hbnei
          exact hwf.disj H di j d1 Dj s0 sj hH hdne hnej hij2 hD1 hDjt hs0 hsj hs0ne
      · have hDit := hdirs_keep i Di hii hnei hDi
        by_cases hjj : j = di
        · rw [hjj, hdpid, hDs] at hDj
          injection hDj with h1
          injection h1 with h1
          subst h1
          rcases hinven sj hsj with hq | hq | ⟨s0, hs0, hs0eq⟩
          · rw [hq]
            have h3 := hwf.disj H i di Di d1 si bidx hH hnei hdne hii hDit hD1 hsi
              hbidx hbnei
            rw [hbpid] at h3
            exact h3
          · rw [hq]
            obtain ⟨Bq, hBq, h0⟩ := hwf.buckets H i Di si hH hnei hDit hsi hbnei
            intro he
            rw [he, hnone] at hBq
            cases hBq
          · rw [← hs0eq]
            exact hwf.disj H i di Di d1 si s0 hH hnei hdne hii hDit hD1 hsi hs0 hbnei
        · have hDjt := hdirs_keep j Dj hjj hnej hDj
          exact hwf.disj H i j Di Dj si sj hH hnei hnej hij hDit hDjt hsi hsj hbnei
  · -- every stored binding survives the split
    intro k0 v0 hc
    obtain ⟨H0, D0, B0, hH0, hdne0, hD0, hbne0, hB0, i0, hi0, hkv0⟩ := hc
    rw [hH] at hH0
    injection hH0 with h1
    injection h1 with h1
    subst h1
    by_cases hdd : H.directory_page_ids_ (H.HashToDirectoryIndex (hash k0)) = dpid
    · rw [hdd, hD] at hD0
      injection hD0 with h2
      injection h2 with h2
      subst h2
      have hr := hroute (hash k0)
      by_cases hcb : d1.bucket_page_ids_ (hash k0 % 2 ^ d1.global_depth_) = bpid
      · rw [hcb, hB] at hB0
        injection hB0 with h3
        injection h3 with h3
        subst h3
        obtain ⟨hstay, hmove⟩ := hredis k0 v0 ⟨i0, hi0, hkv0⟩
        rw [if_pos hcb] at hr
        by_cases hbit : hash k0 % 2 ^ (d1.local_depths_ bidx + 1) =
            bidx % 2 ^ (d1.local_depths_ bidx + 1)
        · rw [if_pos hbit] at hr
          refine ⟨H, S, obL, ?_, hdne0, ?_, ?_, ?_, ?_⟩
          · rw [hhp]
            exact hHs
          · rw [hdd]
            exact hDs
          · rw [hr]
            exact hbne
          · rw [hr]
            exact hBsOb
          · exact hstay (by rw [hld2]; exact hbit)
        · rw [if_neg hbit] at hr
          refine ⟨H, S, nbL, ?_, hdne0, ?_, ?_, ?_, ?_⟩
          · rw [hhp]
            exact hHs
          · rw [hdd]
            exact hDs
          · rw [hr]
            exact hnInv
          · rw [hr]
            exact hBsNb
          · exact hmove (by rw [hld2]; exact hbit)
      · rw [if_neg hcb] at hr
        refine ⟨H, S, B0, ?_, hdne0, ?_, ?_, ?_, ⟨i0, hi0, hkv0⟩⟩
        · rw [hhp]
          exact hHs
        · rw [hdd]
          exact hDs
        · rw [hr]
          exact hbne0
        · rw [hr, hkeep _ (hfresh _ (mod_two_pow_lt _ _)) hcb
            ((ne_of_directory_bucket hD hB0).symm)]
          exact hB0
    · have hidx_ne : H.HashToDirectoryIndex (hash k0) ≠ di := by
        intro he
        exact hdd (by rw [he, hdpid])
      have h1 : H.directory_page_ids_ (H.HashToDirectoryIndex (hash k0)) ≠
          t.next_page_id_ := by
        intro he
        rw [he, hnone] at hD0
        cases hD0
      have h2 : H.directory_page_ids_ (H.HashToDirectoryIndex (hash k0)) ≠ bpid :=
        ne_of_directory_bucket hD0 hB
      have hq1 : D0.bucket_page_ids_ (hash k0 % 2 ^ D0.global_depth_) ≠
          t.next_page_id_ := by
        intro he
        rw [he, hnone] at hB0
        cases hB0
      have hq2 : D0.bucket_page_ids_ (hash k0 % 2 ^ D0.global_depth_) ≠ bpid := by
        have h3 := hwf.disj H (H.HashToDirectoryIndex (hash k0)) di D0 d1
          (hash k0 % 2 ^ D0.global_depth_) bidx hH hdne0 hdne hidx_ne hD0 hD1
          (mod_two_pow_lt _ _) hbidx hbne0
        rw [hbpid] at h3
        exact h3
      refine ⟨H, D0, B0, ?_, hdne0, ?_, hbne0, ?_, ⟨i0, hi0, hkv0⟩⟩
      · rw [hhp]
        exact hHs
      · rw [hkeep _ h1 h2 hdd]
        exact hD0
      · rw [hkeep _ hq1 hq2 ((ne_of_directory_bucket hD hB0).symm)]
        exact hB0

theorem dirWF_init (m : Nat) : DirWF (.Init m) := by
  refine ⟨Nat.zero_le m, ?_, ?_, ?_, Or.inl rfl⟩
  · intro i hi
    exact Nat.le_refl 0
  · intro i hi j hj hne heq
    exact absurd rfl hne
  · intro i hi hne j hj hcong
    exact absurd rfl hne

/-- `Insert`'s directory-creation step: linking a fresh `Init` directory page
into an `INVALID` header slot preserves well-formedness and every binding. -/
theorem create_directory_step (hash : Int → Nat) {t : DiskExtendibleHashTable}
    (hwf : TableWF t) {H : ExtendibleHTableHeaderPage} {di : Nat}
    (hH : t.pages_ t.header_page_id_ = some (HPage.header H))
    (hinv : H.directory_page_ids_ di = INVALID_PAGE_ID)
    {t1 : DiskExtendibleHashTable}
    (ht1 : t1 = { t with
      next_page_id_ := t.next_page_id_ + 1,
      pages_ := fun p => if p = t.next_page_id_
        then some (HPage.directory (.Init t.directory_max_depth_))
        else if p = t.header_page_id_
        then some (HPage.header (H.SetDirectoryPageId di t.next_page_id_))
        else t.pages_ p }) :
    TableWF t1 ∧ (∀ k0 v0, Contains hash t k0 v0 → Contains hash t1 k0 v0) ∧
    t1.header_page_id_ = t.header_page_id_ ∧
    t1.next_page_id_ = t.next_page_id_ + 1 ∧
    t1.pages_ t.header_page_id_ =
      some (HPage.header (H.SetDirectoryPageId di t.next_page_id_)) ∧
    t1.pages_ t.next_page_id_ =
      some (HPage.directory (.Init t.directory_max_depth_)) ∧
    (H.SetDirectoryPageId di t.next_page_id_).directory_page_ids_ di =
      t.next_page_id_ := by
  have hnone : t.pages_ t.next_page_id_ = none := hwf.bound _ (Or.inr le_rfl)
  have hhn : t.header_page_id_ ≠ t.next_page_id_ := by
    intro he
    rw [he, hnone] at hH
    cases hH
  have hnpos := hwf.next_pos
  have hnInv : t.next_page_id_ ≠ INVALID_PAGE_ID := by
    show t.next_page_id_ ≠ -1
    omega
  have hrh := page_id_range hwf hH
  have hpg : ∀ p : Int, t1.pages_ p =
      if p = t.next_page_id_ then some (HPage.directory (.Init t.directory_max_depth_))
      else if p = t.header_page_id_
      then some (HPage.header (H.SetDirectoryPageId di t.next_page_id_))
      else t.pages_ p := by
    intro p
    rw [ht1]
  have hhp : t1.header_page_id_ = t.header_page_id_ := by rw [ht1]
  have hnx : t1.next_page_id_ = t.next_page_id_ + 1 := by rw [ht1]
  have hHs : t1.pages_ t.header_page_id_ =
      some (HPage.header (H.SetDirectoryPageId di t.next_page_id_)) := by
    rw [hpg, if_neg hhn, if_pos rfl]
  have hDs : t1.pages_ t.next_page_id_ =
      some (HPage.directory (.Init t.directory_max_depth_)) := by
    rw [hpg, if_pos rfl]
  have hkeep : ∀ p : Int, p ≠ t.next_page_id_ → p ≠ t.header_page_id_ →
      t1.pages_ p = t.pages_ p := by
    intro p h1 h2
    rw [hpg, if_neg h1, if_neg h2]
  -- slots of the new header
  have hslot : ∀ i, (H.SetDirectoryPageId di t.next_page_id_).directory_page_ids_ i =
      if i = di then t.next_page_id_ else H.directory_page_ids_ i := by
    intro i
    show Function.update H.directory_page_ids_ di t.next_page_id_ i = _
    by_cases hc : i = di
    · rw [hc, Function.update_same, if_pos rfl]
    · rw [Function.update_noteq hc, if_neg hc]
  have hHidx : ∀ x : Nat, (H.SetDirectoryPageId di t.next_page_id_).HashToDirectoryIndex x =
      H.HashToDirectoryIndex x := fun x => rfl
  have hold_ne : ∀ i, H.directory_page_ids_ i ≠ INVALID_PAGE_ID →
      H.directory_page_ids_ i ≠ t.next_page_id_ ∧
      H.directory_page_ids_ i ≠ t.header_page_id_ := by
    intro i hne
    obtain ⟨Di, hDi, h0⟩ := hwf.dirs H i hH hne
    constructor
    · intro he
      rw [he, hnone] at hDi
      cases hDi
    · exact (ne_of_header_directory hH hDi).symm
  refine ⟨?_, ?_, hhp, hnx, hHs, hDs,
    by show Function.update H.directory_page_ids_ di t.next_page_id_ di = t.next_page_id_
       exact Function.update_same di t.next_page_id_ H.directory_page_ids_⟩
  · refine ⟨?_, ?_, ?_, ?_, ?_, ?_, ?_⟩
    · rw [hnx]
      omega
    · intro p hp
      rw [hnx] at hp
      rw [hpg]
      rcases hp with h | h
      · rw [if_neg (by omega), if_neg (by omega)]
        exact hwf.bound p (Or.inl h)
      · rw [if_neg (by omega), if_neg (by omega)]
        exact hwf.bound p (Or.inr (by omega))
    · exact ⟨H.SetDirectoryPageId di t.next_page_id_, by rw [hhp]; exact hHs⟩
    · intro H2 i j hH2 hne2 heq2
      rw [hhp, hHs] at hH2
      injection hH2 with h1
      injection h1 with h1
      subst h1
      rw [hslot i] at hne2 heq2
      rw [hslot j] at heq2
      by_cases hci : i = di <;> by_cases hcj : j = di
      · rw [hci, hcj]
      · rw [if_pos hci] at heq2
        rw [if_neg hcj] at heq2
        by_cases hjv : H.directory_page_ids_ j = INVALID_PAGE_ID
        · rw [hjv] at heq2
          exact absurd heq2 hnInv
        · exact absurd heq2.symm (hold_ne j hjv).1
      · rw [if_neg hci] at hne2 heq2
        rw [if_pos hcj] at heq2
        exact absurd heq2 (hold_ne i hne2).1
      · rw [if_neg hci] at hne2 heq2
        rw [if_neg hcj] at heq2
        exact hwf.hdr_inj H i j hH hne2 heq2
    · intro H2 i hH2 hne2
      rw [hhp, hHs] at hH2
      injection hH2 with h1
      injection h1 with h1
      subst h1
      rw [hslot i] at hne2 ⊢
      by_cases hci : i = di
      · rw [if_pos hci]
        exact ⟨.Init t.directory_max_depth_, hDs, dirWF_init _⟩
      · rw [if_neg hci] at hne2 ⊢
        obtain ⟨Di, hDi, hDiwf⟩ := hwf.dirs H i hH hne2
        obtain ⟨h1, h2⟩ := hold_ne i hne2
        refine ⟨Di, ?_, hDiwf⟩
        rw [hkeep _ h1 h2]
        exact hDi
    · intro H2 i D s hH2 hne2 hD2 hs2 hbne2
      rw [hhp, hHs] at hH2
      injection hH2 with h1
      injection h1 with h1
      subst h1
      rw [hslot i] at hne2 hD2
      by_cases hci : i = di
      · rw [if_pos hci] at hD2
        rw [hDs] at hD2
        injection hD2 with h1
        injection h1 with h1
        rw [← h1] at hbne2
        exact absurd rfl hbne2
      · rw [if_neg hci] at hne2 hD2
        obtain ⟨h1, h2⟩ := hold_ne i hne2
        rw [hkeep _ h1 h2] at hD2
        obtain ⟨Bq, hBq, hBqs⟩ := hwf.buckets H i D s hH hne2 hD2 hs2 hbne2
        refine ⟨Bq, ?_, hBqs⟩
        have hq1 : D.bucket_page_ids_ s ≠ t.next_page_id_ := by
          intro he
          rw [he, hnone] at hBq
          cases hBq
        rw [hkeep _ hq1 ((ne_of_header_bucket hH hBq).symm)]
        exact hBq
    · intro H2 i j Di Dj si sj hH2 hnei hnej hij hDi hDj hsi hsj hbnei
      rw [hhp, hHs] at hH2
      injection hH2 with h1
      injection h1 with h1
      subst h1
      rw [hslot i] at hnei hDi
      rw [hslot j] at hnej hDj
      by_cases hci : i = di
      · rw [if_pos hci] at hDi
        rw [hDs] at hDi
        injection hDi with h1
        injection h1 with h1
        rw [← h1] at hbnei
        exact absurd rfl hbnei
      · rw [if_neg hci] at hnei hDi
        obtain ⟨h1, h2⟩ := hold_ne i hnei
        rw [hkeep _ h1 h2] at hDi
        by_cases hcj : j = di
        · rw [if_pos hcj] at hDj
          rw [hDs] at hDj
          injection hDj with h3
          injection h3 with h3
          rw [← h3]
          exact hbnei
        · rw [if_neg hcj] at hnej hDj
          obtain ⟨h3, h4⟩ := hold_ne j hnej
          rw [hkeep _ h3 h4] at hDj
          exact hwf.disj H i j Di Dj si sj hH hnei hnej hij hDi hDj hsi hsj hbnei
  · intro k0 v0 hc
    obtain ⟨H0, D0, B0, hH0, hdne0, hD0, hbne0, hB0, i0, hi0, hkv0⟩ := hc
    rw [hH] at hH0
    injection hH0 with h1
    injection h1 with h1
    subst h1
    have hidx_ne : H.HashToDirectoryIndex (hash k0) ≠ di := by
      intro he
      rw [he, hinv] at hdne0
      exact hdne0 rfl
    obtain ⟨h1, h2⟩ := hold_ne _ hdne0
    have hq1 : D0.bucket_page_ids_ (hash k0 % 2 ^ D0.global_depth_) ≠ t.next_page_id_ := by
      intro he
      rw [he, hnone] at hB0
      cases hB0
    have hq2 := (ne_of_header_bucket hH hB0).symm
    refine ⟨H.SetDirectoryPageId di t.next_page_id_, D0, B0, ?_, ?_, ?_, hbne0, ?_,
      ⟨i0, hi0, hkv0⟩⟩
    · rw [hhp]
      exact hHs
    · rw [hHidx, hslot, if_neg hidx_ne]
      exact hdne0
    · rw [hHidx, hslot, if_neg hidx_ne, hkeep _ h1 h2]
      exact hD0
    · rw [hkeep _ hq1 hq2]
      exact hB0

/-- `Insert`'s bucket-creation step: an `INVALID` bucket slot only exists in
a fresh directory (`global_depth = 0`), and linking a fresh empty bucket
into it preserves well-formedness and every binding. -/
theorem create_bucket_step (hash : Int → Nat) {t : DiskExtendibleHashTable}
    (hwf : TableWF t) {H : ExtendibleHTableHeaderPage} {di : Nat} {dpid : Int}
    (hH : t.pages_ t.header_page_id_ = some (HPage.header H))
    (hdne : H.directory_page_ids_ di ≠ INVALID_PAGE_ID)
    (hdpid : H.directory_page_ids_ di = dpid)
    {d0 : ExtendibleHTableDirectoryPage}
    (hD : t.pages_ dpid = some (HPage.directory d0))
    {bidx : Nat} (hbidx : bidx < 2 ^ d0.global_depth_)
    (hinv : d0.bucket_page_ids_ bidx = INVALID_PAGE_ID)
    {t1 : DiskExtendibleHashTable}
    (ht1 : t1 = { t with
      next_page_id_ := t.next_page_id_ + 1,
      pages_ := fun p => if p = t.next_page_id_
        then some (HPage.bucket { size_ := 0, max_size_ := t.bucket_max_size_, array_ := fun _ => (0, 0) })
        else if p = dpid
        then some (HPage.directory
          ((d0.SetBucketPageId bidx t.next_page_id_).SetLocalDepth bidx 0))
        else t.pages_ p }) :
    TableWF t1 ∧ (∀ k0 v0, Contains hash t k0 v0 → Contains hash t1 k0 v0) ∧
    t1.header_page_id_ = t.header_page_id_ ∧
    t1.next_page_id_ = t.next_page_id_ + 1 ∧
    t1.pages_ t.header_page_id_ = some (HPage.header H) ∧
    t1.pages_ dpid = some (HPage.directory
      ((d0.SetBucketPageId bidx t.next_page_id_).SetLocalDepth bidx 0)) ∧
    t1.pages_ t.next_page_id_ = some (HPage.bucket { size_ := 0, max_size_ := t.bucket_max_size_, array_ := fun _ => (0, 0) }) ∧
    ((d0.SetBucketPageId bidx t.next_page_id_).SetLocalDepth bidx 0).bucket_page_ids_ bidx
      = t.next_page_id_ := by
  obtain ⟨D0x, hD0x, hd0wf⟩ := hwf.dirs H di hH hdne
  rw [hdpid, hD] at hD0x
  injection hD0x with hD0x
  injection hD0x with hD0x
  rw [← hD0x] at hd0wf
  have h0 : d0.global_depth_ = 0 := by
    rcases hd0wf.filled with h | hall
    · exact h
    · exact absurd (hall bidx hbidx) (fun hc => hc hinv)
  have hbx : bidx = 0 := by
    rw [h0, pow_zero] at hbidx
    omega
  have hnone : t.pages_ t.next_page_id_ = none := hwf.bound _ (Or.inr le_rfl)
  have hhn : t.header_page_id_ ≠ t.next_page_id_ := by
    intro he
    rw [he, hnone] at hH
    cases hH
  have hdn : dpid ≠ t.next_page_id_ := by
    intro he
    rw [he, hnone] at hD
    cases hD
  have hnpos := hwf.next_pos
  have hnInv : t.next_page_id_ ≠ INVALID_PAGE_ID := by
    show t.next_page_id_ ≠ -1
    omega
  have hhd : t.header_page_id_ ≠ dpid := ne_of_header_directory hH hD
  have hrd := page_id_range hwf hD
  have hpg : ∀ p : Int, t1.pages_ p =
      if p = t.next_page_id_
      then some (HPage.bucket { size_ := 0, max_size_ := t.bucket_max_size_, array_ := fun _ => (0, 0) })
      else if p = dpid
      then some (HPage.directory
        ((d0.SetBucketPageId bidx t.next_page_id_).SetLocalDepth bidx 0))
      else t.pages_ p := by
    intro p
    rw [ht1]
  have hhp : t1.header_page_id_ = t.header_page_id_ := by rw [ht1]
  have hnx : t1.next_page_id_ = t.next_page_id_ + 1 := by rw [ht1]
  have hHs : t1.pages_ t.header_page_id_ = some (HPage.header H) := by
    rw [hpg, if_neg hhn, if_neg hhd]
    exact hH
  have hDs : t1.pages_ dpid = some (HPage.directory
      ((d0.SetBucketPageId bidx t.next_page_id_).SetLocalDepth bidx 0)) := by
    rw [hpg, if_neg hdn, if_pos rfl]
  have hBs : t1.pages_ t.next_page_id_ = some (HPage.bucket { size_ := 0, max_size_ := t.bucket_max_size_, array_ := fun _ => (0, 0) }) := by
    rw [hpg, if_pos rfl]
  have hkeep : ∀ p : Int, p ≠ t.next_page_id_ → p ≠ dpid →
      t1.pages_ p = t.pages_ p := by
    intro p h1 h2
    rw [hpg, if_neg h1, if_neg h2]
  have hsEmpty : BucketSorted { size_ := 0, max_size_ := t.bucket_max_size_, array_ := fun _ => (0, 0) } := by
    intro j hj
    exact absurd hj (Nat.not_lt_zero j)
  have hgd : ((d0.SetBucketPageId bidx t.next_page_id_).SetLocalDepth bidx 0).global_depth_
      = d0.global_depth_ := rfl
  have hpid_at : ∀ i, i < 2 ^ d0.global_depth_ →
      ((d0.SetBucketPageId bidx t.next_page_id_).SetLocalDepth bidx 0).bucket_page_ids_ i
        = t.next_page_id_ := by
    intro i hi
    have hieq : i = bidx := by
      rw [h0, pow_zero] at hi
      omega
    rw [hieq]
    show Function.update d0.bucket_page_ids_ bidx t.next_page_id_ bidx = _
    rw [Function.update_same]
  have hd'wf : DirWF ((d0.SetBucketPageId bidx t.next_page_id_).SetLocalDepth bidx 0) := by
    refine ⟨hd0wf.g_le, ?_, ?_, ?_, Or.inl h0⟩
    · intro i hi
      have hieq : i = bidx := by
        rw [hgd, h0, pow_zero] at hi
        omega
      rw [hieq]
      show Function.update d0.local_depths_ bidx 0 bidx ≤ _
      rw [Function.update_same]
      exact Nat.zero_le _
    · intro i hi j hj hne heq
      rw [hgd] at hi hj
      have hieq : i = bidx := by rw [h0, pow_zero] at hi; omega
      have hjeq : j = bidx := by rw [h0, pow_zero] at hj; omega
      rw [hieq, hjeq]
      exact ⟨rfl, rfl⟩
    · intro i hi hne j hj hcong
      rw [hgd] at hi hj
      have hieq : i = bidx := by rw [h0, pow_zero] at hi; omega
      have hjeq : j = bidx := by rw [h0, pow_zero] at hj; omega
      rw [hieq, hjeq]
  refine ⟨?_, ?_, hhp, hnx, hHs, hDs, hBs, hpid_at bidx hbidx⟩
  · refine ⟨?_, ?_, ?_, ?_, ?_, ?_, ?_⟩
    · rw [hnx]
      omega
    · intro p hp
      rw [hnx] at hp
      rw [hpg]
      rcases hp with h | h
      · rw [if_neg (by omega), if_neg (by omega)]
        exact hwf.bound p (Or.inl h)
      · rw [if_neg (by omega), if_neg (by omega)]
        exact hwf.bound p (Or.inr (by omega))
    · exact ⟨H, by rw [hhp]; exact hHs⟩
    · intro H2 i j hH2 hne2 heq2
      rw [hhp, hHs] at hH2
      injection hH2 with h1
      injection h1 with h1
      subst h1
      exact hwf.hdr_inj H i j hH hne2 heq2
    · intro H2 i hH2 hne2
      rw [hhp, hHs] at hH2
      injection hH2 with h1
      injection h1 with h1
      subst h1
      by_cases hci : i = di
      · refine ⟨(d0.SetBucketPageId bidx t.next_page_id_).SetLocalDepth bidx 0, ?_, hd'wf⟩
        rw [hci, hdpid]
        exact hDs
      · obtain ⟨Di, hDi, hDiwf⟩ := hwf.dirs H i hH hne2
        have h1 : H.directory_page_ids_ i ≠ t.next_page_id_ := by
          intro he
          rw [he, hnone] at hDi
          cases hDi
        have h2 : H.directory_page_ids_ i ≠ dpid := by
          intro he
          exact hci (hwf.hdr_inj H i di hH hne2 (by rw [he, hdpid]))
        refine ⟨Di, ?_, hDiwf⟩
        rw [hkeep _ h1 h2]
        exact hDi
    · intro H2 i D s hH2 hne2 hD2 hs2 hbne2
      rw [hhp, hHs] at hH2
      injection hH2 with h1
      injection h1 with h1
      subst h1
      by_cases hci : i = di
      · rw [hci, hdpid, hDs] at hD2
        injection hD2 with h1
        injection h1 with h1
        subst h1
        refine ⟨{ size_ := 0, max_size_ := t.bucket_max_size_, array_ := fun _ => (0, 0) }, ?_, hsEmpty⟩
        rw [hpid_at s (by rw [← hgd]; exact hs2)]
        exact hBs
      · have h1 : H.directory_page_ids_ i ≠ t.next_page_id_ := by
          intro he
          obtain ⟨Di, hDi, h0x⟩ := hwf.dirs H i hH hne2
          rw [he, hnone] at hDi
          cases hDi
        have h2 : H.directory_page_ids_ i ≠ dpid := by
          intro he
          exact hci (hwf.hdr_inj H i di hH hne2 (by rw [he, hdpid]))
        rw [hkeep _ h1 h2] at hD2
        obtain ⟨Bq, hBq, hBqs⟩ := hwf.buckets H i D s hH hne2 hD2 hs2 hbne2
        have hq1 : D.bucket_page_ids_ s ≠ t.next_page_id_ := by
          intro he
          rw [he, hnone] at hBq
          cases hBq
        refine ⟨Bq, ?_, hBqs⟩
        rw [hkeep _ hq1 ((ne_of_directory_bucket hD hBq).symm)]
        exact hBq
    · intro H2 i j Di Dj si sj hH2 hnei hnej hij hDi hDj hsi hsj hbnei
      rw [hhp, hHs] at hH2
      injection hH2 with h1
      injection h1 with h1
      subst h1
      by_cases hci : i = di
      · rw [hci, hdpid, hDs] at hDi
        injection hDi with h1
        injection h1 with h1
        subst h1
        have hjj : j ≠ di := by
          intro he
          exact hij (by rw [hci, he])
        have hj1 : H.directory_page_ids_ j ≠ t.next_page_id_ := by
          intro he
          obtain ⟨Dx, hDx, h0x⟩ := hwf.dirs H j hH hnej
          rw [he, hnone] at hDx
          cases hDx
        have hj2 : H.directory_page_ids_ j ≠ dpid := by
          intro he
          exact hjj (hwf.hdr_inj H j di hH hnej (by rw [he, hdpid]))
        rw [hkeep _ hj1 hj2] at hDj
        rw [hpid_at si (by rw [← hgd]; exact hsi)]
        by_cases hjInv : Dj.bucket_page_ids_ sj = INVALID_PAGE_ID
        · rw [hjInv]
          exact hnInv
        · obtain ⟨Bq, hBq, h0x⟩ := hwf.buckets H j Dj sj hH hnej hDj hsj hjInv
          intro he
          rw [← he, hnone] at hBq
          cases hBq
      · have hi1 : H.directory_page_ids_ i ≠ t.next_page_id_ := by
          intro he
          obtain ⟨Dx, hDx, h0x⟩ := hwf.dirs H i hH hnei
          rw [he, hnone] at hDx
          cases hDx
        have hi2 : H.directory_page_ids_ i ≠ dpid := by
          intro he
          exact hci (hwf.hdr_inj H i di hH hnei (by rw [he, hdpid]))
        rw [hkeep _ hi1 hi2] at hDi
        by_cases hcj : j = di
        · rw [hcj, hdpid, hDs] at hDj
          injection hDj with h1
          injection h1 with h1
          subst h1
          rw [hpid_at sj (by rw [← hgd]; exact hsj)]
          obtain ⟨Bq, hBq, h0x⟩ := hwf.buckets H i Di si hH hnei hDi hsi hbnei
          intro he
          rw [he, hnone] at hBq
          cases hBq
        · have hj1 : H.directory_page_ids_ j ≠ t.next_page_id_ := by
            intro he
            obtain ⟨Dx, hDx, h0x⟩ := hwf.dirs H j hH hnej
            rw [he, hnone] at hDx
            cases hDx
          have hj2 : H.directory_page_ids_ j ≠ dpid := by
            intro he
            exact hcj (hwf.hdr_inj H j di hH hnej (by rw [he, hdpid]))
          rw [hkeep _ hj1 hj2] at hDj
          exact hwf.disj H i j Di Dj si sj hH hnei hnej hij hDi hDj hsi hsj hbnei
  · intro k0 v0 hc
    obtain ⟨H0, D0, B0, hH0, hdne0, hD0, hbne0, hB0, i0, hi0, hkv0⟩ := hc
    rw [hH] at hH0
    injection hH0 with h1
    injection h1 with h1
    subst h1
    by_cases hdd : H.directory_page_ids_ (H.HashToDirectoryIndex (hash k0)) = dpid
    · rw [hdd, hD] at hD0
      injection hD0 with h2
      injection h2 with h2
      subst h2
      have hslot0 : hash k0 % 2 ^ d0.global_depth_ = bidx := by
        rw [h0, pow_zero, Nat.mod_one, hbx]
      rw [hslot0, hinv] at hbne0
      exact absurd rfl hbne0
    · have h1 : H.directory_page_ids_ (H.HashToDirectoryIndex (hash k0)) ≠
          t.next_page_id_ := by
        intro he
        rw [he, hnone] at hD0
        cases hD0
      have hq1 : D0.bucket_page_ids_ (hash k0 % 2 ^ D0.global_depth_) ≠
          t.next_page_id_ := by
        intro he
        rw [he, hnone] at hB0
        cases hB0
      refine ⟨H, D0, B0, ?_, hdne0, ?_, hbne0, ?_, ⟨i0, hi0, hkv0⟩⟩
      · rw [hhp]
        exact hHs
      · rw [hkeep _ h1 hdd]
        exact hD0
      · rw [hkeep _ hq1 ((ne_of_directory_bucket hD hB0).symm)]
        exact hB0

/-- `Insert`'s final write: replacing the target bucket page with the
post-insert bucket preserves well-formedness and all old bindings, and
establishes the new binding. -/
theorem insert_leaf_step (hash : Int → Nat) {t : DiskExtendibleHashTable}
    (hwf : TableWF t) {H : ExtendibleHTableHeaderPage} {di : Nat} {dpid : Int}
    (hH : t.pages_ t.header_page_id_ = some (HPage.header H))
    (hdne : H.directory_page_ids_ di ≠ INVALID_PAGE_ID)
    (hdpid : H.directory_page_ids_ di = dpid)
    {d0 : ExtendibleHTableDirectoryPage}
    (hD : t.pages_ dpid = some (HPage.directory d0))
    {key value bpid : Int}
    (hbpid : d0.bucket_page_ids_ (hash key % 2 ^ d0.global_depth_) = bpid)
    (hbne : bpid ≠ INVALID_PAGE_ID)
    {bucket bucket2 : ExtendibleHTableBucketPage}
    (hB : t.pages_ bpid = some (HPage.bucket bucket))
    (hins : bucket.Insert key value = some bucket2)
    (hdi : di = H.HashToDirectoryIndex (hash key))
    {t1 : DiskExtendibleHashTable}
    (ht1 : t1 = { t with pages_ := fun p =>
      if p = bpid then some (HPage.bucket bucket2) else t.pages_ p }) :
    TableWF t1 ∧ (∀ k0 v0, Contains hash t k0 v0 → Contains hash t1 k0 v0) ∧
    Contains hash t1 key value := by
  have hD1 : t.pages_ (H.directory_page_ids_ di) = some (HPage.directory d0) := by
    rw [hdpid]
    exact hD
  obtain ⟨Bx, hBx, hsbx⟩ := hwf.buckets H di d0 (hash key % 2 ^ d0.global_depth_)
    hH hdne hD1 (mod_two_pow_lt _ _) (by rw [hbpid]; exact hbne)
  rw [hbpid, hB] at hBx
  injection hBx with hBx
  injection hBx with hBx
  rw [← hBx] at hsbx
  obtain ⟨hs2, hsz2, hmax2, ⟨jn, hjn, hentn⟩, hold⟩ := bucket_insert_spec bucket key value hsbx hins
  have hhb : t.header_page_id_ ≠ bpid := ne_of_header_bucket hH hB
  have hdb : dpid ≠ bpid := ne_of_directory_bucket hD hB
  have hpg : ∀ p : Int, t1.pages_ p =
      if p = bpid then some (HPage.bucket bucket2) else t.pages_ p := by
    intro p
    rw [ht1]
  have hhp : t1.header_page_id_ = t.header_page_id_ := by rw [ht1]
  have hnx : t1.next_page_id_ = t.next_page_id_ := by rw [ht1]
  have hHs : t1.pages_ t.header_page_id_ = some (HPage.header H) := by
    rw [hpg, if_neg hhb]
    exact hH
  have hBs : t1.pages_ bpid = some (HPage.bucket bucket2) := by
    rw [hpg, if_pos rfl]
  have hkeep : ∀ p : Int, p ≠ bpid → t1.pages_ p = t.pages_ p := by
    intro p h1
    rw [hpg, if_neg h1]
  have hrb := page_id_range hwf hB
  refine ⟨⟨?_, ?_, ?_, ?_, ?_, ?_, ?_⟩, ?_, ?_⟩
  · rw [hnx]
    exact hwf.next_pos
  · intro p hp
    rw [hnx] at hp
    rcases hp with h | h
    · rw [hkeep _ (by omega)]
      exact hwf.bound p (Or.inl h)
    · rw [hkeep _ (by omega)]
      exact hwf.bound p (Or.inr h)
  · exact ⟨H, by rw [hhp]; exact hHs⟩
  · intro H2 i j hH2 hne2 heq2
    rw [hhp, hHs] at hH2
    injection hH2 with h1
    injection h1 with h1
    subst h1
    exact hwf.hdr_inj H i j hH hne2 heq2
  · intro H2 i hH2 hne2
    rw [hhp, hHs] at hH2
    injection hH2 with h1
    injection h1 with h1
    subst h1
    obtain ⟨Di, hDi, hDiwf⟩ := hwf.dirs H i hH hne2
    refine ⟨Di, ?_, hDiwf⟩
    rw [hkeep _ (ne_of_directory_bucket hDi hB)]
    exact hDi
  · intro H2 i D s hH2 hne2 hD2 hs2x hbne2
    rw [hhp, hHs] at hH2
    injection hH2 with h1
    injection h1 with h1
    subst h1
    rw [hkeep _ (ne_of_directory_bucket hD2 hBs)] at hD2
    by_cases hqb : D.bucket_page_ids_ s = bpid
    · refine ⟨bucket2, ?_, hs2⟩
      rw [hqb]
      exact hBs
    · obtain ⟨Bq, hBq, hBqs⟩ := hwf.buckets H i D s hH hne2 hD2 hs2x hbne2
      refine ⟨Bq, ?_, hBqs⟩
      rw [hkeep _ hqb]
      exact hBq
  · intro H2 i j Di Dj si sj hH2 hnei hnej hij hDi hDj hsi hsj hbnei
    rw [hhp, hHs] at hH2
    injection hH2 with h1
    injection h1 with h1
    subst h1
    rw [hkeep _ (ne_of_directory_bucket hDi hBs)] at hDi
    rw [hkeep _ (ne_of_directory_bucket hDj hBs)] at hDj
    exact hwf.disj H i j Di Dj si sj hH hnei hnej hij hDi hDj hsi hsj hbnei
  · intro k0 v0 hc
    obtain ⟨H0, D0, B0, hH0, hdne0, hD0, hbne0, hB0, i0, hi0, hkv0⟩ := hc
    rw [hH] at hH0
    injection hH0 with h1
    injection h1 with h1
    subst h1
    have hd_ne : H.directory_page_ids_ (H.HashToDirectoryIndex (hash k0)) ≠ bpid :=
      ne_of_directory_bucket hD0 hB
    by_cases hqb : D0.bucket_page_ids_ (hash k0 % 2 ^ D0.global_depth_) = bpid
    · rw [hqb, hB] at hB0
      injection hB0 with h2
      injection h2 with h2
      subst h2
      obtain ⟨j2, hj2, hj2e⟩ := hold i0 hi0
      refine ⟨H, D0, bucket2, ?_, hdne0, ?_, hbne0, ?_, ⟨j2, hj2, by rw [hj2e, hkv0]⟩⟩
      · rw [hhp]
        exact hHs
      · rw [hkeep _ hd_ne]
        exact hD0
      · rw [hqb]
        exact hBs
    · refine ⟨H, D0, B0, ?_, hdne0, ?_, hbne0, ?_, ⟨i0, hi0, hkv0⟩⟩
      · rw [hhp]
        exact hHs
      · rw [hkeep _ hd_ne]
        exact hD0
      · rw [hkeep _ hqb]
        exact hB0
  · refine ⟨H, d0, bucket2, ?_, ?_, ?_, ?_, ?_, ⟨jn, hjn, hentn⟩⟩
    · rw [hhp]
      exact hHs
    · rw [← hdi]
      exact hdne
    · rw [← hdi, hdpid, hkeep _ hdb]
      exact hD
    · rw [hbpid]
      exact hbne
    · rw [hbpid]
      exact hBs

/-- An unchanged-state leaf of `Insert` (`false` returns). -/
theorem insert_leaf_unchanged (hash : Int → Nat) {t tc t2 : DiskExtendibleHashTable}
    {r : Bool} {key value : Int} (hwfc : TableWF tc)
    (hpres : ∀ k0 v0, Contains hash t k0 v0 → Contains hash tc k0 v0)
    (h : (Except.ok (false, tc) : Except String (Bool × DiskExtendibleHashTable)) =
      .ok (r, t2)) :
    TableWF t2 ∧ (∀ k0 v0, Contains hash t k0 v0 → Contains hash t2 k0 v0) ∧
    (r = true → Contains hash t2 key value) := by
  injection h with h1
  injection h1 with hr ht
  subst ht
  subst hr
  exact ⟨hwfc, hpres, fun hc => Bool.noConfusion hc⟩

/-- Stage 3 of `Insert` preserves the invariant and all bindings, assuming
the retry continuation does. -/
theorem insertIntoBucket_preserves (hash : Int → Nat)
    {retry : DiskExtendibleHashTable → Except String (Bool × DiskExtendibleHashTable)}
    {t : DiskExtendibleHashTable} (hwf : TableWF t)
    {key value : Int} {H : ExtendibleHTableHeaderPage} {di : Nat} {dpid : Int}
    (hH : t.pages_ t.header_page_id_ = some (HPage.header H))
    (hdne : H.directory_page_ids_ di ≠ INVALID_PAGE_ID)
    (hdpid : H.directory_page_ids_ di = dpid)
    {d1 : ExtendibleHTableDirectoryPage}
    (hD : t.pages_ dpid = some (HPage.directory d1))
    {bidx : Nat} (hbidx : bidx = hash key % 2 ^ d1.global_depth_)
    {bpid : Int} (hbpid : d1.bucket_page_ids_ bidx = bpid)
    (hbne : bpid ≠ INVALID_PAGE_ID)
    {bucket : ExtendibleHTableBucketPage}
    (hB : t.pages_ bpid = some (HPage.bucket bucket))
    (hdi : di = H.HashToDirectoryIndex (hash key))
    (hretry : ∀ ts r2 ts2, TableWF ts → retry ts = .ok (r2, ts2) →
      TableWF ts2 ∧ (∀ k0 v0, Contains hash ts k0 v0 → Contains hash ts2 k0 v0) ∧
      (r2 = true → Contains hash ts2 key value))
    {r : Bool} {t2 : DiskExtendibleHashTable}
    (h : DiskExtendibleHashTable.insertIntoBucket hash retry t key value d1 bucket bidx
      dpid bpid = .ok (r, t2)) :
    TableWF t2 ∧ (∀ k0 v0, Contains hash t k0 v0 → Contains hash t2 k0 v0) ∧
    (r = true → Contains hash t2 key value) := by
  unfold DiskExtendibleHashTable.insertIntoBucket at h
  split at h
  · exact insert_leaf_unchanged hash hwf (fun k0 v0 hc => hc) h
  · split at h
    · split at h
      · exact insert_leaf_unchanged hash hwf (fun k0 v0 hc => hc) h
      · rename_i hguard
        dsimp only at h
        obtain ⟨hwfS, hpresS⟩ := split_step_table hash hwf hH hdne hdpid hD
          (by rw [hbidx]; exact mod_two_pow_lt _ _) hbpid hbne hB hguard rfl
        obtain ⟨hwf2, hpres2, hest2⟩ := hretry _ r t2 hwfS h
        exact ⟨hwf2, fun k0 v0 hc => hpres2 k0 v0 (hpresS k0 v0 hc), hest2⟩
    · split at h
      · rename_i bucket2 hins
        injection h with h1
        injection h1 with hr ht
        subst ht
        subst hr
        obtain ⟨hwf1, hpres1, hest1⟩ := insert_leaf_step hash hwf hH hdne hdpid hD
          (by rw [← hbidx]; exact hbpid) hbne hB hins hdi rfl
        exact ⟨hwf1, hpres1, fun _ => hest1⟩
      · exact insert_leaf_unchanged hash hwf (fun k0 v0 hc => hc) h

/-- Stage 2 of `Insert` preserves the invariant and all bindings, assuming
the retry continuation does. -/
theorem insertWithDirectory_preserves (hash : Int → Nat)
    {retry : DiskExtendibleHashTable → Except String (Bool × DiskExtendibleHashTable)}
    {t : DiskExtendibleHashTable} (hwf : TableWF t)
    {key value : Int} {H : ExtendibleHTableHeaderPage} {di : Nat} {dpid : Int}
    (hH : t.pages_ t.header_page_id_ = some (HPage.header H))
    (hdne : H.directory_page_ids_ di ≠ INVALID_PAGE_ID)
    (hdpid : H.directory_page_ids_ di = dpid)
    {d0 : ExtendibleHTableDirectoryPage}
    (hD : t.pages_ dpid = some (HPage.directory d0))
    (hdi : di = H.HashToDirectoryIndex (hash key))
    (hretry : ∀ ts r2 ts2, TableWF ts → retry ts = .ok (r2, ts2) →
      TableWF ts2 ∧ (∀ k0 v0, Contains hash ts k0 v0 → Contains hash ts2 k0 v0) ∧
      (r2 = true → Contains hash ts2 key value))
    {r : Bool} {t2 : DiskExtendibleHashTable}
    (h : DiskExtendibleHashTable.insertWithDirectory hash retry t key value d0 dpid =
      .ok (r, t2)) :
    TableWF t2 ∧ (∀ k0 v0, Contains hash t k0 v0 → Contains hash t2 k0 v0) ∧
    (r = true → Contains hash t2 key value) := by
  unfold DiskExtendibleHashTable.insertWithDirectory at h
  dsimp only at h
  by_cases hinv : d0.GetBucketPageId (d0.HashToBucketIndex (hash key)) = INVALID_PAGE_ID
  · -- the directory slot was INVALID: a fresh empty bucket is linked in
    rw [if_pos hinv] at h
    dsimp only at h
    obtain ⟨hwf1, hpres1, hhp1, hnx1, hHs1, hDs1, hBs1, hpid1⟩ :=
      create_bucket_step hash hwf hH hdne hdpid hD
        (show d0.HashToBucketIndex (hash key) < 2 ^ d0.global_depth_ from
          mod_two_pow_lt (hash key) _) hinv rfl
    split at h
    · rename_i bucket heq
      obtain ⟨hwf2, hpres2, hest2⟩ := insertIntoBucket_preserves hash hwf1
        (by rw [hhp1]; exact hHs1) hdne hdpid hDs1 rfl hpid1
        (by show t.next_page_id_ ≠ -1; have := hwf.next_pos; omega) heq hdi hretry h
      exact ⟨hwf2, fun k0 v0 hc => hpres2 k0 v0 (hpres1 k0 v0 hc), hest2⟩
    · cases h
  · -- the bucket page already exists
    rw [if_neg hinv] at h
    dsimp only at h
    split at h
    · rename_i bucket heq
      exact insertIntoBucket_preserves hash hwf hH hdne hdpid hD rfl rfl hinv heq hdi
        hretry h
    · cases h

/-- Stage 1 of `Insert` preserves the invariant and all bindings, assuming
the retry continuation does. -/
theorem insertWithHeader_preserves (hash : Int → Nat)
    {retry : DiskExtendibleHashTable → Except String (Bool × DiskExtendibleHashTable)}
    {t : DiskExtendibleHashTable} (hwf : TableWF t)
    {key value : Int} {H : ExtendibleHTableHeaderPage}
    (hH : t.pages_ t.header_page_id_ = some (HPage.header H))
    (hretry : ∀ ts r2 ts2, TableWF ts → retry ts = .ok (r2, ts2) →
      TableWF ts2 ∧ (∀ k0 v0, Contains hash ts k0 v0 → Contains hash ts2 k0 v0) ∧
      (r2 = true → Contains hash ts2 key value))
    {r : Bool} {t2 : DiskExtendibleHashTable}
    (h : DiskExtendibleHashTable.insertWithHeader hash retry t key value H =
      .ok (r, t2)) :
    TableWF t2 ∧ (∀ k0 v0, Contains hash t k0 v0 → Contains hash t2 k0 v0) ∧
    (r = true → Contains hash t2 key value) := by
  unfold DiskExtendibleHashTable.insertWithHeader at h
  dsimp only at h
  by_cases hinv : H.GetDirectoryPageId (H.HashToDirectoryIndex (hash key)) = INVALID_PAGE_ID
  · -- the header slot was INVALID: a fresh empty directory is linked in
    rw [if_pos hinv] at h
    dsimp only at h
    obtain ⟨hwf1, hpres1, hhp1, hnx1, hHs1, hDs1, hslot1⟩ :=
      create_directory_step hash hwf hH
        (show H.directory_page_ids_ (H.HashToDirectoryIndex (hash key)) = INVALID_PAGE_ID
          from hinv) rfl
    split at h
    · rename_i d0 heq
      obtain ⟨hwf2, hpres2, hest2⟩ := insertWithDirectory_preserves hash hwf1
        (by rw [hhp1]; exact hHs1)
        (by rw [hslot1]; show t.next_page_id_ ≠ -1; have := hwf.next_pos; omega)
        hslot1 heq rfl hretry h
      exact ⟨hwf2, fun k0 v0 hc => hpres2 k0 v0 (hpres1 k0 v0 hc), hest2⟩
    · cases h
  · -- the directory page already exists
    rw [if_neg hinv] at h
    dsimp only at h
    split at h
    · rename_i d0 heq
      exact insertWithDirectory_preserves hash hwf hH
        (show H.directory_page_ids_ (H.HashToDirectoryIndex (hash key)) ≠ INVALID_PAGE_ID
          from hinv) rfl heq rfl hretry h
    · cases h

/-- `Insert` preserves the table invariant and every stored binding, and a
`true` return means the inserted binding is stored. -/
theorem insert_preserves (hash : Int → Nat) :
    ∀ (fuel : Nat) (t : DiskExtendibleHashTable) (key value : Int)
      (r : Bool) (t2 : DiskExtendibleHashTable),
    TableWF t → DiskExtendibleHashTable.Insert hash fuel t key value = .ok (r, t2) →
    TableWF t2 ∧ (∀ k0 v0, Contains hash t k0 v0 → Contains hash t2 k0 v0) ∧
    (r = true → Contains hash t2 key value) := by
  intro fuel
  induction fuel with
  | zero =>
    intro t key value r t2 hwf h
    cases h
  | succ fuel ih =>
    intro t key value r t2 hwf h
    unfold DiskExtendibleHashTable.Insert at h
    split at h
    · exact insert_leaf_unchanged hash hwf (fun k0 v0 hc => hc) h
    · split at h
      · rename_i header heq
        exact insertWithHeader_preserves hash hwf heq
          (fun ts r2 ts2 hwfs hs => ih ts key value r2 ts2 hwfs hs) h
      · cases h

/-! ### Preservation through `Remove` -/

/-- Well-formedness only depends on the observable state. -/
theorem tableWF_ext {t t' : DiskExtendibleHashTable}
    (hh : t'.header_page_id_ = t.header_page_id_)
    (hn : t'.next_page_id_ = t.next_page_id_)
    (hpg : ∀ q, t'.pages_ q = t.pages_ q)
    (hwf : TableWF t) : TableWF t' := by
  refine ⟨by rw [hn]; exact hwf.next_pos, ?_, ?_, ?_, ?_, ?_, ?_⟩
  · intro p hp
    rw [hn] at hp
    rw [hpg]
    exact hwf.bound p hp
  · obtain ⟨H, hH⟩ := hwf.header
    exact ⟨H, by rw [hh, hpg]; exact hH⟩
  · intro H i j hH hne he
    rw [hh, hpg] at hH
    exact hwf.hdr_inj H i j hH hne he
  · intro H i hH hne
    rw [hh, hpg] at hH
    obtain ⟨D, hD, hDwf⟩ := hwf.dirs H i hH hne
    exact ⟨D, by rw [hpg]; exact hD, hDwf⟩
  · intro H i D s hH hne hD hs hbne
    rw [hh, hpg] at hH
    rw [hpg] at hD
    obtain ⟨B, hB, hBs⟩ := hwf.buckets H i D s hH hne hD hs hbne
    exact ⟨B, by rw [hpg]; exact hB, hBs⟩
  · intro H i j Di Dj si sj hH hnei hnej hij hDi hDj hsi hsj hbnei
    rw [hh, hpg] at hH
    rw [hpg] at hDi
    rw [hpg] at hDj
    exact hwf.disj H i j Di Dj si sj hH hnei hnej hij hDi hDj hsi hsj hbnei

/-- A stored binding only depends on the observable state. -/
theorem contains_ext (hash : Int → Nat) {t t' : DiskExtendibleHashTable}
    (hh : t'.header_page_id_ = t.header_page_id_)
    (hpg : ∀ q, t'.pages_ q = t.pages_ q)
    {key value : Int} (hc : Contains hash t key value) :
    Contains hash t' key value := by
  obtain ⟨H, D, B, h1, h2, h3, h4, h5, h6⟩ := hc
  exact ⟨H, D, B, by rw [hh, hpg]; exact h1, h2, by rw [hpg]; exact h3, h4,
    by rw [hpg]; exact h5, h6⟩

/-- `Remove`'s physical deletion step: overwriting the target bucket page
with the post-`RemoveAt` bucket preserves well-formedness and every binding
of a different key. -/
theorem remove_leaf_step (hash : Int → Nat) {t : DiskExtendibleHashTable}
    (hwf : TableWF t) {H : ExtendibleHTableHeaderPage} {di : Nat} {dpid : Int}
    (hH : t.pages_ t.header_page_id_ = some (HPage.header H))
    (hdne : H.directory_page_ids_ di ≠ INVALID_PAGE_ID)
    (hdpid : H.directory_page_ids_ di = dpid)
    {d0 : ExtendibleHTableDirectoryPage}
    (hD : t.pages_ dpid = some (HPage.directory d0))
    {key bpid : Int}
    (hbpid : d0.bucket_page_ids_ (hash key % 2 ^ d0.global_depth_) = bpid)
    (hbne : bpid ≠ INVALID_PAGE_ID)
    {bucket bucket' : ExtendibleHTableBucketPage}
    (hB : t.pages_ bpid = some (HPage.bucket bucket))
    (hrem : bucket.Remove key = .ok (some bucket'))
    {t1 : DiskExtendibleHashTable}
    (ht1 : t1 = { t with pages_ := fun p =>
      if p = bpid then some (HPage.bucket bucket') else t.pages_ p }) :
    TableWF t1 ∧
    (∀ k0 v0, k0 ≠ key → Contains hash t k0 v0 → Contains hash t1 k0 v0) := by
  have hD1 : t.pages_ (H.directory_page_ids_ di) = some (HPage.directory d0) := by
    rw [hdpid]
    exact hD
  obtain ⟨Bx, hBx, hsbx⟩ := hwf.buckets H di d0 (hash key % 2 ^ d0.global_depth_)
    hH hdne hD1 (mod_two_pow_lt _ _) (by rw [hbpid]; exact hbne)
  rw [hbpid, hB] at hBx
  injection hBx with hBx
  injection hBx with hBx
  rw [← hBx] at hsbx
  obtain ⟨hs2, hsz2, hmax2, hold⟩ := bucket_remove_spec bucket key hsbx hrem
  have hhb : t.header_page_id_ ≠ bpid := ne_of_header_bucket hH hB
  have hpg : ∀ p : Int, t1.pages_ p =
      if p = bpid then some (HPage.bucket bucket') else t.pages_ p := by
    intro p
    rw [ht1]
  have hhp : t1.header_page_id_ = t.header_page_id_ := by rw [ht1]
  have hnx : t1.next_page_id_ = t.next_page_id_ := by rw [ht1]
  have hHs : t1.pages_ t.header_page_id_ = some (HPage.header H) := by
    rw [hpg, if_neg hhb]
    exact hH
  have hBs : t1.pages_ bpid = some (HPage.bucket bucket') := by
    rw [hpg, if_pos rfl]
  have hkeep : ∀ p : Int, p ≠ bpid → t1.pages_ p = t.pages_ p := by
    intro p h1
    rw [hpg, if_neg h1]
  have hrb := page_id_range hwf hB
  refine ⟨⟨?_, ?_, ?_, ?_, ?_, ?_, ?_⟩, ?_⟩
  · rw [hnx]
    exact hwf.next_pos
  · intro p hp
    rw [hnx] at hp
    rcases hp with h | h
    · rw [hkeep _ (by omega)]
      exact hwf.bound p (Or.inl h)
    · rw [hkeep _ (by omega)]
      exact hwf.bound p (Or.inr h)
  · exact ⟨H, by rw [hhp]; exact hHs⟩
  · intro H2 i j hH2 hne2 heq2
    rw [hhp, hHs] at hH2
    injection hH2 with h1
    injection h1 with h1
    subst h1
    exact hwf.hdr_inj H i j hH hne2 heq2
  · intro H2 i hH2 hne2
    rw [hhp, hHs] at hH2
    injection hH2 with h1
    injection h1 with h1
    subst h1
    obtain ⟨Di, hDi, hDiwf⟩ := hwf.dirs H i hH hne2
    refine ⟨Di, ?_, hDiwf⟩
    rw [hkeep _ (ne_of_directory_bucket hDi hB)]
    exact hDi
  · intro H2 i D s hH2 hne2 hD2 hs2x hbne2
    rw [hhp, hHs] at hH2
    injection hH2 with h1
    injection h1 with h1
    subst h1
    rw [hkeep _ (ne_of_directory_bucket hD2 hBs)] at hD2
    by_cases hqb : D.bucket_page_ids_ s = bpid
    · refine ⟨bucket', ?_, hs2⟩
      rw [hqb]
      exact hBs
    · obtain ⟨Bq, hBq, hBqs⟩ := hwf.buckets H i D s hH hne2 hD2 hs2x hbne2
      refine ⟨Bq, ?_, hBqs⟩
      rw [hkeep _ hqb]
      exact hBq
  · intro H2 i j Di Dj si sj hH2 hnei hnej hij hDi hDj hsi hsj hbnei
    rw [hhp, hHs] at hH2
    injection hH2 with h1
    injection h1 with h1
    subst h1
    rw [hkeep _ (ne_of_directory_bucket hDi hBs)] at hDi
    rw [hkeep _ (ne_of_directory_bucket hDj hBs)] at hDj
    exact hwf.disj H i j Di Dj si sj hH hnei hnej hij hDi hDj hsi hsj hbnei
  · intro k0 v0 hk0 hc
    obtain ⟨H0, D0, B0, hH0, hdne0, hD0, hbne0, hB0, i0, hi0, hkv0⟩ := hc
    rw [hH] at hH0
    injection hH0 with h1
    injection h1 with h1
    subst h1
    have hd_ne : H.directory_page_ids_ (H.HashToDirectoryIndex (hash k0)) ≠ bpid :=
      ne_of_directory_bucket hD0 hB
    by_cases hqb : D0.bucket_page_ids_ (hash k0 % 2 ^ D0.global_depth_) = bpid
    · rw [hqb, hB] at hB0
      injection hB0 with h2
      injection h2 with h2
      subst h2
      obtain ⟨j2, hj2, hj2e⟩ := hold i0 hi0 (by rw [hkv0]; exact hk0)
      refine ⟨H, D0, bucket', ?_, hdne0, ?_, hbne0, ?_, ⟨j2, hj2, by rw [hj2e, hkv0]⟩⟩
      · rw [hhp]
        exact hHs
      · rw [hkeep _ hd_ne]
        exact hD0
      · rw [hqb]
        exact hBs
    · refine ⟨H, D0, B0, ?_, hdne0, ?_, hbne0, ?_, ⟨i0, hi0, hkv0⟩⟩
      · rw [hhp]
        exact hHs
      · rw [hkeep _ hd_ne]
        exact hD0
      · rw [hkeep _ hqb]
        exact hB0

/-- `TryMergeBucket`'s directory rewrite keeps the directory well-formed:
the two classes mod `2^(l+1)` of a slot and its split image collapse into
the single class mod `2^l`, all pointing at the survivor. -/
theorem mergeDirectory_wf {d : ExtendibleHTableDirectoryPage} (hd : DirWF d)
    {bidx l : Nat} (hbidx : bidx < 2 ^ d.global_depth_)
    (hld : d.local_depths_ bidx = l + 1)
    (hldi : d.local_depths_ (bidx ^^^ 2 ^ l) = l + 1)
    (hbne : d.bucket_page_ids_ bidx ≠ INVALID_PAGE_ID)
    (hine : d.bucket_page_ids_ (bidx ^^^ 2 ^ l) ≠ INVALID_PAGE_ID)
    {deleted survivor : Int}
    (hds : (deleted = d.bucket_page_ids_ bidx ∧
        survivor = d.bucket_page_ids_ (bidx ^^^ 2 ^ l)) ∨
      (deleted = d.bucket_page_ids_ (bidx ^^^ 2 ^ l) ∧
        survivor = d.bucket_page_ids_ bidx)) :
    DirWF (DiskExtendibleHashTable.mergeDirectory d deleted survivor l) ∧
    deleted ≠ survivor ∧
    (∀ s, d.bucket_page_ids_ s ≠ deleted →
      (DiskExtendibleHashTable.mergeDirectory d deleted survivor l).bucket_page_ids_ s =
        d.bucket_page_ids_ s) ∧
    (∀ s, s < 2 ^ d.global_depth_ →
      (DiskExtendibleHashTable.mergeDirectory d deleted survivor l).bucket_page_ids_ s =
          survivor ∨
      (DiskExtendibleHashTable.mergeDirectory d deleted survivor l).bucket_page_ids_ s =
        d.bucket_page_ids_ s) ∧
    (∀ s, s < 2 ^ d.global_depth_ →
      (DiskExtendibleHashTable.mergeDirectory d deleted survivor l).bucket_page_ids_ s ≠
        deleted) := by
  have hl1g : l + 1 ≤ d.global_depth_ := hld ▸ hd.local_le bidx hbidx
  have h2l : 2 ^ l < 2 ^ d.global_depth_ :=
    Nat.pow_lt_pow_right (by decide) (by omega)
  have hiidx : bidx ^^^ 2 ^ l < 2 ^ d.global_depth_ := by
    have hmod : (bidx ^^^ 2 ^ l) % 2 ^ d.global_depth_ = bidx ^^^ 2 ^ l := by
      rw [xor_mod_two_pow, Nat.mod_eq_of_lt hbidx, Nat.mod_eq_of_lt h2l]
    rw [← hmod]
    exact mod_two_pow_lt _ _
  have himod : (bidx ^^^ 2 ^ l) % 2 ^ l = bidx % 2 ^ l := by
    rw [xor_mod_two_pow, two_pow_mod_two_pow_of_le (Nat.le_refl l), Nat.xor_zero]
  have hbi_ne : d.bucket_page_ids_ bidx ≠ d.bucket_page_ids_ (bidx ^^^ 2 ^ l) := by
    intro he
    have hcm := hd.class_mem bidx hbidx (bidx ^^^ 2 ^ l) hiidx hbne he
    rw [hld] at hcm
    exact split_image_mod_succ_ne bidx l hcm.2.symm
  have hclsB : ∀ j, j < 2 ^ d.global_depth_ →
      (d.bucket_page_ids_ j = d.bucket_page_ids_ bidx ↔
        j % 2 ^ (l + 1) = bidx % 2 ^ (l + 1)) := by
    intro j hj
    have h1 := hd.class_iff hbidx hbne hj
    rw [hld] at h1
    exact h1
  have hclsI : ∀ j, j < 2 ^ d.global_depth_ →
      (d.bucket_page_ids_ j = d.bucket_page_ids_ (bidx ^^^ 2 ^ l) ↔
        j % 2 ^ (l + 1) = (bidx ^^^ 2 ^ l) % 2 ^ (l + 1)) := by
    intro j hj
    have h1 := hd.class_iff hiidx hine hj
    rw [hldi] at h1
    exact h1
  have hmerged : ∀ j, j < 2 ^ d.global_depth_ →
      ((d.bucket_page_ids_ j = d.bucket_page_ids_ bidx ∨
        d.bucket_page_ids_ j = d.bucket_page_ids_ (bidx ^^^ 2 ^ l)) ↔
      j % 2 ^ l = bidx % 2 ^ l) := by
    intro j hj
    constructor
    · intro hc
      rcases hc with hc | hc
      · exact mod_eq_mod_of_mod_eq (Nat.le_succ l) ((hclsB j hj).mp hc)
      · have h1 := mod_eq_mod_of_mod_eq (Nat.le_succ l) ((hclsI j hj).mp hc)
        rw [himod] at h1
        exact h1
    · intro hc
      rcases mod_succ_cases_of_mod_eq hc with h1 | h1
      · exact Or.inl ((hclsB j hj).mpr h1)
      · exact Or.inr ((hclsI j hj).mpr h1)
  have hdsne : deleted ≠ survivor := by
    rcases hds with ⟨h1, h2⟩ | ⟨h1, h2⟩
    · rw [h1, h2]
      exact hbi_ne
    · rw [h1, h2]
      exact fun he => hbi_ne he.symm
  have hin_iff : ∀ j, j < 2 ^ d.global_depth_ →
      ((d.bucket_page_ids_ j = deleted ∨ d.bucket_page_ids_ j = survivor) ↔
      j % 2 ^ l = bidx % 2 ^ l) := by
    intro j hj
    rcases hds with ⟨h1, h2⟩ | ⟨h1, h2⟩
    · rw [h1, h2]
      exact hmerged j hj
    · rw [h1, h2]
      exact Iff.trans or_comm (hmerged j hj)
  have hsne : survivor ≠ INVALID_PAGE_ID := by
    rcases hds with ⟨_, h2⟩ | ⟨_, h2⟩
    · rw [h2]
      exact hine
    · rw [h2]
      exact hbne
  have hpids : ∀ s,
      (DiskExtendibleHashTable.mergeDirectory d deleted survivor l).bucket_page_ids_ s =
      if s < 2 ^ d.global_depth_ ∧ d.bucket_page_ids_ s = deleted then survivor
      else d.bucket_page_ids_ s := fun _ => rfl
  have hlds : ∀ s,
      (DiskExtendibleHashTable.mergeDirectory d deleted survivor l).local_depths_ s =
      if s < 2 ^ d.global_depth_ ∧
          (d.bucket_page_ids_ s = deleted ∨ d.bucket_page_ids_ s = survivor) then l
      else d.local_depths_ s := fun _ => rfl
  -- a slot of the merged class gets the survivor and depth `l`
  have hmem : ∀ s, s < 2 ^ d.global_depth_ → s % 2 ^ l = bidx % 2 ^ l →
      (DiskExtendibleHashTable.mergeDirectory d deleted survivor l).bucket_page_ids_ s =
        survivor ∧
      (DiskExtendibleHashTable.mergeDirectory d deleted survivor l).local_depths_ s = l := by
    intro s hs hcls
    have hor := (hin_iff s hs).mpr hcls
    constructor
    · rw [hpids s]
      rcases Classical.em (d.bucket_page_ids_ s = deleted) with hdel | hdel
      · rw [if_pos ⟨hs, hdel⟩]
      · rw [if_neg (fun hc => hdel hc.2)]
        rcases hor with h1 | h1
        · exact absurd h1 hdel
        · exact h1
    · rw [hlds s, if_pos ⟨hs, hor⟩]
  -- a slot outside the merged class is untouched
  have hout : ∀ s, s < 2 ^ d.global_depth_ → ¬ s % 2 ^ l = bidx % 2 ^ l →
      (DiskExtendibleHashTable.mergeDirectory d deleted survivor l).bucket_page_ids_ s =
        d.bucket_page_ids_ s ∧
      (DiskExtendibleHashTable.mergeDirectory d deleted survivor l).local_depths_ s =
        d.local_depths_ s ∧
      d.bucket_page_ids_ s ≠ deleted ∧ d.bucket_page_ids_ s ≠ survivor := by
    intro s hs hcls
    have hnor : ¬ (d.bucket_page_ids_ s = deleted ∨ d.bucket_page_ids_ s = survivor) :=
      fun hc => hcls ((hin_iff s hs).mp hc)
    refine ⟨?_, ?_, fun hc => hnor (Or.inl hc), fun hc => hnor (Or.inr hc)⟩
    · rw [hpids s, if_neg (fun hc => hnor (Or.inl hc.2))]
    · rw [hlds s, if_neg (fun hc => hnor hc.2)]
  refine ⟨⟨hd.g_le, ?_, ?_, ?_, ?_⟩, hdsne, ?_, ?_, ?_⟩
  · -- local_le
    intro i hi
    rcases Classical.em (i % 2 ^ l = bidx % 2 ^ l) with hcls | hcls
    · have h1 := (hmem i hi hcls).2
      show (DiskExtendibleHashTable.mergeDirectory d deleted survivor l).local_depths_ i ≤
        d.global_depth_
      rw [h1]
      omega
    · have h1 := (hout i hi hcls).2.1
      show (DiskExtendibleHashTable.mergeDirectory d deleted survivor l).local_depths_ i ≤
        d.global_depth_
      rw [h1]
      exact hd.local_le i hi
  · -- class_mem
    intro i hi j hj hne he
    rcases Classical.em (i % 2 ^ l = bidx % 2 ^ l) with hci | hci
    · obtain ⟨hpi, hli⟩ := hmem i hi hci
      have hcj : j % 2 ^ l = bidx % 2 ^ l := by
        rcases Classical.em (j % 2 ^ l = bidx % 2 ^ l) with hc | hc
        · exact hc
        · obtain ⟨hpj, _, _, hjs⟩ := hout j hj hc
          rw [hpi, hpj] at he
          exact absurd he.symm hjs
      obtain ⟨hpj, hlj⟩ := hmem j hj hcj
      refine ⟨by rw [hli, hlj], ?_⟩
      rw [hli, hci, hcj]
    · obtain ⟨hpi, hli, hid, his⟩ := hout i hi hci
      rw [hpi] at hne
      have hcj : ¬ j % 2 ^ l = bidx % 2 ^ l := by
        intro hc
        obtain ⟨hpj, _⟩ := hmem j hj hc
        rw [hpi, hpj] at he
        exact his he
      obtain ⟨hpj, hlj, _, _⟩ := hout j hj hcj
      rw [hpi, hpj] at he
      obtain ⟨h1, h2⟩ := hd.class_mem i hi j hj hne he
      refine ⟨by rw [hli, hlj]; exact h1, by rw [hli]; exact h2⟩
  · -- class_all
    intro i hi hne j hj hcong
    rcases Classical.em (i % 2 ^ l = bidx % 2 ^ l) with hci | hci
    · obtain ⟨hpi, hli⟩ := hmem i hi hci
      rw [hli] at hcong
      have hcj : j % 2 ^ l = bidx % 2 ^ l := by rw [hcong]; exact hci
      obtain ⟨hpj, _⟩ := hmem j hj hcj
      rw [hpi, hpj]
    · obtain ⟨hpi, hli, hid, his⟩ := hout i hi hci
      rw [hpi] at hne
      rw [hli] at hcong
      have h1 := hd.class_all i hi hne j hj hcong
      have hcj : ¬ j % 2 ^ l = bidx % 2 ^ l := by
        intro hc
        apply hci
        have h2 : i % 2 ^ d.local_depths_ i = j % 2 ^ d.local_depths_ i := hcong.symm
        rcases Classical.em (d.bucket_page_ids_ j = deleted ∨
            d.bucket_page_ids_ j = survivor) with hc2 | hc2
        · rcases hc2 with hc2 | hc2
          · rw [hc2] at h1
            exact absurd h1.symm hid
          · rw [hc2] at h1
            exact absurd h1.symm his
        · exact absurd ((hin_iff j hj).mpr hc) hc2
      obtain ⟨hpj, _, _, _⟩ := hout j hj hcj
      rw [hpi, hpj, h1]
  · -- filled
    rcases hd.filled with h0 | hf
    · exact Or.inl h0
    · refine Or.inr ?_
      intro i hi
      rcases Classical.em (i % 2 ^ l = bidx % 2 ^ l) with hci | hci
      · rw [(hmem i hi hci).1]
        exact hsne
      · rw [(hout i hi hci).1]
        exact hf i hi
  · -- untouched slots
    intro s hsd
    rw [hpids s, if_neg (fun hc => hsd hc.2)]
  · -- every live slot: survivor or unchanged
    intro s hs
    rcases Classical.em (d.bucket_page_ids_ s = deleted) with hc | hc
    · exact Or.inl (by rw [hpids s, if_pos ⟨hs, hc⟩])
    · exact Or.inr (by rw [hpids s, if_neg (fun h2 => hc h2.2)])
  · -- the deleted page disappears from the live slots
    intro s hs
    rcases Classical.em (d.bucket_page_ids_ s = deleted) with hc | hc
    · rw [hpids s, if_pos ⟨hs, hc⟩]
      exact fun h2 => hdsne h2.symm
    · rw [hpids s, if_neg (fun h2 => hc h2.2)]
      exact hc

theorem patchPage_header (t : DiskExtendibleHashTable) (p : Int) (pg : HPage) :
    (DiskExtendibleHashTable.patchPage t p pg).header_page_id_ = t.header_page_id_ := rfl

theorem patchPage_next (t : DiskExtendibleHashTable) (p : Int) (pg : HPage) :
    (DiskExtendibleHashTable.patchPage t p pg).next_page_id_ = t.next_page_id_ := rfl

theorem patchPage_pages (t : DiskExtendibleHashTable) (p : Int) (pg : HPage) (q : Int) :
    (DiskExtendibleHashTable.patchPage t p pg).pages_ q =
      if q = p then some pg else t.pages_ q := rfl

/-- One `TryMergeBucket` iteration: deleting the empty half of a merge pair
and rewriting the in-memory directory preserves well-formedness of the
virtual state (the store with the in-memory directory patched in) and every
stored binding. -/
theorem merge_step_table (hash : Int → Nat) {ts : DiskExtendibleHashTable}
    {d : ExtendibleHTableDirectoryPage}
    {H : ExtendibleHTableHeaderPage} {di : Nat} {dpid : Int}
    (hwf : TableWF (DiskExtendibleHashTable.patchPage ts dpid (HPage.directory d)))
    (hH : (DiskExtendibleHashTable.patchPage ts dpid (HPage.directory d)).pages_
      ts.header_page_id_ = some (HPage.header H))
    (hdne : dpid ≠ INVALID_PAGE_ID)
    (hdpid : H.directory_page_ids_ di = dpid)
    {bidx l : Nat} (hbidx : bidx < 2 ^ d.global_depth_)
    (hld : d.local_depths_ bidx = l + 1)
    (hldi : d.local_depths_ (bidx ^^^ 2 ^ l) = l + 1)
    {bucket image : ExtendibleHTableBucketPage}
    (hBb : ts.pages_ (d.bucket_page_ids_ bidx) = some (HPage.bucket bucket))
    (hBi : ts.pages_ (d.bucket_page_ids_ (bidx ^^^ 2 ^ l)) = some (HPage.bucket image))
    (hempty : bucket.size_ = 0 ∨ image.size_ = 0)
    {deleted survivor : Int}
    (hdel : deleted = if image.size_ = 0 then d.bucket_page_ids_ (bidx ^^^ 2 ^ l)
      else d.bucket_page_ids_ bidx)
    (hsurv : survivor = if image.size_ = 0 then d.bucket_page_ids_ bidx
      else d.bucket_page_ids_ (bidx ^^^ 2 ^ l))
    {ts' : DiskExtendibleHashTable}
    (hts' : ts' = { ts with pages_ := fun p =>
      if p = deleted then none else ts.pages_ p }) :
    TableWF (DiskExtendibleHashTable.patchPage ts' dpid (HPage.directory
      (DiskExtendibleHashTable.mergeDirectory d deleted survivor l))) ∧
    ts'.header_page_id_ = ts.header_page_id_ ∧
    ts'.next_page_id_ = ts.next_page_id_ ∧
    (DiskExtendibleHashTable.patchPage ts' dpid (HPage.directory
      (DiskExtendibleHashTable.mergeDirectory d deleted survivor l))).pages_
      ts.header_page_id_ = some (HPage.header H) ∧
    ∀ k0 v0,
      Contains hash (DiskExtendibleHashTable.patchPage ts dpid (HPage.directory d)) k0 v0 →
      Contains hash (DiskExtendibleHashTable.patchPage ts' dpid (HPage.directory
        (DiskExtendibleHashTable.mergeDirectory d deleted survivor l))) k0 v0 := by
  have hdneH : H.directory_page_ids_ di ≠ INVALID_PAGE_ID := by
    rw [hdpid]
    exact hdne
  have hdg : (DiskExtendibleHashTable.patchPage ts dpid (HPage.directory d)).pages_ dpid =
      some (HPage.directory d) := by
    rw [patchPage_pages, if_pos rfl]
  have hDvt : (DiskExtendibleHashTable.patchPage ts dpid (HPage.directory d)).pages_
      (H.directory_page_ids_ di) = some (HPage.directory d) := by
    rw [hdpid]
    exact hdg
  obtain ⟨Dx, hDx, hdwf0⟩ := hwf.dirs H di hH hdneH
  rw [hdpid, hdg] at hDx
  injection hDx with h1
  injection h1 with h1
  rw [← h1] at hdwf0
  have hl1g : l + 1 ≤ d.global_depth_ := hld ▸ hdwf0.local_le bidx hbidx
  have h2l : 2 ^ l < 2 ^ d.global_depth_ :=
    Nat.pow_lt_pow_right (by decide) (by omega)
  have hiidx : bidx ^^^ 2 ^ l < 2 ^ d.global_depth_ := by
    have hmod : (bidx ^^^ 2 ^ l) % 2 ^ d.global_depth_ = bidx ^^^ 2 ^ l := by
      rw [xor_mod_two_pow, Nat.mod_eq_of_lt hbidx, Nat.mod_eq_of_lt h2l]
    rw [← hmod]
    exact mod_two_pow_lt _ _
  -- the matched pages force both slots to be valid
  have hinv_none : (DiskExtendibleHashTable.patchPage ts dpid
      (HPage.directory d)).pages_ INVALID_PAGE_ID = none :=
    hwf.bound INVALID_PAGE_ID (Or.inl (by decide))
  have hts_inv : ts.pages_ INVALID_PAGE_ID = none := by
    rw [patchPage_pages, if_neg (fun hc => hdne hc.symm)] at hinv_none
    exact hinv_none
  have hbpid_ne : d.bucket_page_ids_ bidx ≠ INVALID_PAGE_ID := by
    intro he
    rw [he, hts_inv] at hBb
    cases hBb
  have hipid_ne : d.bucket_page_ids_ (bidx ^^^ 2 ^ l) ≠ INVALID_PAGE_ID := by
    intro he
    rw [he, hts_inv] at hBi
    cases hBi
  -- the two bucket pages live in the virtual state, away from the directory page
  obtain ⟨Bx, hBx, hBxs⟩ := hwf.buckets H di d bidx hH hdneH hDvt hbidx hbpid_ne
  have hbp_dpid : d.bucket_page_ids_ bidx ≠ dpid := (ne_of_directory_bucket hdg hBx).symm
  rw [patchPage_pages, if_neg hbp_dpid, hBb] at hBx
  injection hBx with h2
  injection h2 with h2
  have hBsort_b : BucketSorted bucket := by
    rw [h2]
    exact hBxs
  obtain ⟨Ix, hIx, hIxs⟩ := hwf.buckets H di d (bidx ^^^ 2 ^ l) hH hdneH hDvt hiidx hipid_ne
  have hip_dpid : d.bucket_page_ids_ (bidx ^^^ 2 ^ l) ≠ dpid :=
    (ne_of_directory_bucket hdg hIx).symm
  rw [patchPage_pages, if_neg hip_dpid, hBi] at hIx
  injection hIx with h3
  injection h3 with h3
  have hBsort_i : BucketSorted image := by
    rw [h3]
    exact hIxs
  -- identify deleted/survivor with the pair of class representatives
  have hds : (deleted = d.bucket_page_ids_ bidx ∧
      survivor = d.bucket_page_ids_ (bidx ^^^ 2 ^ l)) ∨
      (deleted = d.bucket_page_ids_ (bidx ^^^ 2 ^ l) ∧
      survivor = d.bucket_page_ids_ bidx) := by
    by_cases himg : image.size_ = 0
    · right
      exact ⟨by rw [hdel, if_pos himg], by rw [hsurv, if_pos himg]⟩
    · left
      exact ⟨by rw [hdel, if_neg himg], by rw [hsurv, if_neg himg]⟩
  obtain ⟨hmdwf, hdsne, hkeeppid, hcasespid, hnodel⟩ :=
    mergeDirectory_wf hdwf0 hbidx hld hldi hbpid_ne hipid_ne hds
  have hdel_bucket : ∃ Bd, ts.pages_ deleted = some (HPage.bucket Bd) ∧ Bd.size_ = 0 := by
    by_cases himg : image.size_ = 0
    · exact ⟨image, by rw [hdel, if_pos himg]; exact hBi, himg⟩
    · rcases hempty with hb0 | hi0
      · exact ⟨bucket, by rw [hdel, if_neg himg]; exact hBb, hb0⟩
      · exact absurd hi0 himg
  obtain ⟨Bd, hBd, hBd0⟩ := hdel_bucket
  have hsurv_bucket : ∃ Bs2, ts.pages_ survivor = some (HPage.bucket Bs2) ∧
      BucketSorted Bs2 := by
    by_cases himg : image.size_ = 0
    · exact ⟨bucket, by rw [hsurv, if_pos himg]; exact hBb, hBsort_b⟩
    · exact ⟨image, by rw [hsurv, if_neg himg]; exact hBi, hBsort_i⟩
  obtain ⟨Bs2, hBs2, hBs2s⟩ := hsurv_bucket
  have hdel_dpid : deleted ≠ dpid := by
    rcases hds with ⟨h4, _⟩ | ⟨h4, _⟩
    · rw [h4]
      exact hbp_dpid
    · rw [h4]
      exact hip_dpid
  have hsurv_dpid : survivor ≠ dpid := by
    rcases hds with ⟨_, h4⟩ | ⟨_, h4⟩
    · rw [h4]
      exact hip_dpid
    · rw [h4]
      exact hbp_dpid
  have hsurv_ne : survivor ≠ INVALID_PAGE_ID := by
    rcases hds with ⟨_, h4⟩ | ⟨_, h4⟩
    · rw [h4]
      exact hipid_ne
    · rw [h4]
      exact hbpid_ne
  have hdelvt : (DiskExtendibleHashTable.patchPage ts dpid (HPage.directory d)).pages_
      deleted = some (HPage.bucket Bd) := by
    rw [patchPage_pages, if_neg hdel_dpid]
    exact hBd
  have hhdr_dpid : ts.header_page_id_ ≠ dpid := ne_of_header_directory hH hdg
  have hhdr_del : ts.header_page_id_ ≠ deleted := ne_of_header_bucket hH hdelvt
  have hsdel : ∃ si, si < 2 ^ d.global_depth_ ∧ d.bucket_page_ids_ si = deleted := by
    rcases hds with ⟨h4, _⟩ | ⟨h4, _⟩
    · exact ⟨bidx, hbidx, h4.symm⟩
    · exact ⟨bidx ^^^ 2 ^ l, hiidx, h4.symm⟩
  obtain ⟨sdel, hsdel_lt, hsdel_eq⟩ := hsdel
  have hssur : ∃ si, si < 2 ^ d.global_depth_ ∧ d.bucket_page_ids_ si = survivor := by
    rcases hds with ⟨_, h4⟩ | ⟨_, h4⟩
    · exact ⟨bidx ^^^ 2 ^ l, hiidx, h4.symm⟩
    · exact ⟨bidx, hbidx, h4.symm⟩
  obtain ⟨ssur, hssur_lt, hssur_eq⟩ := hssur
  -- state-access shorthands
  have hts'pg : ∀ q, ts'.pages_ q = if q = deleted then none else ts.pages_ q := by
    intro q
    rw [hts']
  have hhp' : ts'.header_page_id_ = ts.header_page_id_ := by rw [hts']
  have hnx' : ts'.next_page_id_ = ts.next_page_id_ := by rw [hts']
  have hkeepvt : ∀ q, q ≠ dpid → q ≠ deleted →
      (DiskExtendibleHashTable.patchPage ts' dpid (HPage.directory
        (DiskExtendibleHashTable.mergeDirectory d deleted survivor l))).pages_ q =
      (DiskExtendibleHashTable.patchPage ts dpid (HPage.directory d)).pages_ q := by
    intro q h4 h5
    rw [patchPage_pages, patchPage_pages, if_neg h4, if_neg h4, hts'pg, if_neg h5]
  have hmdg : (DiskExtendibleHashTable.patchPage ts' dpid (HPage.directory
      (DiskExtendibleHashTable.mergeDirectory d deleted survivor l))).pages_ dpid =
      some (HPage.directory (DiskExtendibleHashTable.mergeDirectory d deleted survivor l)) := by
    rw [patchPage_pages, if_pos rfl]
  have hdelnone : (DiskExtendibleHashTable.patchPage ts' dpid (HPage.directory
      (DiskExtendibleHashTable.mergeDirectory d deleted survivor l))).pages_ deleted =
      none := by
    rw [patchPage_pages, if_neg hdel_dpid, hts'pg, if_pos rfl]
  have hHs' : (DiskExtendibleHashTable.patchPage ts' dpid (HPage.directory
      (DiskExtendibleHashTable.mergeDirectory d deleted survivor l))).pages_
      ts.header_page_id_ = some (HPage.header H) := by
    rw [hkeepvt _ hhdr_dpid hhdr_del]
    exact hH
  have hHs'' : (DiskExtendibleHashTable.patchPage ts' dpid (HPage.directory
      (DiskExtendibleHashTable.mergeDirectory d deleted survivor l))).pages_
      (DiskExtendibleHashTable.patchPage ts' dpid (HPage.directory
        (DiskExtendibleHashTable.mergeDirectory d deleted survivor l))).header_page_id_ =
      some (HPage.header H) := by
    rw [patchPage_header, hhp']
    exact hHs'
  refine ⟨⟨?_, ?_, ?_, ?_, ?_, ?_, ?_⟩, hhp', hnx', hHs', ?_⟩
  · -- next_pos
    show 0 < ts'.next_page_id_
    rw [hnx']
    exact hwf.next_pos
  · -- bound
    intro p hp
    have hp2 : p < 0 ∨ ts.next_page_id_ ≤ p := by
      rcases hp with h | h
      · exact Or.inl h
      · refine Or.inr ?_
        rw [← hnx']
        exact h
    have hdrange : 0 ≤ dpid ∧ dpid < ts.next_page_id_ := page_id_range hwf hdg
    have hpd : p ≠ dpid := by
      intro he
      rw [he] at hp2
      omega
    rw [patchPage_pages, if_neg hpd, hts'pg]
    by_cases hpdel : p = deleted
    · rw [if_pos hpdel]
    · rw [if_neg hpdel]
      have h6 := hwf.bound p (by
        rcases hp2 with h | h
        · exact Or.inl h
        · exact Or.inr h)
      rw [patchPage_pages, if_neg hpd] at h6
      exact h6
  · -- header
    exact ⟨H, hHs''⟩
  · -- hdr_inj
    intro H2 i j hH2 hne2 heq2
    rw [hHs''] at hH2
    injection hH2 with h4
    injection h4 with h4
    rw [← h4] at hne2 heq2
    exact hwf.hdr_inj H i j hH hne2 heq2
  · -- dirs
    intro H2 i hH2 hne2
    rw [hHs''] at hH2
    injection hH2 with h4
    injection h4 with h4
    rw [← h4] at hne2 ⊢
    obtain ⟨Di, hDi, hDiwf⟩ := hwf.dirs H i hH hne2
    by_cases hqd : H.directory_page_ids_ i = dpid
    · rw [hqd, hmdg]
      exact ⟨DiskExtendibleHashTable.mergeDirectory d deleted survivor l, rfl, hmdwf⟩
    · have hqdel : H.directory_page_ids_ i ≠ deleted := ne_of_directory_bucket hDi hdelvt
      refine ⟨Di, ?_, hDiwf⟩
      rw [hkeepvt _ hqd hqdel]
      exact hDi
  · -- buckets
    intro H2 i D s hH2 hne2 hD2 hslt hbne2
    rw [hHs''] at hH2
    injection hH2 with h4
    injection h4 with h4
    rw [← h4] at hne2 hD2
    by_cases hqd : H.directory_page_ids_ i = dpid
    · -- the in-memory directory
      rw [hqd, hmdg] at hD2
      injection hD2 with h5
      injection h5 with h5
      rw [← h5] at hslt hbne2 ⊢
      have hslt' : s < 2 ^ d.global_depth_ := hslt
      rcases hcasespid s hslt' with hc | hc
      · rw [hc] at hbne2 ⊢
        refine ⟨Bs2, ?_, hBs2s⟩
        rw [patchPage_pages, if_neg hsurv_dpid, hts'pg,
          if_neg (fun he => hdsne he.symm), hBs2]
      · rw [hc] at hbne2 ⊢
        have hnd : d.bucket_page_ids_ s ≠ deleted := by
          have h6 := hnodel s hslt'
          rw [hc] at h6
          exact h6
        obtain ⟨Bq, hBq, hBqs⟩ := hwf.buckets H di d s hH hdneH hDvt hslt' hbne2
        have hq_dpid : d.bucket_page_ids_ s ≠ dpid :=
          (ne_of_directory_bucket hdg hBq).symm
        refine ⟨Bq, ?_, hBqs⟩
        rw [hkeepvt _ hq_dpid hnd]
        exact hBq
    · -- an untouched directory
      have hqdel : H.directory_page_ids_ i ≠ deleted := by
        intro he
        rw [he, hdelnone] at hD2
        cases hD2
      rw [hkeepvt _ hqd hqdel] at hD2
      obtain ⟨Bq, hBq, hBqs⟩ := hwf.buckets H i D s hH hne2 hD2 hslt hbne2
      have hq_dpid : D.bucket_page_ids_ s ≠ dpid := (ne_of_directory_bucket hdg hBq).symm
      have hij : i ≠ di := by
        intro he
        rw [he, hdpid] at hqd
        exact hqd rfl
      have hq_del : D.bucket_page_ids_ s ≠ deleted := by
        rw [← hsdel_eq]
        exact hwf.disj H i di D d s sdel hH hne2 hdneH hij hD2 hDvt hslt hsdel_lt hbne2
      refine ⟨Bq, ?_, hBqs⟩
      rw [hkeepvt _ hq_dpid hq_del]
      exact hBq
  · -- disj
    intro H2 i j Di2 Dj2 si sj hH2 hnei hnej hij hDi2 hDj2 hsi hsj hbnei
    rw [hHs''] at hH2
    injection hH2 with h4
    injection h4 with h4
    rw [← h4] at hnei hnej hDi2 hDj2
    by_cases hqi : H.directory_page_ids_ i = dpid
    · -- the first directory is the in-memory one; the second is untouched
      have hji : j ≠ i := fun he => hij he.symm
      have hqj : H.directory_page_ids_ j ≠ dpid := by
        intro he
        exact hji (hwf.hdr_inj H j i hH hnej (by rw [he, hqi]))
      have hdij : di = i := hwf.hdr_inj H di i hH hdneH (by rw [hdpid, hqi])
      rw [hqi, hmdg] at hDi2
      injection hDi2 with h5
      injection h5 with h5
      rw [← h5] at hsi hbnei ⊢
      have hqjdel : H.directory_page_ids_ j ≠ deleted := by
        intro he
        rw [he, hdelnone] at hDj2
        cases hDj2
      rw [hkeepvt _ hqj hqjdel] at hDj2
      have hsi' : si < 2 ^ d.global_depth_ := hsi
      have hjdi : di ≠ j := by
        rw [hdij]
        exact hij
      rcases hcasespid si hsi' with hc | hc
      · rw [hc]
        rw [← hssur_eq]
        exact hwf.disj H di j d Dj2 ssur sj hH hdneH hnej hjdi hDvt hDj2 hssur_lt hsj
          (by rw [hssur_eq]; exact hsurv_ne)
      · rw [hc]
        rw [hc] at hbnei
        exact hwf.disj H di j d Dj2 si sj hH hdneH hnej hjdi hDvt hDj2 hsi' hsj hbnei
    · by_cases hqj : H.directory_page_ids_ j = dpid
      · -- the second directory is the in-memory one
        have hdij : di = j := hwf.hdr_inj H di j hH hdneH (by rw [hdpid, hqj])
        rw [hqj, hmdg] at hDj2
        injection hDj2 with h5
        injection h5 with h5
        rw [← h5] at hsj ⊢
        have hqidel : H.directory_page_ids_ i ≠ deleted := by
          intro he
          rw [he, hdelnone] at hDi2
          cases hDi2
        rw [hkeepvt _ hqi hqidel] at hDi2
        have hsj' : sj < 2 ^ d.global_depth_ := hsj
        have hidi : i ≠ di := by
          rw [hdij]
          exact hij
        rcases hcasespid sj hsj' with hc | hc
        · rw [hc]
          rw [← hssur_eq]
          exact hwf.disj H i di Di2 d si ssur hH hnei hdneH hidi hDi2 hDvt hsi hssur_lt
            hbnei
        · rw [hc]
          exact hwf.disj H i di Di2 d si sj hH hnei hdneH hidi hDi2 hDvt hsi hsj' hbnei
      · -- both untouched
        have hqidel : H.directory_page_ids_ i ≠ deleted := by
          intro he
          rw [he, hdelnone] at hDi2
          cases hDi2
        have hqjdel : H.directory_page_ids_ j ≠ deleted := by
          intro he
          rw [he, hdelnone] at hDj2
          cases hDj2
        rw [hkeepvt _ hqi hqidel] at hDi2
        rw [hkeepvt _ hqj hqjdel] at hDj2
        exact hwf.disj H i j Di2 Dj2 si sj hH hnei hnej hij hDi2 hDj2 hsi hsj hbnei
  · -- binding preservation
    intro k0 v0 hc
    obtain ⟨H0, D0, B0, hH0, hdne0, hD0, hbne0, hB0, i0, hi0, hkv0⟩ := hc
    have hH0' : (DiskExtendibleHashTable.patchPage ts dpid (HPage.directory d)).pages_
        ts.header_page_id_ = some (HPage.header H0) := hH0
    rw [hH] at hH0'
    injection hH0' with h4
    injection h4 with h4
    rw [← h4] at hdne0 hD0
    by_cases hqd : H.directory_page_ids_ (H.HashToDirectoryIndex (hash k0)) = dpid
    · -- routed through the merged directory
      rw [hqd, hdg] at hD0
      injection hD0 with h5
      injection h5 with h5
      rw [← h5] at hbne0 hB0
      have hb0_del : d.bucket_page_ids_ (hash k0 % 2 ^ d.global_depth_) ≠ deleted := by
        intro he
        rw [he, hdelvt] at hB0
        injection hB0 with h6
        injection h6 with h6
        rw [← h6] at hi0
        omega
      have hb0_dpid : d.bucket_page_ids_ (hash k0 % 2 ^ d.global_depth_) ≠ dpid :=
        (ne_of_directory_bucket hdg hB0).symm
      refine ⟨H, DiskExtendibleHashTable.mergeDirectory d deleted survivor l, B0, hHs'',
        hdne0, ?_, ?_, ?_, ⟨i0, hi0, hkv0⟩⟩
      · rw [hqd]
        exact hmdg
      · show (DiskExtendibleHashTable.mergeDirectory d deleted survivor l).bucket_page_ids_
          (hash k0 % 2 ^ d.global_depth_) ≠ INVALID_PAGE_ID
        rw [hkeeppid _ hb0_del]
        exact hbne0
      · show (DiskExtendibleHashTable.patchPage ts' dpid (HPage.directory
          (DiskExtendibleHashTable.mergeDirectory d deleted survivor l))).pages_
          ((DiskExtendibleHashTable.mergeDirectory d deleted survivor l).bucket_page_ids_
            (hash k0 % 2 ^ d.global_depth_)) = some (HPage.bucket B0)
        rw [hkeeppid _ hb0_del, hkeepvt _ hb0_dpid hb0_del]
        exact hB0
    · -- routed through an untouched directory
      have hqdel : H.directory_page_ids_ (H.HashToDirectoryIndex (hash k0)) ≠ deleted :=
        ne_of_directory_bucket hD0 hdelvt
      have hb0_dpid : D0.bucket_page_ids_ (hash k0 % 2 ^ D0.global_depth_) ≠ dpid :=
        (ne_of_directory_bucket hdg hB0).symm
      have hdi0_ne : H.HashToDirectoryIndex (hash k0) ≠ di := by
        intro he
        rw [he, hdpid] at hqd
        exact hqd rfl
      have hb0_del : D0.bucket_page_ids_ (hash k0 % 2 ^ D0.global_depth_) ≠ deleted := by
        rw [← hsdel_eq]
        exact hwf.disj H (H.HashToDirectoryIndex (hash k0)) di D0 d
          (hash k0 % 2 ^ D0.global_depth_) sdel hH hdne0 hdneH hdi0_ne hD0 hDvt
          (mod_two_pow_lt _ _) hsdel_lt hbne0
      refine ⟨H, D0, B0, hHs'', hdne0, ?_, hbne0, ?_, ⟨i0, hi0, hkv0⟩⟩
      · rw [hkeepvt _ hqd hqdel]
        exact hD0
      · rw [hkeepvt _ hb0_dpid hb0_del]
        exact hB0

/-- The whole `TryMergeBucket` loop preserves well-formedness of the
virtual state and every stored binding. -/
theorem tryMerge_preserves (hash : Int → Nat) (dpid : Int)
    {H : ExtendibleHTableHeaderPage} {di : Nat}
    (hdne : dpid ≠ INVALID_PAGE_ID) (hdpid : H.directory_page_ids_ di = dpid) :
    ∀ (fuel : Nat) (ts : DiskExtendibleHashTable) (d : ExtendibleHTableDirectoryPage)
      (bidx : Nat), bidx < 2 ^ d.global_depth_ →
    TableWF (DiskExtendibleHashTable.patchPage ts dpid (HPage.directory d)) →
    (DiskExtendibleHashTable.patchPage ts dpid (HPage.directory d)).pages_
      ts.header_page_id_ = some (HPage.header H) →
    TableWF (DiskExtendibleHashTable.patchPage
      (DiskExtendibleHashTable.TryMergeBucket hash fuel ts d bidx).1 dpid
      (HPage.directory (DiskExtendibleHashTable.TryMergeBucket hash fuel ts d bidx).2)) ∧
    (DiskExtendibleHashTable.TryMergeBucket hash fuel ts d bidx).1.header_page_id_ =
      ts.header_page_id_ ∧
    (DiskExtendibleHashTable.TryMergeBucket hash fuel ts d bidx).1.next_page_id_ =
      ts.next_page_id_ ∧
    (DiskExtendibleHashTable.patchPage
      (DiskExtendibleHashTable.TryMergeBucket hash fuel ts d bidx).1 dpid
      (HPage.directory (DiskExtendibleHashTable.TryMergeBucket hash fuel ts d bidx).2)).pages_
      ts.header_page_id_ = some (HPage.header H) ∧
    ∀ k0 v0, Contains hash (DiskExtendibleHashTable.patchPage ts dpid
        (HPage.directory d)) k0 v0 →
      Contains hash (DiskExtendibleHashTable.patchPage
        (DiskExtendibleHashTable.TryMergeBucket hash fuel ts d bidx).1 dpid
        (HPage.directory (DiskExtendibleHashTable.TryMergeBucket hash fuel ts d bidx).2))
        k0 v0 := by
  intro fuel
  induction fuel with
  | zero =>
    intro ts d bidx hbidx hwf hH
    exact ⟨hwf, rfl, rfl, hH, fun k0 v0 hc => hc⟩
  | succ fuel ih =>
    intro ts d bidx hbidx hwf hH
    unfold DiskExtendibleHashTable.TryMergeBucket
    dsimp only
    split
    · -- local depth 0: nothing to merge
      exact ⟨hwf, rfl, rfl, hH, fun k0 v0 hc => hc⟩
    · rename_i h0
      split
      · rename_i hldimg
        split
        · rename_i bucket image heqb heqi
          split
          · rename_i hemp
            obtain ⟨l, hld⟩ : ∃ l, d.local_depths_ bidx = l + 1 :=
              ⟨d.local_depths_ bidx - 1, by omega⟩
            simp only [ExtendibleHTableDirectoryPage.GetSplitImageIndex] at hldimg heqi ⊢
            rw [hld] at hldimg heqi ⊢
            simp only [Nat.add_sub_cancel] at hldimg heqi ⊢
            obtain ⟨hwf1, hhp1, hnx1, hHs1, hpres1⟩ :=
              merge_step_table hash hwf hH hdne hdpid hbidx hld hldimg heqb heqi hemp
                rfl rfl rfl
            have hbidx2 : bidx % 2 ^ l < 2 ^ (DiskExtendibleHashTable.mergeDirectory d
                (if image.size_ = 0 then d.bucket_page_ids_ (bidx ^^^ 2 ^ l)
                  else d.bucket_page_ids_ bidx)
                (if image.size_ = 0 then d.bucket_page_ids_ bidx
                  else d.bucket_page_ids_ (bidx ^^^ 2 ^ l)) l).global_depth_ :=
              Nat.lt_of_le_of_lt (Nat.mod_le bidx (2 ^ l)) hbidx
            obtain ⟨hwf2, hhp2, hnx2, hHs2, hpres2⟩ :=
              ih _ _ (bidx % 2 ^ l) hbidx2 hwf1 hHs1
            exact ⟨hwf2, hhp2, hnx2, hHs2,
              fun k0 v0 hc => hpres2 k0 v0 (hpres1 k0 v0 hc)⟩
          · exact ⟨hwf, rfl, rfl, hH, fun k0 v0 hc => hc⟩
        · exact ⟨hwf, rfl, rfl, hH, fun k0 v0 hc => hc⟩
      · exact ⟨hwf, rfl, rfl, hH, fun k0 v0 hc => hc⟩

/-- A directory that can shrink has positive global depth and all local
depths strictly below it. -/
theorem canShrink_spec {d : ExtendibleHTableDirectoryPage}
    (h : d.CanShrink = true) :
    0 < d.global_depth_ ∧
    ∀ i < 2 ^ d.global_depth_, d.local_depths_ i < d.global_depth_ := by
  unfold ExtendibleHTableDirectoryPage.CanShrink at h
  simp only [List.all_eq_true, List.mem_range, decide_eq_true_eq] at h
  exact ⟨by have h1 := h 0 (two_pow_pos' d.global_depth_); omega, h⟩

/-- One `DecrGlobalDepth` under `CanShrink`: well-formedness is kept, the
arrays are untouched, and routing through the lower depth reaches the same
bucket for every live chain. -/
theorem decrGlobalDepth_wf {d : ExtendibleHTableDirectoryPage} (hd : DirWF d)
    (hcs : d.CanShrink = true) :
    DirWF d.DecrGlobalDepth ∧
    d.DecrGlobalDepth.bucket_page_ids_ = d.bucket_page_ids_ ∧
    d.DecrGlobalDepth.global_depth_ = d.global_depth_ - 1 ∧
    ∀ x : Nat, d.bucket_page_ids_ (x % 2 ^ d.global_depth_) ≠ INVALID_PAGE_ID →
      d.DecrGlobalDepth.bucket_page_ids_ (x % 2 ^ (d.global_depth_ - 1)) =
        d.bucket_page_ids_ (x % 2 ^ d.global_depth_) := by
  obtain ⟨hg0, hlt⟩ := canShrink_spec hcs
  have hpow : 2 ^ (d.global_depth_ - 1) ≤ 2 ^ d.global_depth_ :=
    Nat.pow_le_pow_right (by decide) (by omega)
  have hdg : d.DecrGlobalDepth = { d with global_depth_ := d.global_depth_ - 1 } := by
    unfold ExtendibleHTableDirectoryPage.DecrGlobalDepth
    rw [if_neg (by omega)]
  rw [hdg]
  refine ⟨⟨?_, ?_, ?_, ?_, ?_⟩, rfl, rfl, ?_⟩
  · show d.global_depth_ - 1 ≤ d.max_depth_
    have h1 := hd.g_le
    omega
  · intro i hi
    have hi' : i < 2 ^ d.global_depth_ := Nat.lt_of_lt_of_le hi hpow
    show d.local_depths_ i ≤ d.global_depth_ - 1
    have h1 := hlt i hi'
    omega
  · intro i hi j hj hne he
    exact hd.class_mem i (Nat.lt_of_lt_of_le hi hpow) j (Nat.lt_of_lt_of_le hj hpow) hne he
  · intro i hi hne j hj hcong
    exact hd.class_all i (Nat.lt_of_lt_of_le hi hpow) hne j (Nat.lt_of_lt_of_le hj hpow)
      hcong
  · rcases hd.filled with hz | hf
    · exact absurd hz (by omega)
    · exact Or.inr (fun i hi => hf i (Nat.lt_of_lt_of_le hi hpow))
  · intro x hx
    have hi : x % 2 ^ d.global_depth_ < 2 ^ d.global_depth_ := mod_two_pow_lt _ _
    have hj : x % 2 ^ (d.global_depth_ - 1) < 2 ^ d.global_depth_ :=
      Nat.lt_of_lt_of_le (mod_two_pow_lt _ _) hpow
    have hldle : d.local_depths_ (x % 2 ^ d.global_depth_) ≤ d.global_depth_ - 1 := by
      have h1 := hlt (x % 2 ^ d.global_depth_) hi
      omega
    have hcong : x % 2 ^ (d.global_depth_ - 1) %
        2 ^ d.local_depths_ (x % 2 ^ d.global_depth_) =
        x % 2 ^ d.global_depth_ % 2 ^ d.local_depths_ (x % 2 ^ d.global_depth_) := by
      rw [mod_mod_two_pow hldle, mod_mod_two_pow (by omega)]
    exact hd.class_all (x % 2 ^ d.global_depth_) hi hx (x % 2 ^ (d.global_depth_ - 1))
      hj hcong

/-- The `while (CanShrink()) DecrGlobalDepth();` loop preserves directory
well-formedness, never touches the arrays, only lowers the depth, and keeps
routing every live chain to the same bucket. -/
theorem shrink_spec : ∀ (fuel : Nat) (d : ExtendibleHTableDirectoryPage), DirWF d →
    DirWF (DiskExtendibleHashTable.shrinkDirectory fuel d) ∧
    (DiskExtendibleHashTable.shrinkDirectory fuel d).bucket_page_ids_ =
      d.bucket_page_ids_ ∧
    (DiskExtendibleHashTable.shrinkDirectory fuel d).global_depth_ ≤ d.global_depth_ ∧
    ∀ x : Nat, d.bucket_page_ids_ (x % 2 ^ d.global_depth_) ≠ INVALID_PAGE_ID →
      (DiskExtendibleHashTable.shrinkDirectory fuel d).bucket_page_ids_
        (x % 2 ^ (DiskExtendibleHashTable.shrinkDirectory fuel d).global_depth_) =
      d.bucket_page_ids_ (x % 2 ^ d.global_depth_) := by
  intro fuel
  induction fuel with
  | zero =>
    intro d hd
    exact ⟨hd, rfl, Nat.le_refl _, fun x _ => rfl⟩
  | succ fuel ih =>
    intro d hd
    unfold DiskExtendibleHashTable.shrinkDirectory
    by_cases hcs : d.CanShrink = true
    · rw [if_pos hcs]
      obtain ⟨hdwf1, hpids1, hg1, hroute1⟩ := decrGlobalDepth_wf hd hcs
      obtain ⟨hdwf2, hpids2, hg2, hroute2⟩ := ih d.DecrGlobalDepth hdwf1
      refine ⟨hdwf2, ?_, ?_, ?_⟩
      · rw [hpids2, hpids1]
      · rw [hg1] at hg2
        omega
      · intro x hx
        have hx1 : d.DecrGlobalDepth.bucket_page_ids_
            (x % 2 ^ d.DecrGlobalDepth.global_depth_) =
            d.bucket_page_ids_ (x % 2 ^ d.global_depth_) := by
          rw [hg1]
          exact hroute1 x hx
        have hx2ne : d.DecrGlobalDepth.bucket_page_ids_
            (x % 2 ^ d.DecrGlobalDepth.global_depth_) ≠ INVALID_PAGE_ID := by
          rw [hx1]
          exact hx
        have h3 := hroute2 x hx2ne
        rw [h3, hx1]
    · rw [if_neg hcs]
      exact ⟨hd, rfl, Nat.le_refl _, fun x _ => rfl⟩

/-- Writing the shrunk in-memory directory back over the directory page
preserves well-formedness and every stored binding. -/
theorem patch_shrunk_dir (hash : Int → Nat) {t2 : DiskExtendibleHashTable}
    {d2 ds : ExtendibleHTableDirectoryPage} {H : ExtendibleHTableHeaderPage}
    {di : Nat} {dpid : Int}
    (hwf : TableWF (DiskExtendibleHashTable.patchPage t2 dpid (HPage.directory d2)))
    (hH : (DiskExtendibleHashTable.patchPage t2 dpid (HPage.directory d2)).pages_
      t2.header_page_id_ = some (HPage.header H))
    (hdne : dpid ≠ INVALID_PAGE_ID) (hdpid : H.directory_page_ids_ di = dpid)
    (hdswf : DirWF ds)
    (hpids : ds.bucket_page_ids_ = d2.bucket_page_ids_)
    (hgle : ds.global_depth_ ≤ d2.global_depth_)
    (hroute : ∀ x : Nat,
      d2.bucket_page_ids_ (x % 2 ^ d2.global_depth_) ≠ INVALID_PAGE_ID →
      ds.bucket_page_ids_ (x % 2 ^ ds.global_depth_) =
        d2.bucket_page_ids_ (x % 2 ^ d2.global_depth_)) :
    TableWF (DiskExtendibleHashTable.patchPage t2 dpid (HPage.directory ds)) ∧
    ∀ k0 v0,
      Contains hash (DiskExtendibleHashTable.patchPage t2 dpid (HPage.directory d2)) k0 v0 →
      Contains hash (DiskExtendibleHashTable.patchPage t2 dpid (HPage.directory ds)) k0 v0 := by
  have hdneH : H.directory_page_ids_ di ≠ INVALID_PAGE_ID := by
    rw [hdpid]
    exact hdne
  have hdg2 : (DiskExtendibleHashTable.patchPage t2 dpid (HPage.directory d2)).pages_
      dpid = some (HPage.directory d2) := by
    rw [patchPage_pages, if_pos rfl]
  have hdgs : (DiskExtendibleHashTable.patchPage t2 dpid (HPage.directory ds)).pages_
      dpid = some (HPage.directory ds) := by
    rw [patchPage_pages, if_pos rfl]
  have hDvt : (DiskExtendibleHashTable.patchPage t2 dpid (HPage.directory d2)).pages_
      (H.directory_page_ids_ di) = some (HPage.directory d2) := by
    rw [hdpid]
    exact hdg2
  have hkeep : ∀ q, q ≠ dpid →
      (DiskExtendibleHashTable.patchPage t2 dpid (HPage.directory ds)).pages_ q =
      (DiskExtendibleHashTable.patchPage t2 dpid (HPage.directory d2)).pages_ q := by
    intro q h4
    rw [patchPage_pages, patchPage_pages, if_neg h4, if_neg h4]
  have hhdr_dpid : t2.header_page_id_ ≠ dpid := ne_of_header_directory hH hdg2
  have hHs : (DiskExtendibleHashTable.patchPage t2 dpid (HPage.directory ds)).pages_
      t2.header_page_id_ = some (HPage.header H) := by
    rw [hkeep _ hhdr_dpid]
    exact hH
  have hHs'' : (DiskExtendibleHashTable.patchPage t2 dpid (HPage.directory ds)).pages_
      (DiskExtendibleHashTable.patchPage t2 dpid
        (HPage.directory ds)).header_page_id_ = some (HPage.header H) := by
    rw [patchPage_header]
    exact hHs
  have hpow : 2 ^ ds.global_depth_ ≤ 2 ^ d2.global_depth_ :=
    Nat.pow_le_pow_right (by decide) hgle
  refine ⟨⟨?_, ?_, ?_, ?_, ?_, ?_, ?_⟩, ?_⟩
  · show 0 < t2.next_page_id_
    exact hwf.next_pos
  · intro p hp
    have hdrange : 0 ≤ dpid ∧ dpid < t2.next_page_id_ := page_id_range hwf hdg2
    have hp2 : p < 0 ∨ t2.next_page_id_ ≤ p := hp
    have hpd : p ≠ dpid := by
      intro he
      rw [he] at hp2
      omega
    rw [hkeep _ hpd]
    exact hwf.bound p hp2
  · exact ⟨H, hHs''⟩
  · intro H2 i j hH2 hne2 heq2
    rw [hHs''] at hH2
    injection hH2 with h4
    injection h4 with h4
    rw [← h4] at hne2 heq2
    exact hwf.hdr_inj H i j hH hne2 heq2
  · intro H2 i hH2 hne2
    rw [hHs''] at hH2
    injection hH2 with h4
    injection h4 with h4
    rw [← h4] at hne2 ⊢
    by_cases hqd : H.directory_page_ids_ i = dpid
    · rw [hqd, hdgs]
      exact ⟨ds, rfl, hdswf⟩
    · obtain ⟨Di, hDi, hDiwf⟩ := hwf.dirs H i hH hne2
      refine ⟨Di, ?_, hDiwf⟩
      rw [hkeep _ hqd]
      exact hDi
  · intro H2 i D s hH2 hne2 hD2 hslt hbne2
    rw [hHs''] at hH2
    injection hH2 with h4
    injection h4 with h4
    rw [← h4] at hne2 hD2
    by_cases hqd : H.directory_page_ids_ i = dpid
    · rw [hqd, hdgs] at hD2
      injection hD2 with h5
      injection h5 with h5
      rw [← h5] at hslt hbne2 ⊢
      have hsp : ds.bucket_page_ids_ s = d2.bucket_page_ids_ s := by rw [hpids]
      have hslt2 : s < 2 ^ d2.global_depth_ := Nat.lt_of_lt_of_le hslt hpow
      rw [hsp] at hbne2 ⊢
      obtain ⟨Bq, hBq, hBqs⟩ := hwf.buckets H di d2 s hH hdneH hDvt hslt2 hbne2
      have hq_dpid : d2.bucket_page_ids_ s ≠ dpid :=
        (ne_of_directory_bucket hdg2 hBq).symm
      refine ⟨Bq, ?_, hBqs⟩
      rw [hkeep _ hq_dpid]
      exact hBq
    · rw [hkeep _ hqd] at hD2
      obtain ⟨Bq, hBq, hBqs⟩ := hwf.buckets H i D s hH hne2 hD2 hslt hbne2
      have hq_dpid : D.bucket_page_ids_ s ≠ dpid :=
        (ne_of_directory_bucket hdg2 hBq).symm
      refine ⟨Bq, ?_, hBqs⟩
      rw [hkeep _ hq_dpid]
      exact hBq
  · intro H2 i j Di2 Dj2 si sj hH2 hnei hnej hij hDi2 hDj2 hsi hsj hbnei
    rw [hHs''] at hH2
    injection hH2 with h4
    injection h4 with h4
    rw [← h4] at hnei hnej hDi2 hDj2
    by_cases hqi : H.directory_page_ids_ i = dpid
    · have hji : j ≠ i := fun he => hij he.symm
      have hqj : H.directory_page_ids_ j ≠ dpid := by
        intro he
        exact hji (hwf.hdr_inj H j i hH hnej (by rw [he, hqi]))
      have hdij : di = i := hwf.hdr_inj H di i hH hdneH (by rw [hdpid, hqi])
      rw [hqi, hdgs] at hDi2
      injection hDi2 with h5
      injection h5 with h5
      rw [← h5] at hsi hbnei ⊢
      rw [hkeep _ hqj] at hDj2
      have hsp : ds.bucket_page_ids_ si = d2.bucket_page_ids_ si := by rw [hpids]
      rw [hsp] at hbnei ⊢
      have hsi2 : si < 2 ^ d2.global_depth_ := Nat.lt_of_lt_of_le hsi hpow
      have hjdi : di ≠ j := by
        rw [hdij]
        exact hij
      exact hwf.disj H di j d2 Dj2 si sj hH hdneH hnej hjdi hDvt hDj2 hsi2 hsj hbnei
    · by_cases hqj : H.directory_page_ids_ j = dpid
      · have hdij : di = j := hwf.hdr_inj H di j hH hdneH (by rw [hdpid, hqj])
        rw [hqj, hdgs] at hDj2
        injection hDj2 with h5
        injection h5 with h5
        rw [← h5] at hsj ⊢
        rw [hkeep _ hqi] at hDi2
        have hsp : ds.bucket_page_ids_ sj = d2.bucket_page_ids_ sj := by rw [hpids]
        rw [hsp]
        have hsj2 : sj < 2 ^ d2.global_depth_ := Nat.lt_of_lt_of_le hsj hpow
        have hidi : i ≠ di := by
          rw [hdij]
          exact hij
        exact hwf.disj H i di Di2 d2 si sj hH hnei hdneH hidi hDi2 hDvt hsi hsj2 hbnei
      · rw [hkeep _ hqi] at hDi2
        rw [hkeep _ hqj] at hDj2
        exact hwf.disj H i j Di2 Dj2 si sj hH hnei hnej hij hDi2 hDj2 hsi hsj hbnei
  · intro k0 v0 hc
    obtain ⟨H0, D0, B0, hH0, hdne0, hD0, hbne0, hB0, i0, hi0, hkv0⟩ := hc
    have hH0' : (DiskExtendibleHashTable.patchPage t2 dpid (HPage.directory d2)).pages_
        t2.header_page_id_ = some (HPage.header H0) := hH0
    rw [hH] at hH0'
    injection hH0' with h4
    injection h4 with h4
    rw [← h4] at hdne0 hD0
    by_cases hqd : H.directory_page_ids_ (H.HashToDirectoryIndex (hash k0)) = dpid
    · rw [hqd, hdg2] at hD0
      injection hD0 with h5
      injection h5 with h5
      rw [← h5] at hbne0 hB0
      have hr := hroute (hash k0) hbne0
      have hb0_dpid : d2.bucket_page_ids_ (hash k0 % 2 ^ d2.global_depth_) ≠ dpid :=
        (ne_of_directory_bucket hdg2 hB0).symm
      refine ⟨H, ds, B0, hHs'', hdne0, ?_, ?_, ?_, ⟨i0, hi0, hkv0⟩⟩
      · rw [hqd]
        exact hdgs
      · rw [hr]
        exact hbne0
      · rw [hr, hkeep _ hb0_dpid]
        exact hB0
    · have hb0_dpid : D0.bucket_page_ids_ (hash k0 % 2 ^ D0.global_depth_) ≠ dpid :=
        (ne_of_directory_bucket hdg2 hB0).symm
      refine ⟨H, D0, B0, hHs'', hdne0, ?_, hbne0, ?_, ⟨i0, hi0, hkv0⟩⟩
      · rw [hkeep _ hqd]
        exact hD0
      · rw [hkeep _ hb0_dpid]
        exact hB0

/-- `Remove` preserves the table invariant and every binding of a key other
than the removed one. -/
theorem remove_preserves (hash : Int → Nat) {t : DiskExtendibleHashTable}
    {key : Int} {r : Bool} {t2 : DiskExtendibleHashTable} (hwf : TableWF t)
    (h : DiskExtendibleHashTable.Remove hash t key = .ok (r, t2)) :
    TableWF t2 ∧
    ∀ k0 v0, k0 ≠ key → Contains hash t k0 v0 → Contains hash t2 k0 v0 := by
  unfold DiskExtendibleHashTable.Remove at h
  dsimp only at h
  split at h
  · injection h with h1
    injection h1 with hr ht
    subst ht
    exact ⟨hwf, fun k0 v0 _ hc => hc⟩
  · rename_i hhinv
    split at h
    · rename_i H heq
      by_cases hdinv : H.GetDirectoryPageId (H.HashToDirectoryIndex (hash key)) =
          INVALID_PAGE_ID
      · rw [if_pos hdinv] at h
        injection h with h1
        injection h1 with hr ht
        subst ht
        exact ⟨hwf, fun k0 v0 _ hc => hc⟩
      · rw [if_neg hdinv] at h
        split at h
        · rename_i d0 heqD
          by_cases hbinv : d0.GetBucketPageId (d0.HashToBucketIndex (hash key)) =
              INVALID_PAGE_ID
          · rw [if_pos hbinv] at h
            injection h with h1
            injection h1 with hr ht
            subst ht
            exact ⟨hwf, fun k0 v0 _ hc => hc⟩
          · rw [if_neg hbinv] at h
            split at h
            · rename_i bucket heqB
              split at h
              · cases h
              · injection h with h1
                injection h1 with hr ht
                subst ht
                exact ⟨hwf, fun k0 v0 _ hc => hc⟩
              · rename_i bucket' hrem
                injection h with h1
                injection h1 with hr ht
                subst ht
                -- the physically-removing branch
                obtain ⟨t1, ht1⟩ : ∃ t1', ({ t with
                    pages_ := fun p => if p = d0.GetBucketPageId (d0.HashToBucketIndex (hash key)) then some (HPage.bucket bucket') else t.pages_ p } : DiskExtendibleHashTable) = t1' := ⟨_, rfl⟩
                rw [ht1]
                obtain ⟨hwf1, hpres1⟩ := remove_leaf_step hash hwf heq hdinv
                  (show H.directory_page_ids_ (H.HashToDirectoryIndex (hash key)) =
                    H.GetDirectoryPageId (H.HashToDirectoryIndex (hash key)) from rfl)
                  heqD
                  (show d0.bucket_page_ids_ (hash key % 2 ^ d0.global_depth_) =
                    d0.GetBucketPageId (d0.HashToBucketIndex (hash key)) from rfl)
                  hbinv heqB hrem ht1.symm
                have ht1pg : ∀ q, t1.pages_ q =
                    if q = d0.GetBucketPageId (d0.HashToBucketIndex (hash key))
                    then some (HPage.bucket bucket') else t.pages_ q := by
                  intro q
                  rw [← ht1]
                have ht1hdr : t1.header_page_id_ = t.header_page_id_ := by rw [← ht1]
                have hnd : H.GetDirectoryPageId (H.HashToDirectoryIndex (hash key)) ≠
                    d0.GetBucketPageId (d0.HashToBucketIndex (hash key)) :=
                  ne_of_directory_bucket heqD heqB
                have hhb : t.header_page_id_ ≠
                    d0.GetBucketPageId (d0.HashToBucketIndex (hash key)) :=
                  ne_of_header_bucket heq heqB
                have hhd : t.header_page_id_ ≠
                    H.GetDirectoryPageId (H.HashToDirectoryIndex (hash key)) :=
                  ne_of_header_directory heq heqD
                have ht1D : t1.pages_
                    (H.GetDirectoryPageId (H.HashToDirectoryIndex (hash key))) =
                    some (HPage.directory d0) := by
                  rw [ht1pg, if_neg hnd]
                  exact heqD
                have ht1H : t1.pages_ t.header_page_id_ = some (HPage.header H) := by
                  rw [ht1pg, if_neg hhb]
                  exact heq
                have hvt1pg : ∀ q, (DiskExtendibleHashTable.patchPage t1
                    (H.GetDirectoryPageId (H.HashToDirectoryIndex (hash key)))
                    (HPage.directory d0)).pages_ q = t1.pages_ q := by
                  intro q
                  rw [patchPage_pages]
                  by_cases hq : q =
                      H.GetDirectoryPageId (H.HashToDirectoryIndex (hash key))
                  · rw [if_pos hq, hq, ht1D]
                  · rw [if_neg hq]
                have hvt1wf : TableWF (DiskExtendibleHashTable.patchPage t1
                    (H.GetDirectoryPageId (H.HashToDirectoryIndex (hash key)))
                    (HPage.directory d0)) := tableWF_ext
                  (show (DiskExtendibleHashTable.patchPage t1
                    (H.GetDirectoryPageId (H.HashToDirectoryIndex (hash key)))
                    (HPage.directory d0)).header_page_id_ = t1.header_page_id_ from rfl)
                  (show (DiskExtendibleHashTable.patchPage t1
                    (H.GetDirectoryPageId (H.HashToDirectoryIndex (hash key)))
                    (HPage.directory d0)).next_page_id_ = t1.next_page_id_ from rfl)
                  hvt1pg hwf1
                have hvt1H : (DiskExtendibleHashTable.patchPage t1
                    (H.GetDirectoryPageId (H.HashToDirectoryIndex (hash key)))
                    (HPage.directory d0)).pages_ t1.header_page_id_ =
                    some (HPage.header H) := by
                  rw [hvt1pg, ht1hdr]
                  exact ht1H
                obtain ⟨hwf2, hhp2, hnx2, hHs2, hpres2⟩ :=
                  tryMerge_preserves hash
                    (H.GetDirectoryPageId (H.HashToDirectoryIndex (hash key)))
                    hdinv rfl
                    (d0.local_depths_ (d0.HashToBucketIndex (hash key)) + 1) t1 d0
                    (d0.HashToBucketIndex (hash key))
                    (show d0.HashToBucketIndex (hash key) < 2 ^ d0.global_depth_ from
                      mod_two_pow_lt (hash key) d0.global_depth_)
                    hvt1wf hvt1H
                obtain ⟨TM, hTM⟩ : ∃ x, DiskExtendibleHashTable.TryMergeBucket hash
                    (d0.local_depths_ (d0.HashToBucketIndex (hash key)) + 1) t1 d0
                    (d0.HashToBucketIndex (hash key)) = x := ⟨_, rfl⟩
                rw [hTM] at hwf2 hhp2 hnx2 hHs2 hpres2 ⊢
                -- the merged directory is well-formed
                have hHs2' : (DiskExtendibleHashTable.patchPage TM.1
                    (H.GetDirectoryPageId (H.HashToDirectoryIndex (hash key)))
                    (HPage.directory TM.2)).pages_
                    (DiskExtendibleHashTable.patchPage TM.1
                    (H.GetDirectoryPageId (H.HashToDirectoryIndex (hash key)))
                    (HPage.directory TM.2)).header_page_id_ = some (HPage.header H) := by
                  rw [patchPage_header, hhp2]
                  exact hHs2
                obtain ⟨D2x, hD2x, hd2wf⟩ := hwf2.dirs H
                  (H.HashToDirectoryIndex (hash key)) hHs2' hdinv
                have hD2x' : (DiskExtendibleHashTable.patchPage TM.1
                    (H.GetDirectoryPageId (H.HashToDirectoryIndex (hash key)))
                    (HPage.directory TM.2)).pages_
                    (H.GetDirectoryPageId (H.HashToDirectoryIndex (hash key))) =
                    some (HPage.directory D2x) := hD2x
                rw [patchPage_pages, if_pos rfl] at hD2x'
                injection hD2x' with h5
                injection h5 with h5
                rw [← h5] at hd2wf
                obtain ⟨hdswf, hdspids, hdsgle, hdsroute⟩ :=
                  shrink_spec (TM.2.global_depth_ + 1) TM.2 hd2wf
                have hHs2x : (DiskExtendibleHashTable.patchPage TM.1
                    (H.GetDirectoryPageId (H.HashToDirectoryIndex (hash key)))
                    (HPage.directory TM.2)).pages_ TM.1.header_page_id_ =
                    some (HPage.header H) := by
                  rw [hhp2]
                  exact hHs2
                obtain ⟨hwfS, hpresS⟩ := patch_shrunk_dir hash hwf2 hHs2x hdinv rfl
                  hdswf hdspids hdsgle hdsroute
                refine ⟨hwfS, ?_⟩
                intro k0 v0 hk0 hc
                exact hpresS k0 v0 (hpres2 k0 v0
                  (contains_ext hash
                    (show (DiskExtendibleHashTable.patchPage t1
                      (H.GetDirectoryPageId (H.HashToDirectoryIndex (hash key)))
                      (HPage.directory d0)).header_page_id_ = t1.header_page_id_ from rfl)
                    hvt1pg (hpres1 k0 v0 hk0 hc)))
            · cases h
        · cases h
    · cases h

/-! ### Claim C2: a successful insert persists until the key is removed -/

/-- One client call against the table: an `Insert` (with the recursion fuel
for its split-retry loop) or a `Remove`. -/
inductive TableOp where
  | ins (fuel : Nat) (key value : Int) : TableOp
  | rem (key : Int) : TableOp

/-- Run one call, keeping the previous state when the call reports a fatal
invariant violation. -/
def applyTableOp (hash : Int → Nat) (t : DiskExtendibleHashTable) :
    TableOp → DiskExtendibleHashTable
  | .ins fuel k v =>
    match DiskExtendibleHashTable.Insert hash fuel t k v with
    | .ok (_, t') => t'
    | .error _ => t
  | .rem k =>
    match DiskExtendibleHashTable.Remove hash t k with
    | .ok (_, t') => t'
    | .error _ => t

/-- Run a sequence of calls. -/
def runTable (hash : Int → Nat) (t : DiskExtendibleHashTable) :
    List TableOp → DiskExtendibleHashTable
  | [] => t
  | op :: ops => runTable hash (applyTableOp hash t op) ops

/-- The calls C2 excludes between the `Insert` and the `GetValue`: a
`Remove` of the tracked key. -/
def TableOp.removes (key : Int) : TableOp → Prop
  | .rem k => k = key
  | .ins _ _ _ => False

/-- Any sequence of calls that never removes `key` keeps a stored binding
for `key` stored, and keeps the table well-formed. -/
theorem run_preserves (hash : Int → Nat) (key value : Int) :
    ∀ (ops : List TableOp) (t : DiskExtendibleHashTable), TableWF t →
    Contains hash t key value → (∀ op ∈ ops, ¬ op.removes key) →
    TableWF (runTable hash t ops) ∧ Contains hash (runTable hash t ops) key value := by
  intro ops
  induction ops with
  | nil =>
    intro t hwf hc _
    exact ⟨hwf, hc⟩
  | cons op ops ih =>
    intro t hwf hc hops
    have hop : ¬ op.removes key := hops op (List.mem_cons_self op ops)
    have hops' : ∀ o ∈ ops, ¬ o.removes key :=
      fun o ho => hops o (List.mem_cons_of_mem op ho)
    have hstep : TableWF (applyTableOp hash t op) ∧
        Contains hash (applyTableOp hash t op) key value := by
      cases op with
      | ins fuel k v =>
        unfold applyTableOp
        dsimp only
        split
        · rename_i r t' heq
          obtain ⟨hwf', hpres, _⟩ := insert_preserves hash fuel t k v r t' hwf heq
          exact ⟨hwf', hpres key value hc⟩
        · exact ⟨hwf, hc⟩
      | rem k =>
        unfold applyTableOp
        dsimp only
        split
        · rename_i r t' heq
          obtain ⟨hwf', hpres⟩ := remove_preserves hash hwf heq
          have hkne : ¬ k = key := hop
          exact ⟨hwf', hpres key value (fun he => hkne he.symm) hc⟩
        · exact ⟨hwf, hc⟩
    exact ih (applyTableOp hash t op) hstep.1 hstep.2 hops'

/-- C2: for every key and value, if `Insert(key, value)` returns true then
every subsequent `GetValue(key)` returns the inserted value, across any
further sequence of `Insert` and `Remove` calls that contains no
`Remove(key)` — including calls that trigger bucket splits, directory
growth, merges, and shrinks. -/
theorem insert_persists_until_remove (hash : Int → Nat)
    (fuel : Nat) (t : DiskExtendibleHashTable) (key value : Int)
    (t1 : DiskExtendibleHashTable) (ops : List TableOp)
    (hwf : TableWF t)
    (hins : DiskExtendibleHashTable.Insert hash fuel t key value = .ok (true, t1))
    (hops : ∀ op ∈ ops, ¬ op.removes key) :
    DiskExtendibleHashTable.GetValue hash (runTable hash t1 ops) key = some value := by
  obtain ⟨hwf1, _, hest⟩ := insert_preserves hash fuel t key value true t1 hwf hins
  obtain ⟨hwf2, hc2⟩ := run_preserves hash key value ops t1 hwf1 (hest rfl) hops
  exact getValue_of_contains hash hwf2 hc2

/-- Hash for the C2 witness run: the identity on non-negative keys. -/
def c2hash : Int → Nat := fun k => k.toNat

/-- Fresh table for the C2 witness run. -/
def c2t0 : DiskExtendibleHashTable := DiskExtendibleHashTable.new 0 2 3

/-- The C2 witness table after `Insert(5, 7)`. -/
def c2t1 : DiskExtendibleHashTable :=
  match DiskExtendibleHashTable.Insert c2hash 1 c2t0 5 7 with
  | .ok (_, t') => t'
  | .error _ => c2t0

/-- The C2 witness call sequence after the insert: an unrelated insert and
an unrelated remove. -/
def c2ops : List TableOp := [TableOp.ins 1 9 4, TableOp.rem 9]

/-- Witness for C2 at a concrete run: insert `(5, 7)` into a fresh table,
then insert `(9, 4)` and remove `9`; `GetValue 5` still returns `7`. -/
theorem insert_persists_until_remove_witness :
    DiskExtendibleHashTable.Insert c2hash 1 c2t0 5 7 = .ok (true, c2t1) ∧
    (∀ op ∈ c2ops, ¬ op.removes 5) ∧
    DiskExtendibleHashTable.GetValue c2hash (runTable c2hash c2t1 c2ops) 5 = some 7 := by
  have hops : ∀ op ∈ c2ops, ¬ op.removes 5 := by
    intro op hop
    rcases List.mem_cons.mp hop with h1 | hop2
    · rw [h1]
      exact fun hf => hf
    · rcases List.mem_cons.mp hop2 with h1 | hop3
      · rw [h1]
        intro h9
        exact absurd (show (9 : Int) = 5 from h9) (by decide)
      · exact absurd hop3 (List.not_mem_nil op)
  have hins : DiskExtendibleHashTable.Insert c2hash 1 c2t0 5 7 = .ok (true, c2t1) := rfl
  exact ⟨hins, hops, insert_persists_until_remove c2hash 1 c2t0 5 7 c2t1 c2ops
    (tableWF_new 0 2 3) hins hops⟩

end BusTub
